import Mathlib

/-!
Verification of the odea toolkit's core algorithms: the filename identity
codec (`File.get_filename_parts` / the compose step of `File.rename`), the
tag-file codec (`_make_tags` / `_parse_tags` / `_load_tag_file`), the
derivative-generation policy (`File.derive`), the rename policy
(`File.rename`), identifier recognition (`File.get_uuid` with `RE_UUID`),
and slug generation (`File.slug`).

Python strings are modelled as lists of characters (`Str`).  Python library
functions used by the source (`textwrap.wrap`, `os.path.splitext`,
`str.split`, `str.strip`, `re.findall` on the fixed UUID pattern, and the
`slugify` package) are modelled by executable Lean functions that follow the
reference implementations of those libraries; each model notes the
restrictions under which it is exact.
-/

set_option maxRecDepth 20000

namespace Odea

/-- Python strings, modelled as lists of characters. -/
abbrev Str := List Char

/-- The six characters replaced by `textwrap`'s whitespace munging and
recognised by `str.isspace` / `str.strip` for ASCII text.  (Python's
`str.isspace` also accepts some non-ASCII code points; the tag-codec theorems
below restrict values to printable ASCII, where this set is exact.) -/
def pySpaceChar (c : Char) : Bool :=
  c = ' ' || c = '\t' || c = '\n' || c = '\r' || c = '\x0b' || c = '\x0c'

/-- `s.lstrip(p)`: drop leading characters satisfying `p`. -/
def stripLeft (p : Char → Bool) (s : Str) : Str := s.dropWhile p

/-- `s.rstrip(p)`: drop trailing characters satisfying `p`. -/
def stripRight (p : Char → Bool) (s : Str) : Str := (s.reverse.dropWhile p).reverse

/-- `s.strip(p)`: drop leading and trailing characters satisfying `p`. -/
def pyStrip (p : Char → Bool) (s : Str) : Str := stripRight p (stripLeft p s)

/-- `s.strip()` for ASCII text. -/
def pyStripWs (s : Str) : Str := pyStrip pySpaceChar s

/-- `s.strip('.')`. -/
def pyStripDot (s : Str) : Str := pyStrip (fun c => c = '.') s

/-- ASCII `str.lower` (the source only lower-cases ASCII metadata keys). -/
def pyLower (s : Str) : Str := s.map Char.toLower

/-- `sep` is an initial segment of `s` (helper for Python's `in` and
`str.split(sep)`). -/
def leadsWith : Str → Str → Bool
  | [], _ => true
  | _ :: _, [] => false
  | a :: as, b :: bs => a = b && leadsWith as bs

/-- Python's substring test `sep in s`. -/
def containsSub (sep : Str) : Str → Bool
  | [] => leadsWith sep []
  | s@(_ :: rest) => leadsWith sep s || containsSub sep rest

/-- Index of the first occurrence of `sep` in `s` (leftmost match of
`str.find`). -/
def firstOcc (sep : Str) : Str → Option Nat
  | [] => if leadsWith sep [] then some 0 else none
  | s@(_ :: rest) =>
    if leadsWith sep s then some 0 else (firstOcc sep rest).map (· + 1)

/-- Number of positions at which `sep` occurs in `s` (occurrences may
overlap). -/
def occPos (sep : Str) : Str → Nat
  | [] => if leadsWith sep [] then 1 else 0
  | s@(_ :: rest) => (if leadsWith sep s then 1 else 0) + occPos sep rest

/-- Worker for `pySplitSub`, fuelled (each step removes at least one
character when `sep` is non-empty). -/
def splitSubGo (sep : Str) : Nat → Str → List Str
  | 0, s => [s]
  | fuel + 1, s =>
    match firstOcc sep s with
    | none => [s]
    | some i => s.take i :: splitSubGo sep fuel (s.drop (i + sep.length))

/-- Python's `s.split(sep)` for a non-empty separator: split on every
(non-overlapping, leftmost-first) occurrence. -/
def pySplitSub (sep s : Str) : List Str :=
  if sep.isEmpty then [s] else splitSubGo sep (s.length + 1) s

/-- Python's `s.count(sep)`: number of non-overlapping occurrences found by a
leftmost-first scan (the notion of "occurs n times" used by `str.split`). -/
def countOccGo (sep : Str) : Nat → Str → Nat
  | 0, _ => 0
  | fuel + 1, s =>
    match firstOcc sep s with
    | none => 0
    | some i => countOccGo sep fuel (s.drop (i + sep.length)) + 1

/-- Non-overlapping occurrence count of `sep` in `s`. -/
def countOcc (sep s : Str) : Nat := countOccGo sep (s.length + 1) s

/-- Python's `s.split(c, 1)`: `none` when `c` does not occur, otherwise the
parts before and after the first occurrence. -/
def pySplitOnce (c : Char) (s : Str) : Option (Str × Str) :=
  match firstOcc [c] s with
  | none => none
  | some i => some (s.take i, s.drop (i + 1))

/-- Index of the last character of `s` satisfying `p` (`str.rfind` over a
character class). -/
def lastIdx (p : Char → Bool) : Str → Option Nat
  | [] => none
  | c :: rest =>
    match lastIdx p rest with
    | some i => some (i + 1)
    | none => if p c then some 0 else none

/-- `os.path.splitext` (POSIX flavour): split off the extension at the last
dot of the final path component, treating a component made of leading dots
only (e.g. `.bashrc`) as having no extension.  Mirrors
`genericpath._splitext`. -/
def osPathSplitext (s : Str) : Str × Str :=
  match lastIdx (fun c => c = '.') s with
  | none => (s, [])
  | some d =>
    let f : Nat := match lastIdx (fun c => c = '/') s with
      | none => 0
      | some i => i + 1
    if f ≤ d ∧ ((s.drop f).take (d - f)).any (fun c => c ≠ '.') then
      (s.take d, s.drop d)
    else
      (s, [])

/-- `os.path.basename` (POSIX): everything after the last `/`. -/
def osPathBase (s : Str) : Str :=
  match lastIdx (fun c => c = '/') s with
  | none => s
  | some i => s.drop (i + 1)

/-- `os.path.join a b` (POSIX) for the shapes used by `File.derive`. -/
def osPathJoin (a b : Str) : Str :=
  if b.head? = some '/' then b
  else if a = [] then b
  else if a.getLast? = some '/' then a ++ b
  else a ++ '/' :: b

/-- Python exception kinds raised by the modelled code paths. -/
inductive PyErr where
  | valueError
  | bagValidationError
  deriving Repr, DecidableEq

/-- Truthiness of an optional string (`None` and `''` are falsy). -/
def truthyStr : Option Str → Bool
  | none => false
  | some s => !s.isEmpty

/-! ### Filename identity codec

`File.get_filename_parts` populates `basename`, `format` and `ext` from
`filename` and `identifier`; the compose step of `File.rename` joins the
components back with `'.'`.  These are modelled as pure functions of the
relevant `File` attributes. -/

/-- `File.get_filename_parts` as a pure function of the `filename` and
`identifier` attributes; returns `(basename, format, ext)`.
`Except.error .valueError` models the uncaught `ValueError` of the
two-element unpacking `b, ext = self.filename.split(self.identifier)`
when the split does not yield exactly two parts.  (The `ValueError` of
`base.split('.', 1)` producing one part is caught by the source and mapped
to `format = None`.)  `gfpFinish` is the shared tail of the two branches of
`File.get_filename_parts`: the `self.ext = ext.strip('.')` assignment and
the `base.split('.', 1)` decomposition. -/
def gfpFinish (base extRaw : Str) : Except PyErr (Str × Option Str × Str) :=
  let ext := pyStripDot extRaw
  match pySplitOnce '.' base with
  | some (bn, fm) => .ok (bn, some fm, ext)
  | none => .ok (base, none, ext)

def getFilenameParts (filename : Str) (identifier : Option Str) :
    Except PyErr (Str × Option Str × Str) :=
  if truthyStr identifier ∧ containsSub (identifier.getD []) filename then
    match pySplitSub (identifier.getD []) filename with
    | [b, e] => gfpFinish (pyStripDot b) e
    | _ => .error .valueError
  else
    let (base, extRaw) := osPathSplitext filename
    gfpFinish base extRaw

/-- The compose step of `File.rename`:
`'.'.join([p for p in (basename, format, identifier, ext) if p and p is not ''])`. -/
def composeFn (basename format identifier ext : Option Str) : Str :=
  List.intercalate ['.']
    (([basename, format, identifier, ext].filter truthyStr).map (·.getD []))

/-! ### Derivative generation (`File.derive`)

The filesystem is a list of `(path, isFile)` pairs; `os.path.exists` is key
membership and `os.path.isfile` additionally requires the flag.  The
external converter is an arbitrary state transformer returning an exit
status or a timeout, so theorems can quantify over converter behaviour. -/

/-- Paths present on disk, with a flag marking regular files (as opposed to
directories). -/
abbrev DState := List (Str × Bool)

/-- `os.path.exists`. -/
def dExists (st : DState) (p : Str) : Bool := (List.lookup p st).isSome

/-- `os.path.isfile`. -/
def dIsFile (st : DState) (p : Str) : Bool := List.lookup p st = some true

/-- Outcome of `subprocess.run`: a timeout (`TimeoutExpired`) or an exit
status. -/
inductive ConvRes where
  | timeout
  | exit (code : Int)
  deriving Repr, DecidableEq

/-- The external converter: given the disk state, it returns its outcome and
the new disk state (its effects on disk are arbitrary). -/
def Converter := DState → ConvRes × DState

/-- Levels of the log records emitted by `File.derive` and `File.rename`. -/
inductive LogLevel where
  | info
  | warning
  | error
  deriving Repr, DecidableEq

/-- `DERIV_DIR = os.path.join(DATA_DIR, 'deriv')`. -/
def DERIV_DIR : Str := "data/deriv".data

/-- The target filename computed by `File.derive`:
`os.path.join(target_dir, os.path.basename(basename))` followed by
`"{}.{}.{}.{}".format(..., target.lower().replace('_','-'), identifier, ext)`.
`str(identifier)` renders a missing identifier as the literal `None`. -/
def deriveTarget (basename : Str) (identifier : Option Str)
    (target ext : Str) (targetDir : Str) : Str :=
  let base := osPathJoin targetDir (osPathBase basename)
  let rule := (pyLower target).map (fun c => if c = '_' then '-' else c)
  let idStr := match identifier with
    | none => "None".data
    | some s => s
  base ++ '.' :: rule ++ '.' :: idStr ++ '.' :: ext

/-- Result of one `File.derive` call: the returned value (`None` or the
target path), the disk state afterwards, whether the external converter was
invoked, and the log records emitted. -/
structure DeriveOut where
  result : Option Str
  state : DState
  invoked : Bool
  logs : List LogLevel
  deriving Repr

/-- `File.derive` (modelled from the guard at the top of the method through
the `subprocess.run` outcome analysis).  `basename` and `identifier` are the
`File` attributes; `target`/`ext`/`overwrite`/`targetDir` the call
arguments; `conv` the external converter (the model assumes the conversion
rule names a defined `CMD_*` template, as all calls in the source do).
Timeout lengths (30 s / 3600 s) do not affect the outcome structure and are
not modelled. -/
def derive (basename : Option Str) (identifier : Option Str)
    (target ext : Str) (overwrite : Bool) (targetDir : Option Str)
    (conv : Converter) (st : DState) : DeriveOut :=
  if !truthyStr basename then
    { result := none, state := st, invoked := false, logs := [.error] }
  else
    let tdir := if truthyStr targetDir then targetDir.getD [] else DERIV_DIR
    let targetFn := deriveTarget (basename.getD []) identifier target ext tdir
    if overwrite = false ∧ dExists st targetFn then
      { result := some targetFn, state := st, invoked := false, logs := [] }
    else
      match conv st with
      | (.timeout, st2) =>
        { result := none, state := st2, invoked := true, logs := [.error] }
      | (.exit code, st2) =>
        if code = 0 then
          { result := some targetFn, state := st2, invoked := true, logs := [] }
        else if dIsFile st2 targetFn then
          { result := some targetFn, state := st2, invoked := true,
            logs := [.warning] }
        else
          { result := none, state := st2, invoked := true, logs := [.error] }

/-! ### Rename (`File.rename`) -/

/-- The `File` attributes read by `File.rename`. -/
structure RenameFile where
  filename : Str
  basename : Option Str
  format : Option Str
  identifier : Option Str
  ext : Option Str
  deriving Repr, DecidableEq

/-- Result of one `File.rename` call: the updated in-memory object, the
returned filename, the log records, and the successful on-disk rename
operations performed (`(old, new)` pairs). -/
structure RenameOut where
  file : RenameFile
  ret : Str
  logs : List LogLevel
  diskOps : List (Str × Str)
  deriving Repr, DecidableEq

/-- `File.rename`.  `osRenameOk` abstracts whether `os.rename` succeeds; on
failure (the bare `except:`) nothing changes on disk or in memory and the
error is logged. -/
def rename (f : RenameFile) (osRenameOk : Bool) : RenameOut :=
  let fn := composeFn f.basename f.format f.identifier f.ext
  if f.filename = fn then
    { file := f, ret := f.filename, logs := [.info], diskOps := [] }
  else if !osRenameOk then
    { file := f, ret := f.filename, logs := [.error], diskOps := [] }
  else
    { file := { f with filename := fn }, ret := fn, logs := [],
      diskOps := [(f.filename, fn)] }

/-! ### Identifier recognition (`RE_UUID` and `File.get_uuid`) -/

/-- A character matched by the class `[0-F]` under `re.IGNORECASE`: the
ASCII range `'0'`–`'F'` (which contains the digits, the punctuation
`:;<=>?@`, and `A`–`F`) together with the case-folded `a`–`f`. -/
def reUuidClassChar (c : Char) : Bool :=
  ('0' ≤ c ∧ c ≤ 'F') || ('a' ≤ c ∧ c ≤ 'f')

/-- Try to match `RE_UUID` (`[0-F]{8}-[0-F]{4}-[0-F]{4}-[0-F]{4}-[0-F]{12}`)
at the start of `s`; returns the 36-character match. -/
def matchUuidHere (s : Str) : Option Str :=
  let grab : Nat → Str → Option (Str × Str) := fun n t =>
    let g := t.take n
    if g.length = n ∧ g.all reUuidClassChar then some (g, t.drop n) else none
  match grab 8 s with
  | none => none
  | some (g1, s1) =>
  match s1 with
  | '-' :: s1b =>
    match grab 4 s1b with
    | none => none
    | some (g2, s2) =>
    match s2 with
    | '-' :: s2b =>
      match grab 4 s2b with
      | none => none
      | some (g3, s3) =>
      match s3 with
      | '-' :: s3b =>
        match grab 4 s3b with
        | none => none
        | some (g4, s4) =>
        match s4 with
        | '-' :: s4b =>
          match grab 12 s4b with
          | none => none
          | some (g5, _) =>
            some (g1 ++ '-' :: g2 ++ '-' :: g3 ++ '-' :: g4 ++ '-' :: g5)
        | _ => none
      | _ => none
    | _ => none
  | _ => none

/-- Worker for `findallUuid` (fuelled; each step consumes at least one
character). -/
def findallUuidGo : Nat → Str → List Str
  | 0, _ => []
  | _, [] => []
  | fuel + 1, s@(_ :: rest) =>
    match matchUuidHere s with
    | some m => m :: findallUuidGo fuel (s.drop 36)
    | none => findallUuidGo fuel rest

/-- `re.findall(RE_UUID, s)`: leftmost, non-overlapping matches. -/
def findallUuid (s : Str) : List Str := findallUuidGo (s.length + 1) s

/-- `File.get_uuid` as a function of the current `identifier` attribute and
the `filename`; `fresh` stands for the `uuid.uuid4()` generated when no
match is found.  Returns the new identifier value. -/
def getUuid (identifier : Option Str) (filename : Str) (fresh : Str) : Str :=
  if truthyStr identifier then identifier.getD []
  else
    match (findallUuid filename).getLast? with
    | some m => m
    | none => fresh

/-- The UUID shape stated by the specification: hexadecimal groups
`8-4-4-4-12`, case-insensitive. -/
def specHexUuid (s : Str) : Bool :=
  let hex : Char → Bool := fun c =>
    c.isDigit || ('a' ≤ c ∧ c ≤ 'f') || ('A' ≤ c ∧ c ≤ 'F')
  match (s.splitOn '-').map (fun g => (g.length, g.all hex)) with
  | [(8, b1), (4, b2), (4, b3), (4, b4), (12, b5)] => b1 && b2 && b3 && b4 && b5
  | _ => false

/-! ### Slug generation (`File.slug`)

`File.slug` calls `slugify(basename, max_length=60,
regex_pattern=r'[^-a-z0-9_/.]+')` from the python-slugify package (so
`word_boundary` keeps its default `False`).  The model below follows the
package's pipeline for ASCII input free of apostrophes and HTML character
references (for which the pre-processing steps — unidecode, quote handling,
entity substitution — are the identity). -/

/-- A character kept by the caller-supplied pattern `[^-a-z0-9_/.]+` (runs of
all other characters are replaced by the separator `'-'`). -/
def slugKeepChar (c : Char) : Bool :=
  c = '-' || ('a' ≤ c ∧ c ≤ 'z') || c.isDigit || c = '_' || c = '/' || c = '.'

/-- Worker for `subDisallowed` (fuelled so that the definition reduces by
kernel computation; the fuel `length + 1` always suffices). -/
def subDisallowedGo (keep : Char → Bool) : Nat → Str → Str
  | 0, s => s
  | _, [] => []
  | fuel + 1, c :: cs =>
    if keep c then c :: subDisallowedGo keep fuel cs
    else '-' :: subDisallowedGo keep fuel (cs.dropWhile (fun x => !keep x))

/-- Replace every maximal run of characters not satisfying `keep` by a single
`'-'` (`re.sub(pattern, '-', text)` for a `[^...]+` pattern). -/
def subDisallowed (keep : Char → Bool) (s : Str) : Str :=
  subDisallowedGo keep (s.length + 1) s

/-- Worker for `dedupDash`, fuelled. -/
def dedupDashGo : Nat → Str → Str
  | 0, s => s
  | _, [] => []
  | fuel + 1, '-' :: cs => '-' :: dedupDashGo fuel (cs.dropWhile (fun x => x = '-'))
  | fuel + 1, c :: cs => c :: dedupDashGo fuel cs

/-- Collapse runs of two or more `'-'` into one (`re.sub('-{2,}', '-', s)`). -/
def dedupDash (s : Str) : Str := dedupDashGo (s.length + 1) s

/-- Remove commas standing between two digits
(`re.sub(r'(?<=\d),(?=\d)', '', s)`). -/
def dropNumberCommas : Str → Str
  | a :: ',' :: b :: rest =>
    if a.isDigit ∧ b.isDigit then a :: dropNumberCommas (b :: rest)
    else a :: ',' :: dropNumberCommas (b :: rest)
  | a :: rest => a :: dropNumberCommas rest
  | [] => []

/-- `smart_truncate(s, max_length=60, word_boundary=False, separator='-')`. -/
def smartTruncate (maxLength : Nat) (s : Str) : Str :=
  let s1 := pyStrip (fun c => c = '-') s
  if maxLength = 0 then s1
  else if s1.length < maxLength then s1
  else pyStrip (fun c => c = '-') (s1.take maxLength)

/-- `File.slug`: the python-slugify pipeline with `max_length=60` and the
caller's pattern, for ASCII basenames (lower-case, remove commas between
digits, replace disallowed runs by `'-'`, collapse and strip dashes, then
truncate by a plain character cut). -/
def slug (basename : Str) : Str :=
  let t := pyLower basename
  let t := dropNumberCommas t
  let t := subDisallowed slugKeepChar t
  let t := pyStrip (fun c => c = '-') (dedupDash t)
  smartTruncate 60 t

/-! ### Tag-file codec (`_make_tags`, `_parse_tags`, `_load_tag_file`)

Metadata values are `None`, strings, or lists of `None`/strings — the shapes
that the tag-file loader itself produces and that the entity classes save.
`textwrap.wrap` (width 70, 4-space continuation indent, no hyphen breaking,
no long-word breaking) is modelled by the reference greedy algorithm of
CPython's `textwrap._wrap_chunks`. -/

/-- A Python metadata value: `None`, a string, or a list whose elements are
`None` or strings. -/
inductive PyVal where
  | none
  | str (s : Str)
  | list (vs : List (Option Str))
  deriving Repr, DecidableEq

/-- `str(v)` for the scalars fed to `_make_tags`' value loop. -/
def pyStrOf : Option Str → Str
  | Option.none => "None".data
  | some s => s

/-- `re.sub(r"(\r\n)|\n|\r", " ", v)`: each CRLF pair, lone LF, or lone CR
becomes one space. -/
def subNewlines : Str → Str
  | [] => []
  | [c] => if c = '\r' ∨ c = '\n' then [' '] else [c]
  | c :: d :: rest =>
    if c = '\r' then
      if d = '\n' then ' ' :: subNewlines rest
      else ' ' :: subNewlines (d :: rest)
    else if c = '\n' then ' ' :: subNewlines (d :: rest)
    else c :: subNewlines (d :: rest)

/-- `textwrap`'s whitespace munging (`expand_tabs` with tab size 8 followed
by `replace_whitespace`): expand tabs against the running column, then map
each of the six whitespace characters to a space. -/
def expandTabsGo (col : Nat) : Str → Str
  | [] => []
  | c :: rest =>
    if c = '\t' then
      List.replicate (8 - col % 8) ' ' ++ expandTabsGo (col + (8 - col % 8)) rest
    else if c = '\n' ∨ c = '\r' then c :: expandTabsGo 0 rest
    else c :: expandTabsGo (col + 1) rest

/-- `textwrap` text munging: tab expansion then whitespace replacement. -/
def munge (s : Str) : Str :=
  (expandTabsGo 0 s).map (fun c => if pySpaceChar c then ' ' else c)

/-- Worker for `chunkify`, fuelled. -/
def chunkifyGo : Nat → Str → List Str
  | 0, _ => []
  | _, [] => []
  | fuel + 1, c :: cs =>
    (c :: cs.takeWhile (fun x => (x = ' ') = (c = ' '))) ::
      chunkifyGo fuel (cs.dropWhile (fun x => (x = ' ') = (c = ' ')))

/-- Split munged text into maximal runs of spaces / non-spaces (the chunks
of `textwrap` with `break_on_hyphens=False`, which splits on `(\s+)`). -/
def chunkify (s : Str) : List Str := chunkifyGo (s.length + 1) s

/-- A whitespace chunk (`chunk.strip() == ''`). -/
def wsChunk (ch : Str) : Bool := ch.all pySpaceChar

/-- The greedy packing loop of `_wrap_chunks`: move chunks onto the current
line while the line stays within `width`.  Returns the packed chunks and the
remainder. -/
def packLine (width : Nat) : Nat → List Str → List Str × List Str
  | _, [] => ([], [])
  | curLen, ch :: rest =>
    if curLen + ch.length ≤ width then
      let (line, rem) := packLine width (curLen + ch.length) rest
      (ch :: line, rem)
    else ([], ch :: rest)

/-- Drop a trailing whitespace chunk from a packed line (`drop_whitespace`). -/
def dropTrailWs (line : List Str) : List Str :=
  match line.getLast? with
  | some ch => if wsChunk ch then line.dropLast else line
  | Option.none => line

/-- One-or-more outer iterations of `_wrap_chunks` (fuelled; every
iteration that recurses consumes at least one chunk).  `first` is true while
no line has been emitted (`indent = initial_indent`, leading whitespace kept). -/
def wrapLoop (width : Nat) (subIndent : Str) : Nat → Bool → List Str → List Str
  | 0, _, _ => []
  | _, _, [] => []
  | fuel + 1, first, chunks =>
    let indent := if first then [] else subIndent
    let w := width - indent.length
    let chunks1 :=
      if first = false ∧ (chunks.head?.map wsChunk).getD false then chunks.tail
      else chunks
    match chunks1 with
    | [] => []
    | _ =>
      let (cur0, rem0) := packLine w 0 chunks1
      let (cur1, rem1) :=
        match cur0, rem0 with
        | [], ch :: rest => if ch.length > w then ([ch], rest) else ([], ch :: rest)
        | _, _ => (cur0, rem0)
      let cur := dropTrailWs cur1
      match cur with
      | [] => wrapLoop width subIndent fuel first rem1
      | _ => (indent ++ cur.flatten) :: wrapLoop width subIndent fuel false rem1

/-- `textwrap.wrap(text, width=70, subsequent_indent='    ',
break_on_hyphens=False, break_long_words=False)`. -/
def pyWrap (text : Str) : List Str :=
  let chunks := chunkify (munge text)
  wrapLoop 70 "    ".data (chunks.length + 1) true chunks

/-- `'\r\n'.join(lines)`. -/
def joinCRLF (lines : List Str) : Str := List.intercalate ['\r', '\n'] lines

/-- The presentation-order term list `TERMS`. -/
def TERMS : List Str :=
  ["dcmi_type", "title", "identifier", "creator", "subject", "contributor",
   "coverage", "date", "description", "language", "publisher", "relation",
   "rights", "source", "note"].map String.data

/-- Code-point lexicographic order on strings (Python `str` comparison). -/
def lexLe : Str → Str → Bool
  | [], _ => true
  | _ :: _, [] => false
  | a :: as, b :: bs => if a = b then lexLe as bs else decide (a < b)

/-- Stable insertion into a sorted list (inserting after equal elements), so
that `pySorted` agrees with Python's stable `sorted`. -/
def sortedIns (x : Str) : List Str → List Str
  | [] => [x]
  | y :: ys => if lexLe y x then y :: sortedIns x ys else x :: y :: ys

/-- Python's `sorted` on strings. -/
def pySorted : List Str → List Str
  | [] => []
  | x :: xs => sortedIns x (pySorted xs)

/-- The header order of `_make_tags`: keys whose lower-casing is in `TERMS`
first (in dictionary order), then all remaining keys sorted. -/
def tagHeaders (keys : List Str) : List Str :=
  let tk := keys.filter (fun t => (pyLower t) ∈ TERMS)
  tk ++ (pySorted keys).filter (fun t => !(t ∈ tk))

/-- The drop test of `_make_tags`:
`strip_nulls and values is None or values in ("None", "null")` — note the
Python operator precedence: the comparison with the literal strings is
outside the `strip_nulls` conjunct. -/
def dropField (stripNulls : Bool) (v : PyVal) : Bool :=
  (stripNulls && v = PyVal.none) || v = PyVal.str "None".data
    || v = PyVal.str "null".data

/-- The scalar list iterated by `_make_tags`' inner loop
(`if not isinstance(values, list): values = [values]`). -/
def valueList : PyVal → List (Option Str)
  | PyVal.none => [Option.none]
  | PyVal.str s => [some s]
  | PyVal.list vs => vs

/-- The wrapped tag block emitted for one header and one scalar value:
`textwrap.wrap("{}: {}".format(h, v), ...)` with `h` lower-cased and
underscores replaced by spaces, and CR/LF stripped from the value. -/
def tagBlockLines (k : Str) (v : Option Str) : List Str :=
  let h := (pyLower k).map (fun c => if c = '_' then ' ' else c)
  pyWrap (h ++ ':' :: ' ' :: subNewlines (pyStrOf v))

/-- `_make_tags(metadata, strip_nulls)`.  `metadata` is an association list
standing for the (insertion-ordered, duplicate-free) Python dict. -/
def makeTags (metadata : List (Str × PyVal)) (stripNulls : Bool) : Str :=
  let blocks :=
    (tagHeaders (metadata.map Prod.fst)).flatMap (fun h =>
      let values := (List.lookup h metadata).getD PyVal.none
      if dropField stripNulls values then []
      else (valueList values).map (fun v => joinCRLF (tagBlockLines h v)))
  joinCRLF blocks

/-- Universal-newline line splitting, as seen by `for line in tag_file` after
text-mode decoding (`\r\n`, `\r`, `\n` all end a line; the trailing line
terminators themselves are consumed — the parser strips them anyway). -/
def splitLinesGo (cur : Str) : Str → List Str
  | [] => [cur.reverse]
  | [c] =>
    if c = '\r' ∨ c = '\n' then [cur.reverse, []]
    else [(c :: cur).reverse]
  | c :: d :: rest =>
    if c = '\r' then
      if d = '\n' then cur.reverse :: splitLinesGo [] rest
      else cur.reverse :: splitLinesGo [] (d :: rest)
    else if c = '\n' then cur.reverse :: splitLinesGo [] (d :: rest)
    else splitLinesGo (c :: cur) (d :: rest)

/-- Split text into lines. -/
def splitLines (s : Str) : List Str := splitLinesGo [] s

/-- The field names whose folded continuation lines are joined without a
space in `_parse_tags`. -/
def specialNames : List Str :=
  ["filename", "basename", "sha512", "source"].map String.data

/-- Fold a continuation line into the pending tag
(`tag_value += line.strip()` for the special names, else
`tag_value += ' ' + line.strip()`). -/
def foldInto (nv : Str × Str) (line : Str) : Str × Str :=
  if nv.1 ∈ specialNames then (nv.1, nv.2 ++ pyStripWs line)
  else (nv.1, nv.2 ++ ' ' :: pyStripWs line)

/-- Yield the pending tag (`if tag_name: yield (tag_name, tag_value.strip())`). -/
def emitTag : Option (Str × Str) → List (Str × Str)
  | some (n, v) => if n = [] then [] else [(n, pyStripWs v)]
  | Option.none => []

/-- Normalise a parsed tag name:
`parts[0].strip().lower().replace(" ", "_")`. -/
def normTagName (p : Str) : Str :=
  (pyLower (pyStripWs p)).map (fun c => if c = ' ' then '_' else c)

/-- `_parse_tags`, processing the line list with the pending tag as state
and yielding `(name, value)` pairs; a non-continuation line without a colon
raises `BagValidationError`. -/
def parseLoop (st : Option (Str × Str)) : List Str → Except PyErr (List (Str × Str))
  | [] => .ok (emitTag st)
  | line :: rest =>
    if line.all pySpaceChar then parseLoop st rest
    else if (line.head?.map pySpaceChar).getD false ∧ st.isSome then
      parseLoop ((st.map (fun nv => foldInto nv line))) rest
    else if !containsSub [':'] line then .error .bagValidationError
    else
      match pySplitOnce ':' (pyStripWs line) with
      | Option.none => .error .bagValidationError
      | some (p0, p1) =>
        (emitTag st ++ ·) <$> parseLoop (some (normTagName p0, p1)) rest

/-- The value stored by `_load_tag_file` for one parsed value string (the
literal `None`/`null` decode to Python `None`). -/
def toTagVal (v : Str) : Option Str :=
  if v = "None".data ∨ v = "null".data then Option.none else some v

/-- Promote a scalar into a two-element list on the second occurrence of a
name, or append on later occurrences. -/
def pushVal : PyVal → Option Str → PyVal
  | PyVal.list vs, v0 => PyVal.list (vs ++ [v0])
  | PyVal.none, v0 => PyVal.list [Option.none, v0]
  | PyVal.str s, v0 => PyVal.list [some s, v0]

/-- A decoded scalar tag value as stored in the dict. -/
def scalarOf : Option Str → PyVal
  | Option.none => PyVal.none
  | some s => PyVal.str s

/-- Insert one parsed `(name, value)` pair into the accumulated dict
(`_load_tag_file`'s duplicate handling). -/
def accumIns : List (Str × PyVal) → Str → Option Str → List (Str × PyVal)
  | [], n, v0 => [(n, scalarOf v0)]
  | (k, old) :: rest, n, v0 =>
    if k = n then (k, pushVal old v0) :: rest
    else (k, old) :: accumIns rest n v0

/-- `_load_tag_file`'s accumulation of the parsed pairs into a dict. -/
def accumTags (ps : List (Str × Str)) : List (Str × PyVal) :=
  ps.foldl (fun acc nv => accumIns acc nv.1 (toTagVal nv.2)) []

/-- Decode tag-file text: split into lines, parse, accumulate
(`_load_tag_file` over the text produced by `_make_tags`). -/
def decodeTags (s : Str) : Except PyErr (List (Str × PyVal)) :=
  (parseLoop Option.none (splitLines s)).map accumTags

/-! ### The `File` object and `load_file`

A `File`'s attributes form a Python object dict; `load_file` may `setattr`
arbitrary keys from the sidecar tag file, so the object is modelled as an
association list from attribute names to values.  `load_file`'s path
resolution prelude (`get_root`, `os.chdir`, making the path bag-relative) is
environment glue: the model takes the bag-relative `filename` directly and a
`rootFound` flag for the `get_root` failure branch. -/

/-- A Python object dict (attribute name to value). -/
abbrev FileAttrs := List (Str × PyVal)

/-- The attributes set by `File.__init__` (all `None` except `filename`). -/
def fInit (filename : Str) : FileAttrs :=
  ("filename".data, PyVal.str filename) ::
    (["sha512", "sha256", "size", "mtime", "identifier", "basename", "format",
      "ext", "preview", "dimensions", "duration", "thumb"].map
      (fun k => (k.data, PyVal.none)))

/-- `getattr` (attributes of the modelled `File` always exist). -/
def fGet (f : FileAttrs) (k : Str) : PyVal := (List.lookup k f).getD PyVal.none

/-- `setattr`: update in place, or add a new attribute. -/
def fSet (f : FileAttrs) (k : Str) (v : PyVal) : FileAttrs :=
  match f with
  | [] => [(k, v)]
  | (k0, v0) :: rest => if k0 = k then (k0, v) :: rest else (k0, v0) :: fSet rest k v

/-- Python truthiness of an attribute value. -/
def truthyVal : PyVal → Bool
  | PyVal.none => false
  | PyVal.str s => !s.isEmpty
  | PyVal.list vs => !vs.isEmpty

/-- Read a string attribute (the modelled flows only read `filename`,
`identifier` and `format` where they hold strings or `None`). -/
def fGetStr (f : FileAttrs) (k : Str) : Str :=
  match fGet f k with
  | PyVal.str s => s
  | _ => []

/-- `File.get_uuid`: keep a truthy identifier; otherwise take the last
`RE_UUID` match in the filename, or the fresh `uuid.uuid4()` when there is
none (`IndexError` branch). -/
def fGetUuid (f : FileAttrs) (fresh : Str) : FileAttrs :=
  if truthyVal (fGet f "identifier".data) then f
  else
    match (findallUuid (fGetStr f "filename".data)).getLast? with
    | some m => fSet f "identifier".data (PyVal.str m)
    | Option.none => fSet f "identifier".data (PyVal.str fresh)

/-- The `identifier` attribute as an optional string (it is a string or
`None` on every modelled path). -/
def fIdOpt (f : FileAttrs) : Option Str :=
  match fGet f "identifier".data with
  | PyVal.str s => some s
  | _ => Option.none

/-- The attribute updates performed by `File.get_filename_parts` on
success. -/
def fGfpSet (f : FileAttrs) (r : Str × Option Str × Str) : FileAttrs :=
  fSet (fSet (fSet f "ext".data (PyVal.str r.2.2))
    "basename".data (PyVal.str r.1))
    "format".data
    (match r.2.1 with | some s => PyVal.str s | Option.none => PyVal.none)

/-- `File.get_filename_parts` acting on the attribute dict: sets `ext`,
`basename` and `format` from `filename` and `identifier`, or raises
`ValueError`. -/
def fGfp (f : FileAttrs) : Except PyErr FileAttrs :=
  (getFilenameParts (fGetStr f "filename".data) (fIdOpt f)).map (fGfpSet f)

/-- The `format`-defaulting tail of `File.tag`. -/
def fTagFinish (f2 : FileAttrs) : FileAttrs :=
  if truthyVal (fGet f2 "format".data) then f2
  else fSet f2 "format".data (PyVal.str "SRC".data)

/-- `File.tag`: assign the identifier (argument, or `get_uuid`), decompose
the filename, default `format` to `SRC`. -/
def fTag (f : FileAttrs) (uuidArg : Option Str) (fresh : Str) :
    Except PyErr FileAttrs :=
  (fGfp (if truthyStr uuidArg then
      fSet f "identifier".data (PyVal.str (uuidArg.getD []))
    else fGetUuid f fresh)).map fTagFinish

/-- The attribute names that `load_file` refuses to override from the
sidecar tag file. -/
def skipKeys : List Str :=
  ["filename", "basename", "format", "ext"].map String.data

/-- The sidecar-overlay phase of `load_file`, applied to the decomposed
`File` (`idv` is the identifier; `fs` maps sidecar paths to contents,
membership in its domain modelling `os.path.exists`). -/
def loadFileOverlay (fs : List (Str × Str)) (idv : Str) (f2 : FileAttrs) :
    Except PyErr (Option FileAttrs) :=
  if truthyVal (fGet f2 "format".data) then
    match List.lookup ("file_metadata/".data ++ idv ++ '.' ::
        fGetStr f2 "format".data ++ ".txt".data) fs with
    | Option.none => .ok (some f2)
    | some content =>
      (decodeTags content).map (fun tags =>
        some (tags.foldl (fun acc kv =>
          if kv.1 ∈ skipKeys then acc else fSet acc kv.1 kv.2) f2))
  else .ok (some f2)

/-- `load_file` after the identifier has been recognised. -/
def loadFileWith (fs : List (Str × Str)) (filename : Str) (f : FileAttrs) :
    Except PyErr (Option FileAttrs) :=
  if !containsSub (fGetStr f "identifier".data) filename then .ok (some f)
  else (fGfp f).bind (loadFileOverlay fs (fGetStr f "identifier".data))

/-- `load_file`.  `fs` maps sidecar paths to their contents; `fresh` is the
`uuid.uuid4()` used if the filename contains no identifier; `rootFound`
models the `get_root` outcome (the path-resolution prelude is environment
glue, so the model takes the bag-relative `filename` directly).  Errors
raised by `get_filename_parts` or `_load_tag_file` propagate (the source
does not catch them). -/
def loadFile (rootFound : Bool) (fresh : Str) (fs : List (Str × Str))
    (filename : Str) : Except PyErr (Option FileAttrs) :=
  if !rootFound then .ok Option.none
  else loadFileWith fs filename (fGetUuid (fInit filename) fresh)

instance {ε α : Type} [DecidableEq ε] [DecidableEq α] : DecidableEq (Except ε α) :=
  fun a b =>
    match a, b with
    | .error e1, .error e2 =>
      if h : e1 = e2 then isTrue (by rw [h]) else
        isFalse (fun hc => h (by cases hc; rfl))
    | .error _, .ok _ => isFalse (fun hc => Except.noConfusion hc)
    | .ok _, .error _ => isFalse (fun hc => Except.noConfusion hc)
    | .ok v1, .ok v2 =>
      if h : v1 = v2 then isTrue (by rw [h]) else
        isFalse (fun hc => h (by cases hc; rfl))

/-! ### Specification helpers for the tag-codec round-trip

`textwrap`'s behaviour on the single-space-separated texts produced by
`_make_tags` is described through word lists: `interWords ws` is the chunk
sequence of such a text, `renderSegs` the rendered lines of a segmentation
of the words, `colonize` attaches the colon of `"header: value"` to the
last header word. -/

/-- The chunk sequence of a single-space-separated word list. -/
def interWords (ws : List Str) : List Str := List.intersperse ([' ']) ws

/-- A chunk sequence, optionally preceded by a separator space left over
from the previous line. -/
def chunksOf (lead : Bool) (ws : List Str) : List Str :=
  (if lead then [([' '] : Str)] else []) ++ interWords ws

/-- The lines rendered from a segmentation of the words: the first line
unindented, continuation lines indented by four spaces. -/
def renderSegs (first : Bool) : List (List Str) → List Str
  | [] => []
  | seg :: rest =>
    ((if first then [] else "    ".data) ++ List.intercalate [' '] seg) ::
      renderSegs false rest

/-- Attach `':'` to the last word (the colon of `"header: value"`). -/
def colonize : List Str → List Str
  | [] => [[':']]
  | [w] => [w ++ [':']]
  | w :: rest => w :: colonize rest

/-- The value text accumulated by `_parse_tags` from the folded
continuation lines given by a segmentation. -/
def foldsOf (n : Str) (segs : List (List Str)) : Str :=
  (segs.map (fun seg =>
    (if n ∈ specialNames then [] else [(' ' : Char)]) ++
      List.intercalate [' '] seg)).flatten

/-! ### Well-formedness predicates for the tag-codec round-trip -/

/-- A key-word character: lower-case ASCII letter, digit, or hyphen. -/
def goodKeyChar (c : Char) : Bool :=
  ('a' ≤ c ∧ c ≤ 'z') || c.isDigit || c = '-'

/-- A printable-ASCII word character (no whitespace). -/
def goodWordChar (c : Char) : Bool := 32 < c.toNat && c.toNat < 127

/-- A non-empty printable-ASCII word. -/
def goodWord (w : Str) : Bool := !w.isEmpty && w.all goodWordChar

/-- `hws` exhibits `k` as a well-formed metadata key: non-empty words of
`goodKeyChar` joined by single underscores (so lower-casing and the
underscore/space renaming round-trip), at most 68 characters in all (so the
rendered `"key: "` always fits on the first wrapped line). -/
def KeyWords (k : Str) (hws : List Str) : Prop :=
  hws ≠ [] ∧ (∀ w ∈ hws, w ≠ [] ∧ w.all goodKeyChar = true) ∧
    k = List.intercalate ['_'] hws ∧ k.length ≤ 68

/-- A well-formed metadata key. -/
def GoodKey (k : Str) : Prop := ∃ hws, KeyWords k hws

/-- `vws` exhibits `s` as a well-formed scalar value for key `k`:
single-space-separated printable words (the empty list for the empty
string), not the literal `None`/`null`, and at most one word for the fields
whose continuation lines are joined without a space. -/
def ValWords (k s : Str) (vws : List Str) : Prop :=
  (∀ w ∈ vws, goodWord w = true) ∧ vws ≠ [] ∧
    s = List.intercalate [' '] vws ∧
    ¬(s = "None".data) ∧ ¬(s = "null".data) ∧
    (k ∈ specialNames → vws.length ≤ 1)

/-- A well-formed scalar value for key `k`. -/
def GoodVal (k s : Str) : Prop := ∃ vws, ValWords k s vws

/-- A well-formed field. -/
def GoodField (k : Str) (v : PyVal) : Prop :=
  GoodKey k ∧
    match v with
    | PyVal.none => True
    | PyVal.str s => GoodVal k s
    | PyVal.list vs =>
      2 ≤ vs.length ∧ ∀ e ∈ vs, ∀ s, e = some s → GoodVal k s

/-- A well-formed metadata mapping: distinct keys, all fields well-formed. -/
def goodMapping (m : List (Str × PyVal)) : Prop :=
  (m.map Prod.fst).Nodup ∧ ∀ kv ∈ m, GoodField kv.1 kv.2

/-! ## Theorems -/

theorem length_dropWhile_le (p : Char → Bool) (s : Str) :
    (s.dropWhile p).length ≤ s.length :=
  (List.dropWhile_suffix p).sublist.length_le

theorem length_stripRight_le (p : Char → Bool) (s : Str) :
    (stripRight p s).length ≤ s.length := by
  unfold stripRight
  rw [List.length_reverse]
  calc (s.reverse.dropWhile p).length ≤ s.reverse.length :=
        length_dropWhile_le _ _
    _ = s.length := List.length_reverse s

theorem length_pyStrip_le (p : Char → Bool) (s : Str) :
    (pyStrip p s).length ≤ s.length := by
  unfold pyStrip stripLeft
  calc (stripRight p (s.dropWhile p)).length ≤ (s.dropWhile p).length :=
        length_stripRight_le _ _
    _ ≤ s.length := length_dropWhile_le _ _

theorem dIsFile_exists {st : DState} {p : Str} (h : dIsFile st p = true) :
    dExists st p = true := by
  unfold dIsFile at h
  unfold dExists
  rw [of_decide_eq_true h]
  rfl

/-- Claim C3: derivation idempotency.  For a `File` with a basename set:
(a) if the computed target path already exists and no overwrite was
requested, `File.derive` returns that path immediately without invoking the
converter; (b) assuming the external-converter contract that a zero exit
status leaves the target on disk, two consecutive `derive` calls without
overwrite invoke the converter at most once when the first call returns a
path, and the second call returns the same path without invocation; (c)
with overwrite requested the conversion always runs. -/
theorem claim_C3_derive_idempotent
    (basename identifier : Option Str) (target ext : Str)
    (targetDir : Option Str) (conv : Converter) (st : DState)
    (hbn : truthyStr basename = true)
    (hconv : ∀ s, (conv s).1 = ConvRes.exit 0 →
      dExists (conv s).2
        (deriveTarget (basename.getD []) identifier target ext
          (if truthyStr targetDir then targetDir.getD [] else DERIV_DIR)) = true) :
    (dExists st
        (deriveTarget (basename.getD []) identifier target ext
          (if truthyStr targetDir then targetDir.getD [] else DERIV_DIR)) = true →
      derive basename identifier target ext false targetDir conv st =
        { result := some (deriveTarget (basename.getD []) identifier target ext
            (if truthyStr targetDir then targetDir.getD [] else DERIV_DIR)),
          state := st, invoked := false, logs := [] })
    ∧ ((derive basename identifier target ext false targetDir conv st).result.isSome = true →
      (derive basename identifier target ext false targetDir conv
          (derive basename identifier target ext false targetDir conv st).state).result =
        (derive basename identifier target ext false targetDir conv st).result ∧
      (derive basename identifier target ext false targetDir conv
          (derive basename identifier target ext false targetDir conv st).state).invoked = false ∧
      (cond (derive basename identifier target ext false targetDir conv st).invoked 1 0) +
        (cond (derive basename identifier target ext false targetDir conv
          (derive basename identifier target ext false targetDir conv st).state).invoked 1 0) ≤ 1)
    ∧ (derive basename identifier target ext true targetDir conv st).invoked = true := by
  refine ⟨fun hex => ?_, fun hsome => ?_, ?_⟩
  · simp [derive, hbn, hex]
  · by_cases hex : dExists st
        (deriveTarget (basename.getD []) identifier target ext
          (if truthyStr targetDir then targetDir.getD [] else DERIV_DIR)) = true
    · simp [derive, hbn, hex]
    · rcases hc : conv st with ⟨res, st2⟩
      rcases res with _ | code
      · simp [derive, hbn, hex, hc] at hsome
      · by_cases h0 : code = 0
        · subst h0
          have hx := hconv st
          rw [hc] at hx
          have hex2 := hx rfl
          simp [derive, hbn, hex, hc, hex2]
        · by_cases hfile : dIsFile st2
            (deriveTarget (basename.getD []) identifier target ext
              (if truthyStr targetDir then targetDir.getD [] else DERIV_DIR)) = true
          · have hex2 := dIsFile_exists hfile
            simp [derive, hbn, hex, hc, h0, hfile, hex2]
          · simp [derive, hbn, hex, hc, h0, hfile] at hsome
  · rcases hc : conv st with ⟨res, st2⟩
    rcases res with _ | code
    · simp [derive, hbn, hc]
    · by_cases h0 : code = 0
      · simp [derive, hbn, hc, h0]
      · by_cases hfile : dIsFile st2
          (deriveTarget (basename.getD []) identifier target ext
            (if truthyStr targetDir then targetDir.getD [] else DERIV_DIR)) = true
        · simp [derive, hbn, hc, h0, hfile]
        · simp [derive, hbn, hc, h0, hfile]

/-- Witness for claim C3 at a concrete file, converter and disk state. -/
theorem claim_C3_witness :
    truthyStr (some "data/clip".data) = true ∧
    (derive (some "data/clip".data) (some "u1".data) "DF_MP3".data "mp3".data
      false Option.none
      (fun _ => (ConvRes.exit 0, [("data/deriv/clip.df-mp3.u1.mp3".data, true)]))
      []).result = some "data/deriv/clip.df-mp3.u1.mp3".data := by
  have h := claim_C3_derive_idempotent (some "data/clip".data) (some "u1".data)
    "DF_MP3".data "mp3".data Option.none
    (fun _ => (ConvRes.exit 0, [("data/deriv/clip.df-mp3.u1.mp3".data, true)]))
    [] (by decide)
    (by
      intro s hres
      change dExists [("data/deriv/clip.df-mp3.u1.mp3".data, true)] _ = true
      decide)
  exact ⟨by decide, by decide⟩

/-- Claim C4: the conversion-outcome tri-state of `File.derive` when the
conversion actually runs: timeout → `None` with an error record; zero exit
→ the target path with no anomaly; nonzero exit with the target file on
disk → the target path with a warning record (soft success, distinguishable
from both other outcomes); nonzero exit with no target → `None` with an
error record. -/
theorem claim_C4_conversion_tristate
    (basename identifier : Option Str) (target ext : Str) (overwrite : Bool)
    (targetDir : Option Str) (conv : Converter) (st : DState)
    (hbn : truthyStr basename = true)
    (hrun : ¬(overwrite = false ∧ dExists st
      (deriveTarget (basename.getD []) identifier target ext
        (if truthyStr targetDir then targetDir.getD [] else DERIV_DIR)) = true)) :
    (∀ st2, conv st = (ConvRes.timeout, st2) →
      derive basename identifier target ext overwrite targetDir conv st =
        { result := none, state := st2, invoked := true, logs := [.error] })
    ∧ (∀ st2, conv st = (ConvRes.exit 0, st2) →
      derive basename identifier target ext overwrite targetDir conv st =
        { result := some (deriveTarget (basename.getD []) identifier target ext
            (if truthyStr targetDir then targetDir.getD [] else DERIV_DIR)),
          state := st2, invoked := true, logs := [] })
    ∧ (∀ code st2, conv st = (ConvRes.exit code, st2) → code ≠ 0 →
      dIsFile st2 (deriveTarget (basename.getD []) identifier target ext
        (if truthyStr targetDir then targetDir.getD [] else DERIV_DIR)) = true →
      derive basename identifier target ext overwrite targetDir conv st =
        { result := some (deriveTarget (basename.getD []) identifier target ext
            (if truthyStr targetDir then targetDir.getD [] else DERIV_DIR)),
          state := st2, invoked := true, logs := [.warning] })
    ∧ (∀ code st2, conv st = (ConvRes.exit code, st2) → code ≠ 0 →
      dIsFile st2 (deriveTarget (basename.getD []) identifier target ext
        (if truthyStr targetDir then targetDir.getD [] else DERIV_DIR)) = false →
      derive basename identifier target ext overwrite targetDir conv st =
        { result := none, state := st2, invoked := true, logs := [.error] }) := by
  refine ⟨fun st2 hc => ?_, fun st2 hc => ?_, fun code st2 hc h0 hfile => ?_,
    fun code st2 hc h0 hfile => ?_⟩
  · simp [derive, hbn, hrun, hc]
  · simp [derive, hbn, hrun, hc]
  · simp [derive, hbn, hrun, hc, h0, hfile]
  · simp [derive, hbn, hrun, hc, h0, hfile]

/-- Witness for claim C4: a converter whose nonzero exit still leaves the
target file, observed as a soft success. -/
theorem claim_C4_witness :
    truthyStr (some "data/page".data) = true ∧
    ¬(true = false ∧ dExists [] (deriveTarget "data/page".data (some "u1".data)
        "DF_PDF_HTML".data "pdf".data DERIV_DIR) = true) ∧
    (derive (some "data/page".data) (some "u1".data) "DF_PDF_HTML".data "pdf".data
      true Option.none
      (fun s => (ConvRes.exit 1, s ++ [("data/deriv/page.df-pdf-html.u1.pdf".data, true)]))
      []) =
      { result := some "data/deriv/page.df-pdf-html.u1.pdf".data,
        state := [("data/deriv/page.df-pdf-html.u1.pdf".data, true)],
        invoked := true, logs := [.warning] } := by
  refine ⟨by decide, by decide, ?_⟩
  have h := claim_C4_conversion_tristate (some "data/page".data) (some "u1".data)
    "DF_PDF_HTML".data "pdf".data true Option.none
    (fun s => (ConvRes.exit 1, s ++ [("data/deriv/page.df-pdf-html.u1.pdf".data, true)]))
    [] (by decide) (by decide)
  exact h.2.2.1 1 [("data/deriv/page.df-pdf-html.u1.pdf".data, true)] rfl
    (by decide) (by decide)

/-- Claim C7: rename failure semantics.  If the composed name differs from
the current filename and `os.rename` fails, the error is logged, the
in-memory filename is unchanged and the current filename is returned; if the
composed name equals the current filename, the call is a no-op on disk and
in memory and returns the same filename. -/
theorem claim_C7_rename_failure (f : RenameFile) (osRenameOk : Bool) :
    (composeFn f.basename f.format f.identifier f.ext ≠ f.filename →
      osRenameOk = false →
      rename f osRenameOk =
        { file := f, ret := f.filename, logs := [.error], diskOps := [] })
    ∧ (composeFn f.basename f.format f.identifier f.ext = f.filename →
      rename f osRenameOk =
        { file := f, ret := f.filename, logs := [.info], diskOps := [] }) := by
  constructor
  · intro hne hfail
    unfold rename
    rw [if_neg (fun h => hne h.symm), hfail]
    rfl
  · intro heq
    unfold rename
    rw [if_pos heq.symm]

/-- Witness for claim C7: a failing rename and a no-op rename. -/
theorem claim_C7_witness :
    rename ⟨"data/a.txt".data, some "data/a".data, some "SRC".data,
        some "u1".data, some "rst".data⟩ false =
      { file := ⟨"data/a.txt".data, some "data/a".data, some "SRC".data,
          some "u1".data, some "rst".data⟩,
        ret := "data/a.txt".data, logs := [.error], diskOps := [] } ∧
    rename ⟨"data/a.SRC.u1.rst".data, some "data/a".data, some "SRC".data,
        some "u1".data, some "rst".data⟩ true =
      { file := ⟨"data/a.SRC.u1.rst".data, some "data/a".data, some "SRC".data,
          some "u1".data, some "rst".data⟩,
        ret := "data/a.SRC.u1.rst".data, logs := [.info], diskOps := [] } := by
  constructor
  · exact (claim_C7_rename_failure _ false).1 (by decide) rfl
  · exact (claim_C7_rename_failure _ true).2 (by decide)

/-- Claim C8 (code bug): `RE_UUID` is written `[0-F]` with `re.I`, a
character range that also contains the punctuation `:;<=>?@`, so
`File.get_uuid` extracts a non-hexadecimal pseudo-identifier from a filename
containing `========-====-====-====-============` instead of generating a
fresh version-4 UUID as the specification's hexadecimal-groups pattern
requires. -/
theorem claim_C8_uuid_class_bug :
    ∀ fresh : Str,
      fGet (fGetUuid
          (fInit "data/========-====-====-====-============.txt".data) fresh)
        "identifier".data
        = PyVal.str "========-====-====-====-============".data
      ∧ specHexUuid "========-====-====-====-============".data = false := by
  intro fresh
  constructor
  · rfl
  · decide

/-- Claim C9 (amended): `File.slug` lower-cases, replaces runs outside
`[-a-z0-9_/.]` by `'-'` and truncates to at most 60 characters, but the cut
is a plain character cut (with trailing separators stripped) that can fall
mid-token: the slug of `"data/" + "x"*100` is `"data/" + "x"*55`, of length
exactly 60 and ending in the middle of the run of `x`. -/
theorem claim_C9_slug_truncation :
    (∀ s : Str, (slug s).length ≤ 60)
    ∧ slug ("data/".data ++ List.replicate 100 'x') =
        "data/".data ++ List.replicate 55 'x' := by
  constructor
  · intro s
    unfold slug smartTruncate
    simp only [if_neg (by decide : ¬(60 = 0))]
    by_cases h :
        (pyStrip (fun c => c = '-')
          (pyStrip (fun c => c = '-')
            (dedupDash (subDisallowed slugKeepChar (dropNumberCommas (pyLower s)))))).length < 60
    · rw [if_pos h]
      exact Nat.le_of_lt_succ (Nat.lt_succ_of_lt h)
    · rw [if_neg h]
      calc (pyStrip (fun c => c = '-') _).length
          ≤ (List.take 60 _).length := length_pyStrip_le _ _
        _ ≤ 60 := by simp
  · decide

/-- Counterexample to claim C9 as stated: the truncated slug of
`"data/" + "x"*100` ends in `'x'`, not on a separator boundary. -/
theorem claim_C9_counterexample :
    (slug ("data/".data ++ List.replicate 100 'x')).getLast? = some 'x' ∧
      ('x' = '-') = False := by
  constructor
  · decide
  · simp

/-! ### Lemmas on occurrences and splitting (for the filename codec) -/

theorem leadsWith_append_self (sep t : Str) : leadsWith sep (sep ++ t) = true := by
  induction sep with
  | nil => rfl
  | cons c cs ih => simp [leadsWith, ih]

theorem occPos_nil (sep : Str) :
    occPos sep [] = if leadsWith sep [] then 1 else 0 := rfl

theorem occPos_cons (sep : Str) (c : Char) (rest : Str) :
    occPos sep (c :: rest) =
      (if leadsWith sep (c :: rest) then 1 else 0) + occPos sep rest := rfl

theorem occPos_append_ge (sep x t : Str) : occPos sep t ≤ occPos sep (x ++ t) := by
  induction x with
  | nil => simp
  | cons c cs ih =>
    rw [List.cons_append, occPos_cons]
    exact le_trans ih (Nat.le_add_left _ _)

theorem occPos_sep_append {sep : Str} (hsep : sep ≠ []) (t : Str) :
    1 + occPos sep t ≤ occPos sep (sep ++ t) := by
  match sep, hsep with
  | c :: cs, _ =>
    rw [List.cons_append, occPos_cons, if_pos]
    · have h2 : occPos (c :: cs) t ≤ occPos (c :: cs) (cs ++ t) :=
        occPos_append_ge _ _ _
      omega
    · rw [← List.cons_append]
      exact leadsWith_append_self (c :: cs) t

theorem firstOcc_nil (sep : Str) :
    firstOcc sep [] = if leadsWith sep [] then some 0 else none := rfl

theorem firstOcc_cons (sep : Str) (c : Char) (rest : Str) :
    firstOcc sep (c :: rest) =
      if leadsWith sep (c :: rest) then some 0
      else (firstOcc sep rest).map (· + 1) := rfl

theorem firstOcc_none_of_occPos_zero {sep s : Str} (h : occPos sep s = 0) :
    firstOcc sep s = none := by
  induction s with
  | nil =>
    rw [occPos_nil] at h
    rw [firstOcc_nil]
    split at h
    · omega
    · simp [*]
  | cons c rest ih =>
    rw [occPos_cons] at h
    rw [firstOcc_cons]
    split at h
    · omega
    · rw [if_neg (by simp [*])]
      rw [ih (by omega)]
      rfl

theorem splitSubGo_of_none {sep s : Str} (h : firstOcc sep s = none) (fuel : Nat) :
    splitSubGo sep fuel s = [s] := by
  cases fuel with
  | zero => rfl
  | succ n =>
    unfold splitSubGo
    rw [h]

theorem firstOcc_at {sep : Str} (pre suf : Str) (hsep : sep ≠ [])
    (h1 : occPos sep (pre ++ (sep ++ suf)) = 1) :
    firstOcc sep (pre ++ (sep ++ suf)) = some pre.length := by
  induction pre with
  | nil =>
    match sep, hsep with
    | c :: cs, _ =>
      rw [List.nil_append, List.cons_append, firstOcc_cons, if_pos]
      · rfl
      · rw [← List.cons_append]
        exact leadsWith_append_self (c :: cs) suf
  | cons c pre' ih =>
    have hge : 1 ≤ occPos sep (pre' ++ (sep ++ suf)) := by
      have h2 := occPos_append_ge sep pre' (sep ++ suf)
      have h3 := occPos_sep_append hsep suf
      omega
    rw [List.cons_append, occPos_cons] at h1
    by_cases hl : leadsWith sep (c :: (pre' ++ (sep ++ suf))) = true
    · rw [if_pos hl] at h1
      omega
    · rw [if_neg hl] at h1
      rw [List.cons_append, firstOcc_cons, if_neg hl, ih (by omega)]
      rfl

theorem occPos_one_suf {sep pre suf : Str} (hsep : sep ≠ [])
    (h1 : occPos sep (pre ++ (sep ++ suf)) = 1) : occPos sep suf = 0 := by
  have h2 := occPos_append_ge sep pre (sep ++ suf)
  have h3 := occPos_sep_append hsep suf
  omega

theorem isEmpty_false_of_ne {s : Str} (h : s ≠ []) : s.isEmpty = false := by
  cases s with
  | nil => exact absurd rfl h
  | cons c cs => rfl

theorem splitSubGo_succ (sep : Str) (fuel : Nat) (s : Str) :
    splitSubGo sep (fuel + 1) s =
      match firstOcc sep s with
      | none => [s]
      | some i => s.take i :: splitSubGo sep fuel (s.drop (i + sep.length)) := rfl

theorem splitSub_unique {sep pre suf : Str} (hsep : sep ≠ [])
    (h1 : occPos sep (pre ++ (sep ++ suf)) = 1) :
    pySplitSub sep (pre ++ (sep ++ suf)) = [pre, suf] := by
  have htake : (pre ++ (sep ++ suf)).take pre.length = pre := List.take_left _ _
  have hdrop : (pre ++ (sep ++ suf)).drop (pre.length + sep.length) = suf := by
    rw [← List.append_assoc]
    have h2 : pre.length + sep.length = (pre ++ sep).length := by
      simp [List.length_append]
    rw [h2, List.drop_left]
  unfold pySplitSub
  rw [if_neg (by rw [isEmpty_false_of_ne hsep]; exact Bool.false_ne_true)]
  rw [splitSubGo_succ, firstOcc_at pre suf hsep h1]
  simp only [htake, hdrop]
  rw [splitSubGo_of_none
    (firstOcc_none_of_occPos_zero (occPos_one_suf hsep h1))]

theorem containsSub_of_occPos_pos {sep s : Str} (h : 0 < occPos sep s) :
    containsSub sep s = true := by
  induction s with
  | nil =>
    rw [occPos_nil] at h
    unfold containsSub
    split at h
    · assumption
    · omega
  | cons c rest ih =>
    rw [occPos_cons] at h
    unfold containsSub
    by_cases hl : leadsWith sep (c :: rest) = true
    · rw [hl]; rfl
    · rw [if_neg hl] at h
      rw [Bool.or_eq_true]
      exact Or.inr (ih (by omega))

/-! ### Lemmas on `strip` and single-character splitting -/

theorem dropWhile_head_false {p : Char → Bool} {s : Str}
    (h : ∀ c, s.head? = some c → p c = false) : List.dropWhile p s = s := by
  cases s with
  | nil => rfl
  | cons c cs => rw [List.dropWhile_cons, h c rfl]; simp

theorem dropWhile_all_append {p : Char → Bool} {xs ys : Str}
    (hxs : ∀ c ∈ xs, p c = true)
    (hys : ∀ c, ys.head? = some c → p c = false) :
    List.dropWhile p (xs ++ ys) = ys := by
  induction xs with
  | nil => exact dropWhile_head_false hys
  | cons c cs ih =>
    rw [List.cons_append, List.dropWhile_cons, hxs c (by simp)]
    simp only [if_pos]
    exact ih (fun d hd => hxs d (by simp [hd]))

theorem head_mem_of_head? {s : Str} {c : Char} (h : s.head? = some c) : c ∈ s := by
  cases s with
  | nil => simp at h
  | cons a as =>
    simp only [List.head?_cons, Option.some.injEq] at h
    rw [← h]
    exact List.mem_cons_self a as

theorem stripLeft_no_head {p : Char → Bool} {s : Str}
    (h : ∀ c, s.head? = some c → p c = false) : stripLeft p s = s :=
  dropWhile_head_false h

/-- Strip on the right when the string is `body ++ tail`, all of `tail`
satisfies `p`, and the last character of `body` does not. -/
theorem stripRight_append {p : Char → Bool} {body tail : Str}
    (htail : ∀ c ∈ tail, p c = true)
    (hbody : ∀ c, body.getLast? = some c → p c = false) :
    stripRight p (body ++ tail) = body := by
  unfold stripRight
  rw [List.reverse_append]
  rw [dropWhile_all_append (fun c hc => htail c (by simpa using hc))
    (fun c hc => hbody c (by rwa [← List.head?_reverse]))]
  exact List.reverse_reverse body

theorem firstOcc_char_cons (ch c : Char) (rest : Str) :
    firstOcc [ch] (c :: rest) =
      if ch = c then some 0 else (firstOcc [ch] rest).map (· + 1) := by
  rw [firstOcc_cons]
  by_cases h : ch = c
  · rw [if_pos (by simp [leadsWith, h]), if_pos h]
  · rw [if_neg (by simp [leadsWith, h]), if_neg h]

theorem firstOcc_char_none {ch : Char} {s : Str} (h : ∀ c ∈ s, c ≠ ch) :
    firstOcc [ch] s = none := by
  induction s with
  | nil => rfl
  | cons c cs ih =>
    rw [firstOcc_char_cons, if_neg (fun he => h c (by simp) he.symm),
      ih (fun d hd => h d (by simp [hd]))]
    rfl

theorem firstOcc_char_append {ch : Char} {bn rest : Str}
    (h : ∀ c ∈ bn, c ≠ ch) :
    firstOcc [ch] (bn ++ ch :: rest) = some bn.length := by
  induction bn with
  | nil => rw [List.nil_append, firstOcc_char_cons, if_pos rfl]; rfl
  | cons c cs ih =>
    rw [List.cons_append, firstOcc_char_cons,
      if_neg (fun he => h c (by simp) he.symm),
      ih (fun d hd => h d (by simp [hd]))]
    rfl

theorem pySplitOnce_none {ch : Char} {s : Str} (h : ∀ c ∈ s, c ≠ ch) :
    pySplitOnce ch s = none := by
  unfold pySplitOnce
  rw [firstOcc_char_none h]

theorem pySplitOnce_append {ch : Char} {bn rest : Str} (h : ∀ c ∈ bn, c ≠ ch) :
    pySplitOnce ch (bn ++ ch :: rest) = some (bn, rest) := by
  have htake : (bn ++ ch :: rest).take bn.length = bn := List.take_left _ _
  have hdrop : (bn ++ ch :: rest).drop (bn.length + 1) = rest := by
    have h2 : bn.length + 1 = (bn ++ [ch]).length := by simp
    rw [h2, show bn ++ ch :: rest = (bn ++ [ch]) ++ rest by simp, List.drop_left]
  unfold pySplitOnce
  rw [firstOcc_char_append h]
  simp only [htake, hdrop]

theorem pyStripDot_wrap {body : Str} (hne : body ≠ [])
    (hh : ∀ c, body.head? = some c → c ≠ '.')
    (hl : ∀ c, body.getLast? = some c → c ≠ '.') :
    pyStripDot (body ++ ['.']) = body := by
  unfold pyStripDot pyStrip
  have h1 : stripLeft (fun c => c = '.') (body ++ ['.']) = body ++ ['.'] := by
    apply stripLeft_no_head
    intro c hc
    cases body with
    | nil => exact absurd rfl hne
    | cons b bs =>
      rw [List.cons_append, List.head?_cons, Option.some.injEq] at hc
      subst hc
      exact decide_eq_false (hh b rfl)
  rw [h1]
  exact stripRight_append (by intro c hc; simp at hc; simp [hc])
    (fun c hc => decide_eq_false (hl c hc))

theorem pyStripDot_lead {ext : Str}
    (hh : ∀ c, ext.head? = some c → c ≠ '.')
    (hl : ∀ c, ext.getLast? = some c → c ≠ '.') :
    pyStripDot ('.' :: ext) = ext := by
  unfold pyStripDot pyStrip
  have h1 : stripLeft (fun c => c = '.') ('.' :: ext) = ext := by
    unfold stripLeft
    rw [List.dropWhile_cons, if_pos (by simp)]
    exact dropWhile_head_false (fun c hc => decide_eq_false (hh c hc))
  rw [h1]
  have h2 : stripRight (fun c => c = '.') (ext ++ []) = ext :=
    stripRight_append (by intro c hc; simp at hc)
      (fun c hc => decide_eq_false (hl c hc))
  rw [List.append_nil] at h2
  exact h2

theorem composeFn_none (bn idv ext : Str) (hbn : bn ≠ []) (hid : idv ≠ [])
    (hext : ext ≠ []) :
    composeFn (some bn) Option.none (some idv) (some ext) =
      (bn ++ ['.']) ++ (idv ++ '.' :: ext) := by
  unfold composeFn
  rw [show List.filter truthyStr [some bn, Option.none, some idv, some ext] =
      [some bn, some idv, some ext] by
    simp [List.filter, truthyStr, isEmpty_false_of_ne hbn,
      isEmpty_false_of_ne hid, isEmpty_false_of_ne hext]]
  simp [List.intercalate, List.intersperse]

theorem composeFn_some (bn f idv ext : Str) (hbn : bn ≠ []) (hf : f ≠ [])
    (hid : idv ≠ []) (hext : ext ≠ []) :
    composeFn (some bn) (some f) (some idv) (some ext) =
      ((bn ++ '.' :: f) ++ ['.']) ++ (idv ++ '.' :: ext) := by
  unfold composeFn
  rw [show List.filter truthyStr [some bn, some f, some idv, some ext] =
      [some bn, some f, some idv, some ext] by
    simp [List.filter, truthyStr, isEmpty_false_of_ne hbn, isEmpty_false_of_ne hf,
      isEmpty_false_of_ne hid, isEmpty_false_of_ne hext]]
  simp [List.intercalate, List.intersperse]

/-- Claim C2 (amended): the filename round-trip law holds for components
where the basename is non-empty and dot-free, the format tag (when present)
is non-empty and neither starts nor ends with a dot, the extension is
non-empty and neither starts nor ends with a dot, and the identifier is
non-empty and occurs at exactly one position of the composed filename:
decomposing the composed filename with that identifier recovers exactly the
original basename, format and extension. -/
theorem claim_C2_filename_roundtrip (bn : Str) (fmt : Option Str) (idv ext : Str)
    (hbn : bn ≠ []) (hbnd : ∀ c ∈ bn, c ≠ '.')
    (hfmt : ∀ f, fmt = some f → f ≠ [] ∧ (∀ c, f.head? = some c → c ≠ '.') ∧
      (∀ c, f.getLast? = some c → c ≠ '.'))
    (hid : idv ≠ [])
    (hext : ext ≠ []) (hexth : ∀ c, ext.head? = some c → c ≠ '.')
    (hextl : ∀ c, ext.getLast? = some c → c ≠ '.')
    (huniq : occPos idv (composeFn (some bn) fmt (some idv) (some ext)) = 1) :
    getFilenameParts (composeFn (some bn) fmt (some idv) (some ext)) (some idv) =
      .ok (bn, fmt, ext) := by
  have hexts : pyStripDot ('.' :: ext) = ext := pyStripDot_lead hexth hextl
  cases fmt with
  | none =>
    rw [composeFn_none bn idv ext hbn hid hext] at huniq ⊢
    have hsplit := @splitSub_unique idv (bn ++ ['.']) ('.' :: ext) hid huniq
    unfold getFilenameParts
    simp only [Option.getD_some]
    rw [if_pos ⟨by simp [truthyStr, isEmpty_false_of_ne hid],
      containsSub_of_occPos_pos (by omega)⟩]
    simp only [hsplit]
    have hstrip : pyStripDot (bn ++ ['.']) = bn :=
      pyStripDot_wrap hbn
        (fun c hc => hbnd c (head_mem_of_head? hc))
        (fun c hc => hbnd c (List.mem_of_mem_getLast? hc))
    rw [hstrip]
    unfold gfpFinish
    rw [pySplitOnce_none hbnd]
    simp only [hexts]
  | some f =>
    obtain ⟨hf, hfh, hfl⟩ := hfmt f rfl
    rw [composeFn_some bn f idv ext hbn hf hid hext] at huniq ⊢
    have hsplit := @splitSub_unique idv ((bn ++ '.' :: f) ++ ['.'])
      ('.' :: ext) hid huniq
    unfold getFilenameParts
    simp only [Option.getD_some]
    rw [if_pos ⟨by simp [truthyStr, isEmpty_false_of_ne hid],
      containsSub_of_occPos_pos (by omega)⟩]
    simp only [hsplit]
    have hstrip : pyStripDot ((bn ++ '.' :: f) ++ ['.']) = bn ++ '.' :: f := by
      apply pyStripDot_wrap (by simp)
      · intro c hc
        cases bn with
        | nil => exact absurd rfl hbn
        | cons b bs =>
          rw [List.cons_append, List.head?_cons, Option.some.injEq] at hc
          subst hc
          exact hbnd b (by simp)
      · intro c hc
        rw [List.getLast?_append_of_ne_nil bn (by simp)] at hc
        rw [List.getLast?_cons] at hc
        cases hfc : f.getLast? with
        | none =>
          rw [hfc] at hc
          simp at hc
          subst hc
          cases f with
          | nil => exact absurd rfl hf
          | cons x xs => simp [List.getLast?_eq_none_iff] at hfc
        | some d =>
          rw [hfc] at hc
          simp at hc
          subst hc
          exact hfl d hfc
    rw [hstrip]
    unfold gfpFinish
    rw [pySplitOnce_append hbnd]
    simp only [hexts]

/-- Witness for claim C2 at the doctest components
`("data/a", "b", uuid, "c.d.txt")`. -/
theorem claim_C2_witness :
    getFilenameParts
        (composeFn (some "data/a".data) (some "b".data) (some "u-1".data)
          (some "c.d.txt".data))
        (some "u-1".data) =
      .ok ("data/a".data, some "b".data, "c.d.txt".data) := by
  apply claim_C2_filename_roundtrip
  · decide
  · decide
  · intro f hf
    rw [Option.some.injEq] at hf
    subst hf
    exact ⟨by decide, by decide, by decide⟩
  · decide
  · decide
  · decide
  · decide
  · decide

/-- Counterexample to claim C2 as stated: with a dot in the basename and no
format tag, decomposition does not invert composition — the basename is cut
at its first dot and the remainder becomes the format. -/
theorem claim_C2_counterexample :
    getFilenameParts
        (composeFn (some "a.b".data) Option.none (some "u1".data)
          (some "txt".data))
        (some "u1".data) =
      .ok ("a".data, some "b".data, "txt".data) ∧
    ("a".data, some "b".data, "txt".data) ≠
      ("a.b".data, (Option.none : Option Str), "txt".data) := by
  constructor
  · decide
  · decide

/-! ### Claim C10: partiality on repeated identifiers -/

theorem splitSubGo_length {sep : Str} (fuel : Nat) (s : Str) :
    (splitSubGo sep fuel s).length = countOccGo sep fuel s + 1 := by
  induction fuel generalizing s with
  | zero => rfl
  | succ n ih =>
    rw [splitSubGo_succ]
    unfold countOccGo
    cases h : firstOcc sep s with
    | none => rfl
    | some i => simp [ih]

theorem pySplitSub_length {sep : Str} (hsep : sep ≠ []) (s : Str) :
    (pySplitSub sep s).length = countOcc sep s + 1 := by
  unfold pySplitSub countOcc
  rw [if_neg (by rw [isEmpty_false_of_ne hsep]; exact Bool.false_ne_true)]
  exact splitSubGo_length _ s

theorem countOccGo_succ (sep : Str) (fuel : Nat) (s : Str) :
    countOccGo sep (fuel + 1) s =
      match firstOcc sep s with
      | none => 0
      | some i => countOccGo sep fuel (s.drop (i + sep.length)) + 1 := rfl

theorem countOcc_pos_of_contains {sep s : Str}
    (h : containsSub sep s = true) : 1 ≤ countOcc sep s := by
  have hocc : (firstOcc sep s).isSome = true := by
    induction s with
    | nil =>
      unfold containsSub at h
      rw [firstOcc_nil, if_pos h]
      rfl
    | cons c rest ih =>
      unfold containsSub at h
      rw [Bool.or_eq_true] at h
      rw [firstOcc_cons]
      rcases h with h | h
      · rw [if_pos h]; rfl
      · by_cases hl : leadsWith sep (c :: rest) = true
        · rw [if_pos hl]; rfl
        · rw [if_neg hl]
          rcases Option.isSome_iff_exists.mp (ih h) with ⟨i, hi⟩
          rw [hi]
          rfl
  unfold countOcc
  rcases Option.isSome_iff_exists.mp hocc with ⟨i, hi⟩
  rw [countOccGo_succ, hi]
  show 1 ≤ countOccGo sep s.length (s.drop (i + sep.length)) + 1
  omega

/-- Claim C10: decomposition is partial on repeated identifiers.  With an
identifier set that occurs in the filename, `File.get_filename_parts`
raises `ValueError` whenever the identifier occurs two or more times
(non-overlapping, leftmost-first, the semantics of `str.split`), and
succeeds exactly when it occurs once; `File.tag` and `load_file` propagate
the error. -/
theorem claim_C10_repeated_identifier (filename idv : Str)
    (hid : idv ≠ []) (hin : containsSub idv filename = true) :
    (2 ≤ countOcc idv filename →
      getFilenameParts filename (some idv) = .error .valueError)
    ∧ ((∃ r, getFilenameParts filename (some idv) = .ok r) ↔
        countOcc idv filename = 1)
    ∧ (2 ≤ countOcc idv filename → ∀ fresh,
      fTag (fInit filename) (some idv) fresh = .error .valueError)
    ∧ (2 ≤ countOcc idv filename → ∀ fresh fs,
      (findallUuid filename).getLast? = some idv →
      loadFile true fresh fs filename = .error .valueError) := by
  have hbranch : (truthyStr (some idv) ∧ containsSub idv filename) := by
    exact ⟨by simp [truthyStr, isEmpty_false_of_ne hid], hin⟩
  have hlen := pySplitSub_length hid filename
  have herr : 2 ≤ countOcc idv filename →
      getFilenameParts filename (some idv) = .error .valueError := by
    intro h2
    unfold getFilenameParts
    simp only [Option.getD_some]
    rw [if_pos hbranch]
    rcases hs : pySplitSub idv filename with _ | ⟨a, _ | ⟨b, _ | ⟨c, t⟩⟩⟩
    · rfl
    · rfl
    · rw [hs] at hlen
      simp only [List.length_cons, List.length_nil] at hlen
      omega
    · rfl
  have hset : 2 ≤ countOcc idv filename →
      fGfp (fSet (fInit filename) "identifier".data (PyVal.str idv)) =
        .error .valueError := by
    intro h2
    have h1 : fGfp (fSet (fInit filename) "identifier".data (PyVal.str idv)) =
        (getFilenameParts filename (some idv)).map
          (fGfpSet (fSet (fInit filename) "identifier".data (PyVal.str idv))) := rfl
    rw [h1, herr h2]
    rfl
  refine ⟨herr, ⟨?_, ?_⟩, ?_, ?_⟩
  · rintro ⟨r, hr⟩
    have h1 := countOcc_pos_of_contains hin
    by_contra hne
    have h2 : 2 ≤ countOcc idv filename := by omega
    rw [herr h2] at hr
    exact absurd hr (by simp)
  · intro h1
    unfold getFilenameParts
    simp only [Option.getD_some]
    rw [if_pos hbranch]
    rcases hs : pySplitSub idv filename with _ | ⟨a, _ | ⟨b, _ | ⟨c, t⟩⟩⟩
    · rw [hs] at hlen
      simp only [List.length_nil] at hlen
      omega
    · rw [hs] at hlen
      simp only [List.length_cons, List.length_nil] at hlen
      omega
    · show ∃ r, gfpFinish (pyStripDot a) b = Except.ok r
      unfold gfpFinish
      cases pySplitOnce '.' (pyStripDot a) with
      | none => exact ⟨_, rfl⟩
      | some p => exact ⟨_, rfl⟩
    · rw [hs] at hlen
      simp only [List.length_cons, List.length_nil] at hlen
      omega
  · intro h2 fresh
    unfold fTag
    rw [if_pos (show truthyStr (some idv) = true by
      simp [truthyStr, isEmpty_false_of_ne hid])]
    simp only [Option.getD_some]
    rw [hset h2]
    rfl
  · intro h2 fresh fs hreg
    unfold loadFile
    rw [if_neg (by simp)]
    have hgu : fGetUuid (fInit filename) fresh =
        (match (findallUuid filename).getLast? with
         | some m => fSet (fInit filename) "identifier".data (PyVal.str m)
         | Option.none =>
            fSet (fInit filename) "identifier".data (PyVal.str fresh)) := rfl
    rw [hgu, hreg]
    show loadFileWith fs filename
      (fSet (fInit filename) "identifier".data (PyVal.str idv)) =
        .error .valueError
    have hlw : loadFileWith fs filename
        (fSet (fInit filename) "identifier".data (PyVal.str idv)) =
        if !containsSub idv filename then
          .ok (some (fSet (fInit filename) "identifier".data (PyVal.str idv)))
        else (fGfp (fSet (fInit filename) "identifier".data (PyVal.str idv))).bind
          (loadFileOverlay fs idv) := rfl
    rw [hlw, hin]
    rw [if_neg (by simp)]
    rw [hset h2]
    rfl

/-- Witness for claim C10 at a filename containing its identifier twice. -/
theorem claim_C10_witness :
    getFilenameParts "data/u.SRC.ab.x.ab.txt".data (some "ab".data) =
      .error .valueError ∧
    fTag (fInit "data/u.SRC.ab.x.ab.txt".data) (some "ab".data) "f".data =
      .error .valueError ∧
    getFilenameParts "data/u.SRC.ab.txt".data (some "ab".data) =
      .ok ("data/u".data, some "SRC".data, "txt".data) := by
  have h := claim_C10_repeated_identifier "data/u.SRC.ab.x.ab.txt".data "ab".data
    (by decide) (by decide)
  refine ⟨h.1 (by decide), h.2.2.1 (by decide) "f".data, by decide⟩

/-! ### Chunking lemmas: the chunk sequence of a single-spaced text -/

theorem goodWordChar_ne_space {c : Char} (h : goodWordChar c = true) : c ≠ ' ' := by
  intro he
  subst he
  simp [goodWordChar] at h

theorem goodWordChar_not_space {c : Char} (h : goodWordChar c = true) :
    pySpaceChar c = false := by
  unfold goodWordChar at h
  unfold pySpaceChar
  rw [Bool.and_eq_true, decide_eq_true_iff, decide_eq_true_iff] at h
  have h9 : c.toNat ≠ 9 := by omega
  have h10 : c.toNat ≠ 10 := by omega
  have h13 : c.toNat ≠ 13 := by omega
  have h11 : c.toNat ≠ 11 := by omega
  have h12 : c.toNat ≠ 12 := by omega
  have h32 : c.toNat ≠ 32 := by omega
  simp only [Bool.or_eq_false_iff, decide_eq_false_iff_not]
  refine ⟨⟨⟨⟨⟨fun he => h32 (by rw [he]; rfl), fun he => h9 (by rw [he]; rfl)⟩,
    fun he => h10 (by rw [he]; rfl)⟩, fun he => h13 (by rw [he]; rfl)⟩,
    fun he => h11 (by rw [he]; rfl)⟩, fun he => h12 (by rw [he]; rfl)⟩

theorem goodKeyChar_word {c : Char} (h : goodKeyChar c = true) :
    goodWordChar c = true := by
  unfold goodKeyChar at h
  unfold goodWordChar
  rw [Bool.or_eq_true, Bool.or_eq_true] at h
  rw [Bool.and_eq_true, decide_eq_true_iff, decide_eq_true_iff]
  rcases h with (h | h) | h
  · rw [decide_eq_true_iff] at h
    obtain ⟨h1, h2⟩ := h
    have g1 : 97 ≤ c.toNat := Char.le_def.mp h1
    have g2 : c.toNat ≤ 122 := Char.le_def.mp h2
    omega
  · rw [Char.isDigit] at h
    rw [Bool.and_eq_true, decide_eq_true_iff, decide_eq_true_iff] at h
    obtain ⟨h1, h2⟩ := h
    have g1 : 48 ≤ c.toNat := h1
    have g2 : c.toNat ≤ 57 := h2
    omega
  · rw [decide_eq_true_iff] at h
    subst h
    constructor <;> decide

theorem chunkifyGo_cons (fuel : Nat) (c : Char) (cs : Str) :
    chunkifyGo (fuel + 1) (c :: cs) =
      (c :: cs.takeWhile (fun x => (x = ' ') = (c = ' '))) ::
        chunkifyGo fuel (cs.dropWhile (fun x => (x = ' ') = (c = ' '))) := rfl

theorem chunkifyGo_irrel : ∀ (n : Nat) (s : Str) (fuel1 fuel2 : Nat),
    s.length ≤ n → s.length < fuel1 → s.length < fuel2 →
    chunkifyGo fuel1 s = chunkifyGo fuel2 s := by
  intro n
  induction n with
  | zero =>
    intro s fuel1 fuel2 hn h1 h2
    have hs : s = [] := List.length_eq_zero.mp (Nat.le_zero.mp hn)
    subst hs
    match fuel1, h1 with
    | a + 1, _ =>
      match fuel2, h2 with
      | b + 1, _ => rfl
  | succ n ih =>
    intro s fuel1 fuel2 hn h1 h2
    cases s with
    | nil =>
      cases fuel1 with
      | zero => omega
      | succ a =>
        cases fuel2 with
        | zero => omega
        | succ b => rfl
    | cons c cs =>
      cases fuel1 with
      | zero => simp at h1
      | succ a =>
        cases fuel2 with
        | zero => simp at h2
        | succ b =>
          rw [chunkifyGo_cons, chunkifyGo_cons]
          congr 1
          have hd := length_dropWhile_le
            (fun x => (x = ' ') = (c = ' ') : Char → Bool) cs
          apply ih
          · simp only [List.length_cons] at hn
            omega
          · simp only [List.length_cons] at h1
            omega
          · simp only [List.length_cons] at h2
            omega

theorem chunkifyGo_eq (s : Str) (fuel : Nat) (h : s.length < fuel) :
    chunkifyGo fuel s = chunkify s :=
  chunkifyGo_irrel s.length s fuel (s.length + 1) le_rfl h (Nat.lt_succ_self _)

theorem takeWhile_all_append {p : Char → Bool} {xs ys : Str}
    (hxs : ∀ x ∈ xs, p x = true)
    (hys : ∀ y, ys.head? = some y → p y = false) :
    (xs ++ ys).takeWhile p = xs := by
  induction xs with
  | nil =>
    cases ys with
    | nil => rfl
    | cons y t =>
      rw [List.nil_append, List.takeWhile_cons, hys y rfl]
      rfl
  | cons x xs ih =>
    rw [List.cons_append, List.takeWhile_cons, hxs x (by simp)]
    simp only [if_pos]
    rw [ih (fun d hd => hxs d (by simp [hd]))]

theorem chunkify_nil : chunkify [] = [] := rfl

theorem chunkify_word {w rest : Str} (hw : goodWord w = true)
    (hrest : ∀ y, rest.head? = some y → y = ' ') :
    chunkify (w ++ rest) = w :: chunkify rest := by
  unfold goodWord at hw
  rw [Bool.and_eq_true] at hw
  obtain ⟨hne, hall⟩ := hw
  rw [List.all_eq_true] at hall
  match w, hne with
  | c :: w2, _ =>
    have hcsp : c ≠ ' ' :=
      goodWordChar_ne_space (hall c (by simp))
    have hp : ∀ x : Char, goodWordChar x = true →
        (fun x => (x = ' ') = (c = ' ') : Char → Bool) x = true := by
      intro x hx
      simp [goodWordChar_ne_space hx, hcsp]
    show chunkify (c :: (w2 ++ rest)) = (c :: w2) :: chunkify rest
    unfold chunkify
    rw [show (c :: (w2 ++ rest)).length + 1 = (w2 ++ rest).length + 1 + 1 by simp]
    rw [chunkifyGo_cons]
    rw [takeWhile_all_append (fun x hx => hp x (hall x (by simp [hx])))
      (fun y hy => by simp [hrest y hy, hcsp])]
    rw [dropWhile_all_append (fun x hx => hp x (hall x (by simp [hx])))
      (fun y hy => by simp [hrest y hy, hcsp])]
    congr 1
    apply chunkifyGo_irrel rest.length rest _ _ le_rfl
    · simp [List.length_append]
      omega
    · exact Nat.lt_succ_self _

theorem chunkify_sp {rest : Str}
    (hrest : ∀ y, rest.head? = some y → y ≠ ' ') :
    chunkify (' ' :: rest) = [' '] :: chunkify rest := by
  unfold chunkify
  rw [show (' ' :: rest).length + 1 = rest.length + 1 + 1 by simp]
  rw [chunkifyGo_cons]
  have htake : rest.takeWhile (fun x => (x = ' ') = (' ' = ' ') : Char → Bool) = [] := by
    cases rest with
    | nil => rfl
    | cons y t =>
      rw [List.takeWhile_cons]
      simp [hrest y rfl]
  have hdrop : rest.dropWhile (fun x => (x = ' ') = (' ' = ' ') : Char → Bool) = rest :=
    dropWhile_head_false (fun y hy => by simp [hrest y hy])
  rw [htake, hdrop, chunkifyGo_eq rest _ (Nat.lt_succ_self _)]

theorem intercalate_sp_cons (w x : Str) (t : List Str) :
    List.intercalate [' '] (w :: x :: t) =
      w ++ ' ' :: List.intercalate [' '] (x :: t) := by
  rw [List.intercalate, List.intercalate, List.intersperse_cons_cons]
  simp

theorem intercalate_singleton (w : Str) : List.intercalate [' '] [w] = w := by
  rw [List.intercalate]
  simp

theorem inter_head {ws : List Str} {w : Str} {t : List Str}
    (hws : ws = w :: t) (hw : goodWord w = true) :
    ∀ y, (List.intercalate [' '] ws).head? = some y → y ≠ ' ' := by
  subst hws
  unfold goodWord at hw
  rw [Bool.and_eq_true] at hw
  obtain ⟨hne, hall⟩ := hw
  rw [List.all_eq_true] at hall
  match w, hne with
  | c :: w2, _ =>
    intro y hy
    have hc : (List.intercalate [' '] ((c :: w2) :: t)).head? = some c := by
      cases t with
      | nil => rw [intercalate_singleton]; rfl
      | cons x t2 =>
        rw [intercalate_sp_cons]
        simp
    have hcy : some c = some y := hc.symm.trans hy
    injection hcy with hcy
    subst hcy
    exact goodWordChar_ne_space (hall c (by simp))

theorem chunkify_inter_tail : ∀ (ws : List Str) (tail : Str),
    (∀ w ∈ ws, goodWord w = true) → ws ≠ [] →
    (∀ y, tail.head? = some y → y = ' ') →
    chunkify (List.intercalate [' '] ws ++ tail) = interWords ws ++ chunkify tail := by
  intro ws
  induction ws with
  | nil => intro tail h1 h2 h3; exact absurd rfl h2
  | cons w rest ih =>
    intro tail h1 _ h3
    cases rest with
    | nil =>
      rw [intercalate_singleton, chunkify_word (h1 w (by simp)) h3]
      rfl
    | cons x t =>
      rw [intercalate_sp_cons]
      have hrw : (w ++ ' ' :: List.intercalate [' '] (x :: t)) ++ tail =
          w ++ ' ' :: (List.intercalate [' '] (x :: t) ++ tail) := by simp
      rw [hrw]
      rw [chunkify_word (h1 w (by simp)) (fun y hy => by
        simp only [List.head?_cons, Option.some.injEq] at hy
        exact hy.symm)]
      have hin : ∀ y, (List.intercalate [' '] (x :: t) ++ tail).head? = some y →
          y ≠ ' ' := by
        intro y hy
        have hx := h1 x (by simp)
        have hxne : x ≠ [] := by
          unfold goodWord at hx
          rw [Bool.and_eq_true] at hx
          intro he
          rw [he] at hx
          simp at hx
        have hhead : (List.intercalate [' '] (x :: t) ++ tail).head? =
            (List.intercalate [' '] (x :: t)).head? := by
          match x, hxne with
          | c :: x2, _ =>
            cases t with
            | nil => rw [intercalate_singleton]; simp
            | cons z t2 => rw [intercalate_sp_cons]; simp
        rw [hhead] at hy
        exact inter_head rfl hx y hy
      rw [chunkify_sp hin]
      rw [ih tail (fun u hu => h1 u (by simp [hu])) (by simp) h3]
      have hiw : interWords (w :: x :: t) = w :: [' '] :: interWords (x :: t) := by
        unfold interWords
        exact List.intersperse_cons_cons [' '] w x t
      rw [hiw]
      rfl

theorem expandTabsGo_tame : ∀ (t : Str) (col : Nat),
    (∀ c ∈ t, c = ' ' ∨ pySpaceChar c = false) → expandTabsGo col t = t := by
  intro t
  induction t with
  | nil => intro col _; rfl
  | cons c cs ih =>
    intro col ht
    have hc := ht c (by simp)
    have hnotTab : c ≠ '\t' := by
      rcases hc with hc | hc
      · rw [hc]; decide
      · intro he; rw [he] at hc; simp [pySpaceChar] at hc
    have hnotNl : ¬(c = '\n' ∨ c = '\r') := by
      rcases hc with hc | hc
      · rw [hc]; decide
      · rintro (he | he) <;> (rw [he] at hc; simp [pySpaceChar] at hc)
    show (if c = '\t' then
        List.replicate (8 - col % 8) ' ' ++ expandTabsGo (col + (8 - col % 8)) cs
      else if c = '\n' ∨ c = '\r' then c :: expandTabsGo 0 cs
      else c :: expandTabsGo (col + 1) cs) = c :: cs
    rw [if_neg hnotTab, if_neg hnotNl,
      ih (col + 1) (fun d hd => ht d (by simp [hd]))]

theorem munge_tame {s : Str}
    (h : ∀ c ∈ s, c = ' ' ∨ pySpaceChar c = false) : munge s = s := by
  unfold munge
  rw [expandTabsGo_tame s 0 h]
  have hid : ∀ c ∈ s, (if pySpaceChar c then ' ' else c) = c := by
    intro c hc
    rcases h c hc with hc2 | hc2
    · rw [hc2]; simp
    · rw [hc2]; simp
  calc s.map (fun c => if pySpaceChar c then ' ' else c)
      = s.map id := List.map_congr_left (fun c hc => hid c hc)
    _ = s := List.map_id s

/-! ### Packing lemmas: the greedy line-filling loop on interleaved chunks -/

theorem packLine_nil (w c : Nat) : packLine w c [] = ([], []) := rfl

theorem packLine_cons (w c : Nat) (ch : Str) (rest : List Str) :
    packLine w c (ch :: rest) =
      if c + ch.length ≤ w then
        (ch :: (packLine w (c + ch.length) rest).1,
          (packLine w (c + ch.length) rest).2)
      else ([], ch :: rest) := rfl

theorem interWords_singleton (u : Str) : interWords [u] = [u] := rfl

theorem interWords_cons₂ (u x : Str) (t : List Str) :
    interWords (u :: x :: t) = u :: [' '] :: interWords (x :: t) :=
  List.intersperse_cons_cons [' '] u x t

theorem interWords_ne_nil {ws : List Str} (h : ws ≠ []) : interWords ws ≠ [] := by
  match ws, h with
  | [u], _ => simp [interWords_singleton]
  | u :: x :: t, _ => simp [interWords_cons₂]

theorem interWords_length : ∀ (ws : List Str), ws ≠ [] →
    (interWords ws).length = 2 * ws.length - 1 := by
  intro ws
  induction ws with
  | nil => intro h; exact absurd rfl h
  | cons u rest ih =>
    intro _
    cases rest with
    | nil => rfl
    | cons x t =>
      rw [interWords_cons₂]
      simp only [List.length_cons]
      rw [ih (by simp)]
      simp only [List.length_cons]
      omega

theorem packLine_words (w : Nat) : ∀ (ws : List Str) (curLen : Nat), ws ≠ [] →
    ((packLine w curLen (interWords ws) = ([], interWords ws) ∧
      ∀ u, ws.head? = some u → w < curLen + u.length) ∨
    (∃ ws1 ws2, ws = ws1 ++ ws2 ∧ ws1 ≠ [] ∧
      ((ws2 = [] ∧ packLine w curLen (interWords ws) = (interWords ws1, [])) ∨
       (ws2 ≠ [] ∧ packLine w curLen (interWords ws) =
          (interWords ws1, [' '] :: interWords ws2)) ∨
       (ws2 ≠ [] ∧ packLine w curLen (interWords ws) =
          (interWords ws1 ++ [[' ']], interWords ws2))))) := by
  intro ws
  induction ws with
  | nil => intro c h; exact absurd rfl h
  | cons u rest ih =>
    intro curLen _
    by_cases hfit : curLen + u.length ≤ w
    · right
      cases rest with
      | nil =>
        refine ⟨[u], [], by simp, by simp, Or.inl ⟨rfl, ?_⟩⟩
        rw [interWords_singleton, packLine_cons, if_pos hfit, packLine_nil]
      | cons x t =>
        rw [interWords_cons₂]
        by_cases hfit2 : curLen + u.length + 1 ≤ w
        · rcases ih (curLen + u.length + 1) (by simp) with
            ⟨hq, _⟩ | ⟨ws1, ws2, hsplit, hne1, hsh⟩
          · refine ⟨[u], x :: t, rfl, by simp, Or.inr (Or.inr ⟨by simp, ?_⟩)⟩
            rw [packLine_cons, if_pos hfit, packLine_cons]
            simp only [List.length_singleton]
            rw [if_pos hfit2, hq]
            rfl
          · rcases hsh with ⟨h2, hq⟩ | ⟨h2, hq⟩ | ⟨h2, hq⟩
            · refine ⟨u :: ws1, [], by simp [hsplit, h2], by simp,
                Or.inl ⟨rfl, ?_⟩⟩
              rw [packLine_cons, if_pos hfit, packLine_cons]
              simp only [List.length_singleton]
              rw [if_pos hfit2, hq]
              match ws1, hne1 with
              | y :: ys, _ => rw [interWords_cons₂]
            · refine ⟨u :: ws1, ws2, by simp [hsplit], by simp,
                Or.inr (Or.inl ⟨h2, ?_⟩)⟩
              rw [packLine_cons, if_pos hfit, packLine_cons]
              simp only [List.length_singleton]
              rw [if_pos hfit2, hq]
              match ws1, hne1 with
              | y :: ys, _ => rw [interWords_cons₂]
            · refine ⟨u :: ws1, ws2, by simp [hsplit], by simp,
                Or.inr (Or.inr ⟨h2, ?_⟩)⟩
              rw [packLine_cons, if_pos hfit, packLine_cons]
              simp only [List.length_singleton]
              rw [if_pos hfit2, hq]
              match ws1, hne1 with
              | y :: ys, _ =>
                rw [interWords_cons₂]
                rfl
        · refine ⟨[u], x :: t, rfl, by simp, Or.inr (Or.inl ⟨by simp, ?_⟩)⟩
          rw [packLine_cons, if_pos hfit, packLine_cons]
          simp only [List.length_singleton]
          rw [if_neg hfit2]
          rfl
    · left
      constructor
      · cases rest with
        | nil => rw [interWords_singleton, packLine_cons, if_neg hfit]
        | cons x t => rw [interWords_cons₂, packLine_cons, if_neg hfit]
      · intro v hv
        simp only [List.head?_cons, Option.some.injEq] at hv
        subst hv
        omega

theorem packLine_append_fits (w : Nat) : ∀ (pre rest : List Str) (curLen : Nat),
    curLen + (pre.map List.length).sum ≤ w →
    packLine w curLen (pre ++ rest) =
      (pre ++ (packLine w (curLen + (pre.map List.length).sum) rest).1,
       (packLine w (curLen + (pre.map List.length).sum) rest).2) := by
  intro pre
  induction pre with
  | nil => intro rest curLen h; simp
  | cons ch pre2 ih =>
    intro rest curLen h
    simp only [List.map_cons, List.sum_cons] at h
    rw [List.cons_append, packLine_cons,
      if_pos (by omega)]
    rw [ih rest (curLen + ch.length) (by omega)]
    simp only [List.map_cons, List.sum_cons, List.cons_append]
    rw [show curLen + (ch.length + (pre2.map List.length).sum) =
      curLen + ch.length + (pre2.map List.length).sum by omega]

/-! ### Wrap lemmas: one outer iteration of the greedy wrapper, and the
segmentation it produces -/

theorem wrapLoop_zero (width : Nat) (subIndent : Str) (first : Bool)
    (chunks : List Str) : wrapLoop width subIndent 0 first chunks = [] := by
  cases chunks <;> rfl

theorem wrapLoop_nil (width : Nat) (subIndent : Str) (fuel : Nat) (first : Bool) :
    wrapLoop width subIndent fuel first [] = [] := by
  cases fuel <;> rfl

theorem wrapLoop_succ (width : Nat) (subIndent : Str) (fuel : Nat) (first : Bool)
    (c : Str) (cs : List Str) :
    wrapLoop width subIndent (fuel + 1) first (c :: cs) =
      (let indent := if first then [] else subIndent
       let w := width - indent.length
       let chunks1 :=
         if first = false ∧ ((c :: cs).head?.map wsChunk).getD false then
           (c :: cs).tail
         else c :: cs
       match chunks1 with
       | [] => []
       | _ =>
         let pr := packLine w 0 chunks1
         let pr2 :=
           match pr.1, pr.2 with
           | [], ch :: rest =>
             if ch.length > w then ([ch], rest) else ([], ch :: rest)
           | _, _ => pr
         let cur := dropTrailWs pr2.1
         match cur with
         | [] => wrapLoop width subIndent fuel first pr2.2
         | _ => (indent ++ cur.flatten) :: wrapLoop width subIndent fuel false pr2.2) := rfl

theorem wsChunk_good {u : Str} (h : goodWord u = true) : wsChunk u = false := by
  unfold goodWord at h
  rw [Bool.and_eq_true] at h
  obtain ⟨hne, hall⟩ := h
  rw [List.all_eq_true] at hall
  match u, hne with
  | c :: u2, _ =>
    unfold wsChunk
    rw [List.all_cons, goodWordChar_not_space (hall c (by simp))]
    rfl

theorem interWords_getLast : ∀ (ws : List Str), ws ≠ [] →
    (interWords ws).getLast? = ws.getLast? := by
  intro ws
  induction ws with
  | nil => intro h; exact absurd rfl h
  | cons u rest ih =>
    intro _
    cases rest with
    | nil => rfl
    | cons x t =>
      have h1 : interWords (x :: t) ≠ [] := interWords_ne_nil (by simp)
      cases hz : interWords (x :: t) with
      | nil => exact absurd hz h1
      | cons z zs =>
        rw [interWords_cons₂, hz, List.getLast?_cons_cons, List.getLast?_cons_cons,
          ← hz, ih (by simp), List.getLast?_cons_cons]

theorem dropTrailWs_words {ws : List Str} (hgood : ∀ u ∈ ws, goodWord u = true)
    (hne : ws ≠ []) : dropTrailWs (interWords ws) = interWords ws := by
  unfold dropTrailWs
  rw [interWords_getLast ws hne]
  cases hlast : ws.getLast? with
  | none => rfl
  | some u =>
    show (if wsChunk u = true then (interWords ws).dropLast else interWords ws) =
      interWords ws
    rw [wsChunk_good (hgood u (List.mem_of_mem_getLast? hlast))]
    rfl

theorem dropTrailWs_sp (xs : List Str) : dropTrailWs (xs ++ [[' ']]) = xs := by
  unfold dropTrailWs
  rw [List.getLast?_concat]
  show (if wsChunk [' '] = true then (xs ++ [[' ']]).dropLast else xs ++ [[' ']]) = xs
  rw [show wsChunk [' '] = true from rfl]
  simp [List.dropLast_concat]

theorem interWords_flatten (ws : List Str) :
    (interWords ws).flatten = List.intercalate [' '] ws := by
  rw [List.intercalate, interWords]

theorem intercalate_sp_append : ∀ (ws1 : List Str), ws1 ≠ [] →
    ∀ (ws2 : List Str), ws2 ≠ [] →
    List.intercalate [' '] (ws1 ++ ws2) =
      List.intercalate [' '] ws1 ++ ' ' :: List.intercalate [' '] ws2 := by
  intro ws1
  induction ws1 with
  | nil => intro h; exact absurd rfl h
  | cons u rest ih =>
    intro _ ws2 h2
    cases rest with
    | nil =>
      match ws2, h2 with
      | x :: t, _ =>
        rw [List.singleton_append, intercalate_sp_cons, intercalate_singleton]
    | cons y ys =>
      rw [show (u :: y :: ys) ++ ws2 = u :: y :: (ys ++ ws2) from rfl]
      rw [intercalate_sp_cons]
      rw [show (y :: (ys ++ ws2) : List Str) = (y :: ys) ++ ws2 from rfl]
      rw [ih (by simp) ws2 h2]
      rw [intercalate_sp_cons]
      simp

theorem wrapLoop_step_pack (width : Nat) (sub : Str) (fuel : Nat) (first : Bool)
    (c : Str) (cs : List Str) (d : Str) (ds : List Str) (z : Str)
    (zs rem0 : List Str) (e : Str) (es : List Str)
    (hch : (if first = false ∧ ((c :: cs).head?.map wsChunk).getD false then
              (c :: cs).tail else c :: cs) = d :: ds)
    (hpack : packLine (width - (if first then [] else sub).length) 0 (d :: ds) =
      (z :: zs, rem0))
    (hcur : dropTrailWs (z :: zs) = e :: es) :
    wrapLoop width sub (fuel + 1) first (c :: cs) =
      ((if first then [] else sub) ++ (e :: es).flatten) ::
        wrapLoop width sub fuel false rem0 := by
  rw [wrapLoop_succ]
  simp only [hch, hpack, hcur]

theorem wrapLoop_step_long (width : Nat) (sub : Str) (fuel : Nat) (first : Bool)
    (c : Str) (cs : List Str) (d : Str) (ds : List Str) (q : Str) (qs : List Str)
    (hch : (if first = false ∧ ((c :: cs).head?.map wsChunk).getD false then
              (c :: cs).tail else c :: cs) = d :: ds)
    (hpack : packLine (width - (if first then [] else sub).length) 0 (d :: ds) =
      ([], q :: qs))
    (hbig : q.length > width - (if first then [] else sub).length)
    (hdrop : dropTrailWs [q] = [q]) :
    wrapLoop width sub (fuel + 1) first (c :: cs) =
      ((if first then [] else sub) ++ ([q] : List Str).flatten) ::
        wrapLoop width sub fuel false qs := by
  rw [wrapLoop_succ]
  simp only [hch, hpack, if_pos hbig, hdrop]

theorem interWords_append : ∀ (ws1 : List Str), ws1 ≠ [] →
    ∀ (ws2 : List Str), ws2 ≠ [] →
    interWords (ws1 ++ ws2) = interWords ws1 ++ [' '] :: interWords ws2 := by
  intro ws1
  induction ws1 with
  | nil => intro h; exact absurd rfl h
  | cons u rest ih =>
    intro _ ws2 h2
    cases rest with
    | nil =>
      match ws2, h2 with
      | x :: t, _ =>
        rw [List.singleton_append, interWords_cons₂, interWords_singleton]
        rfl
    | cons y ys =>
      rw [show (u :: y :: ys) ++ ws2 = u :: y :: (ys ++ ws2) from rfl]
      rw [interWords_cons₂]
      rw [show (y :: (ys ++ ws2) : List Str) = (y :: ys) ++ ws2 from rfl]
      rw [ih (by simp) ws2 h2]
      rw [interWords_cons₂]
      simp

theorem head_len_le_intercalate (u : Str) (ps : List Str) :
    u.length ≤ (List.intercalate [' '] (u :: ps)).length := by
  cases ps with
  | nil => rw [intercalate_singleton]
  | cons x t =>
    rw [intercalate_sp_cons, List.length_append]
    omega

theorem interWords_sum (ws : List Str) :
    ((interWords ws).map List.length).sum = (List.intercalate [' '] ws).length := by
  rw [← interWords_flatten, List.length_flatten]

theorem pack_full_fit (W : Nat) (ws : List Str)
    (hlen : ((interWords ws).map List.length).sum ≤ W) :
    packLine W 0 (interWords ws) = (interWords ws, []) := by
  have h := packLine_append_fits W (interWords ws) [] 0 (by omega)
  rw [List.append_nil] at h
  rw [h]
  simp [packLine]

theorem pre_le_of_pack (W : Nat) {ws pre post C R : List Str}
    (hprene : pre ≠ []) (hpostne : post ≠ []) (hw : ws = pre ++ post)
    (hlen : ((interWords pre).map List.length).sum ≤ W)
    (hpack : packLine W 0 (interWords ws) = (C, R)) :
    (interWords pre).length ≤ C.length := by
  have hfit := packLine_append_fits W (interWords pre) ([' '] :: interWords post) 0
    (by omega)
  rw [← interWords_append pre hprene post hpostne, ← hw, hpack] at hfit
  rw [Prod.mk.injEq] at hfit
  rw [hfit.1, List.length_append]
  omega

theorem seg_extends {ws ws1 ws2 pre post : List Str}
    (hs : ws = ws1 ++ ws2) (hp : ws = pre ++ post)
    (hle : pre.length ≤ ws1.length) : ∃ mid, ws1 = pre ++ mid := by
  rcases List.prefix_of_prefix_length_le ⟨post, hp.symm⟩ ⟨ws2, hs.symm⟩ hle with
    ⟨mid, hmid⟩
  exact ⟨mid, hmid.symm⟩

theorem chunks1_eq (first lead : Bool) (ws : List Str)
    (hgood : ∀ u ∈ ws, goodWord u = true) (hne : ws ≠ [])
    (hfl : first = true → lead = false) :
    ∃ c cs, chunksOf lead ws = c :: cs ∧
      (if first = false ∧ ((c :: cs).head?.map wsChunk).getD false then
        (c :: cs).tail else c :: cs) = interWords ws := by
  cases lead with
  | true =>
    have hf : first = false := by
      cases first with
      | true => exact absurd (hfl rfl) (by decide)
      | false => rfl
    subst hf
    refine ⟨[' '], interWords ws, rfl, ?_⟩
    rw [if_pos ⟨rfl, rfl⟩]
    rfl
  | false =>
    match ws, hne with
    | u :: t, _ =>
      have hwu : wsChunk u = false := wsChunk_good (hgood u (by simp))
      have hcond : ∀ cs2 : List Str, ¬(first = false ∧
          (((u :: cs2).head?.map wsChunk).getD false) = true) := by
        intro cs2 h
        rcases h with ⟨-, h2⟩
        simp [hwu] at h2
      cases t with
      | nil =>
        refine ⟨u, [], ?_, ?_⟩
        · simp [chunksOf, interWords_singleton]
        · rw [if_neg (hcond [])]
          exact (interWords_singleton u).symm
      | cons y ys =>
        refine ⟨u, [' '] :: interWords (y :: ys), ?_, ?_⟩
        · simp [chunksOf, interWords_cons₂]
        · rw [if_neg (hcond _)]
          exact (interWords_cons₂ u y ys).symm

theorem wrapLoop_iter (fuel : Nat) (first lead : Bool) (ws : List Str)
    (hgood : ∀ u ∈ ws, goodWord u = true) (hne : ws ≠ [])
    (hfl : first = true → lead = false) :
    ∃ seg ws2 lead2,
      seg ≠ [] ∧ ws = seg ++ ws2 ∧ (lead2 = true → ws2 ≠ []) ∧
      (chunksOf lead2 ws2).length < (chunksOf lead ws).length ∧
      wrapLoop 70 ("    ".data) (fuel + 1) first (chunksOf lead ws) =
        ((if first then [] else "    ".data) ++ List.intercalate [' '] seg) ::
          wrapLoop 70 ("    ".data) fuel false (chunksOf lead2 ws2) ∧
      (∀ pre post, ws = pre ++ post →
        (List.intercalate [' '] pre).length ≤ 70 - (if first then 0 else 4) →
        ∃ mid, seg = pre ++ mid) := by
  have hW : (70 : Nat) - (if first then ([] : Str) else "    ".data).length =
      70 - (if first then 0 else 4) := by cases first <;> rfl
  obtain ⟨c, cs, hcons, hch⟩ := chunks1_eq first lead ws hgood hne hfl
  rcases packLine_words (70 - (if first then ([] : Str) else "    ".data).length)
      ws 0 hne with ⟨hpack, hbig⟩ | ⟨ws1, ws2x, hsplit, hne1, hshape⟩
  · -- no chunk fits: the first word is emitted alone (break_long_words=False)
    cases ws with
    | nil => exact absurd rfl hne
    | cons w1 ws' =>
      have hbig1 : w1.length >
          70 - (if first then ([] : Str) else "    ".data).length := by
        have h := hbig w1 rfl
        omega
      have hdropw1 : dropTrailWs [w1] = [w1] := by
        have hg1 : ∀ u ∈ [w1], goodWord u = true := by
          intro u hu
          rw [List.mem_singleton] at hu
          rw [hu]
          exact hgood w1 (by simp)
        exact dropTrailWs_words hg1 (by simp)
      cases ws' with
      | nil =>
        rw [interWords_singleton] at hch hpack
        have heq := wrapLoop_step_long 70 ("    ".data) fuel first c cs w1 []
          w1 [] hch hpack hbig1 hdropw1
        refine ⟨[w1], [], false, by simp, by simp, by simp, ?_, ?_, ?_⟩
        · rw [hcons, show chunksOf false ([] : List Str) = [] from rfl]
          simp
        · rw [hcons, heq, show chunksOf false ([] : List Str) = [] from rfl,
            intercalate_singleton]
          simp
        · intro pre post hpp hlen
          rcases pre with _ | ⟨p, ps⟩
          · exact ⟨[w1], rfl⟩
          · rw [List.cons_append] at hpp
            injection hpp with h1 h2
            rcases List.append_eq_nil.mp h2.symm with ⟨hps, hpost⟩
            subst hps
            rw [h1]
            exact ⟨[], rfl⟩
      | cons y ys =>
        rw [interWords_cons₂] at hch hpack
        have heq := wrapLoop_step_long 70 ("    ".data) fuel first c cs w1
          ([' '] :: interWords (y :: ys)) w1 ([' '] :: interWords (y :: ys))
          hch hpack hbig1 hdropw1
        refine ⟨[w1], y :: ys, true, by simp, by simp, fun _ => by simp,
          ?_, ?_, ?_⟩
        · cases lead <;>
            simp [chunksOf, interWords_cons₂, List.length_append]
        · rw [hcons, heq,
            show chunksOf true (y :: ys) = [' '] :: interWords (y :: ys) from rfl,
            intercalate_singleton]
          simp
        · intro pre post hpp hlen
          rcases pre with _ | ⟨p, ps⟩
          · exact ⟨[w1], rfl⟩
          · rw [List.cons_append] at hpp
            injection hpp with h1 h2
            subst h1
            have hple := head_len_le_intercalate w1 ps
            rw [hW] at hbig1
            exact absurd hlen (by omega)
  · -- some chunks fit: the packed words form the line
    obtain ⟨d, ds, hd⟩ : ∃ d ds, interWords ws = d :: ds := by
      cases hI : interWords ws with
      | nil => exact absurd hI (interWords_ne_nil hne)
      | cons d ds => exact ⟨d, ds, rfl⟩
    obtain ⟨z, zs, hz⟩ : ∃ z zs, interWords ws1 = z :: zs := by
      cases hI : interWords ws1 with
      | nil => exact absurd hI (interWords_ne_nil hne1)
      | cons z zs => exact ⟨z, zs, rfl⟩
    have hgood1 : ∀ u ∈ ws1, goodWord u = true := by
      intro u hu
      refine hgood u ?_
      rw [hsplit]
      exact List.mem_append_left _ hu
    have hdrop1 : dropTrailWs (z :: zs) = z :: zs := by
      rw [← hz]
      exact dropTrailWs_words hgood1 hne1
    rw [hd] at hch
    have hlp1 := interWords_length ws1 hne1
    rcases hshape with ⟨hw2, hpackA⟩ | ⟨hw2ne, hpackB⟩ | ⟨hw2ne, hpackC⟩
    · -- everything fits on this line
      have hpack0 := hpackA
      rw [hd, hz] at hpackA
      have heq := wrapLoop_step_pack 70 ("    ".data) fuel first c cs d ds z zs
        [] z zs hch hpackA hdrop1
      refine ⟨ws1, [], false, hne1, by rw [hsplit, hw2], by simp, ?_, ?_, ?_⟩
      · rw [hcons, show chunksOf false ([] : List Str) = [] from rfl]
        simp
      · rw [hcons, heq, show chunksOf false ([] : List Str) = [] from rfl,
          ← hz, interWords_flatten]
      · intro pre post hpp hlen
        rcases pre with _ | ⟨p, ps⟩
        · exact ⟨ws1, rfl⟩
        · rcases post with _ | ⟨q, qs⟩
          · refine ⟨[], ?_⟩
            rw [List.append_nil] at hpp ⊢
            rw [← hpp, hsplit, hw2, List.append_nil]
          · have hsum : ((interWords (p :: ps)).map List.length).sum ≤
                70 - (if first then ([] : Str) else "    ".data).length := by
              rw [interWords_sum, hW]
              exact hlen
            have hle1 := pre_le_of_pack
              (70 - (if first then ([] : Str) else "    ".data).length)
              (by simp) (by simp) hpp hsum hpack0
            have hlp := interWords_length (p :: ps) (by simp)
            rw [hlp, hlp1] at hle1
            exact seg_extends hsplit hpp (by omega)
    · -- line full, separator space left on the remainder
      have hpack0 := hpackB
      rw [hd, hz] at hpackB
      have heq := wrapLoop_step_pack 70 ("    ".data) fuel first c cs d ds z zs
        ([' '] :: interWords ws2x) z zs hch hpackB hdrop1
      refine ⟨ws1, ws2x, true, hne1, hsplit, fun _ => hw2ne, ?_, ?_, ?_⟩
      · have h2x := interWords_length ws2x hw2ne
        have hlw := interWords_length ws hne
        have hwsl : ws.length = ws1.length + ws2x.length := by
          rw [hsplit, List.length_append]
        have h1p : 0 < ws1.length := List.length_pos.mpr hne1
        have h2p : 0 < ws2x.length := List.length_pos.mpr hw2ne
        cases lead <;> simp [chunksOf, List.length_append] <;> omega
      · rw [hcons, heq,
          show chunksOf true ws2x = [' '] :: interWords ws2x from rfl,
          ← hz, interWords_flatten]
      · intro pre post hpp hlen
        rcases pre with _ | ⟨p, ps⟩
        · exact ⟨ws1, rfl⟩
        · rcases post with _ | ⟨q, qs⟩
          · rw [List.append_nil] at hpp
            have hsum : ((interWords ws).map List.length).sum ≤
                70 - (if first then ([] : Str) else "    ".data).length := by
              rw [interWords_sum, hW, hpp]
              exact hlen
            have hfull := pack_full_fit
              (70 - (if first then ([] : Str) else "    ".data).length) ws hsum
            have hcontra := hpack0.symm.trans hfull
            rw [Prod.mk.injEq] at hcontra
            exact absurd hcontra.2 (by simp)
          · have hsum : ((interWords (p :: ps)).map List.length).sum ≤
                70 - (if first then ([] : Str) else "    ".data).length := by
              rw [interWords_sum, hW]
              exact hlen
            have hle1 := pre_le_of_pack
              (70 - (if first then ([] : Str) else "    ".data).length)
              (by simp) (by simp) hpp hsum hpack0
            have hlp := interWords_length (p :: ps) (by simp)
            rw [hlp, hlp1] at hle1
            exact seg_extends hsplit hpp (by omega)
    · -- line full, separator space packed then dropped from the line end
      have hpack0 := hpackC
      rw [hd, hz, List.cons_append] at hpackC
      have hdropc : dropTrailWs (z :: (zs ++ [[' ']])) = z :: zs := by
        have h := dropTrailWs_sp (interWords ws1)
        rw [hz, List.cons_append] at h
        exact h
      have heq := wrapLoop_step_pack 70 ("    ".data) fuel first c cs d ds z
        (zs ++ [[' ']]) (interWords ws2x) z zs hch hpackC hdropc
      have hcf2 : chunksOf false ws2x = interWords ws2x := by simp [chunksOf]
      refine ⟨ws1, ws2x, false, hne1, hsplit, by simp, ?_, ?_, ?_⟩
      · have h2x := interWords_length ws2x hw2ne
        have hlw := interWords_length ws hne
        have hwsl : ws.length = ws1.length + ws2x.length := by
          rw [hsplit, List.length_append]
        have h1p : 0 < ws1.length := List.length_pos.mpr hne1
        have h2p : 0 < ws2x.length := List.length_pos.mpr hw2ne
        cases lead <;> simp [chunksOf, List.length_append] <;> omega
      · rw [hcons, heq, hcf2, ← hz, interWords_flatten]
      · intro pre post hpp hlen
        rcases pre with _ | ⟨p, ps⟩
        · exact ⟨ws1, rfl⟩
        · rcases post with _ | ⟨q, qs⟩
          · rw [List.append_nil] at hpp
            have hsum : ((interWords ws).map List.length).sum ≤
                70 - (if first then ([] : Str) else "    ".data).length := by
              rw [interWords_sum, hW, hpp]
              exact hlen
            have hfull := pack_full_fit
              (70 - (if first then ([] : Str) else "    ".data).length) ws hsum
            have hcontra := hpack0.symm.trans hfull
            rw [Prod.mk.injEq] at hcontra
            exact absurd hcontra.2 (interWords_ne_nil hw2ne)
          · have hsum : ((interWords (p :: ps)).map List.length).sum ≤
                70 - (if first then ([] : Str) else "    ".data).length := by
              rw [interWords_sum, hW]
              exact hlen
            have hle1 := pre_le_of_pack
              (70 - (if first then ([] : Str) else "    ".data).length)
              (by simp) (by simp) hpp hsum hpack0
            have hlp := interWords_length (p :: ps) (by simp)
            rw [List.length_append, List.length_singleton, hlp, hlp1] at hle1
            have hp1 : 0 < (p :: ps).length := by simp
            have hw1p : 0 < ws1.length := List.length_pos.mpr hne1
            have hgoal : (p :: ps).length ≤ ws1.length := by omega
            exact seg_extends hsplit hpp hgoal

theorem wrapLoop_segs : ∀ (n fuel : Nat) (first lead : Bool) (ws : List Str),
    ws.length ≤ n → (∀ u ∈ ws, goodWord u = true) → ws ≠ [] →
    (first = true → lead = false) → (chunksOf lead ws).length < fuel →
    ∃ segs : List (List Str), segs ≠ [] ∧ (∀ seg ∈ segs, seg ≠ []) ∧
      segs.flatten = ws ∧
      wrapLoop 70 ("    ".data) fuel first (chunksOf lead ws) =
        renderSegs first segs ∧
      (∀ pre post, ws = pre ++ post →
        (List.intercalate [' '] pre).length ≤ 70 - (if first then 0 else 4) →
        ∃ mid, segs.head? = some (pre ++ mid)) := by
  intro n
  induction n with
  | zero =>
    intro fuel first lead ws hlen hgood hne hfl hfuel
    cases ws with
    | nil => exact absurd rfl hne
    | cons u t => simp at hlen
  | succ n ih =>
    intro fuel first lead ws hlen hgood hne hfl hfuel
    cases fuel with
    | zero => exact absurd hfuel (by omega)
    | succ f =>
      obtain ⟨seg, ws2, lead2, hsegne, hsegsplit, hl2, hdec, heq, hfits⟩ :=
        wrapLoop_iter f first lead ws hgood hne hfl
      by_cases hws2 : ws2 = []
      · subst hws2
        have hlead2 : lead2 = false := by
          cases lead2 with
          | false => rfl
          | true => exact absurd (hl2 rfl) (by simp)
        refine ⟨[seg], by simp, by simpa using hsegne,
          by simpa using hsegsplit.symm, ?_, ?_⟩
        · rw [heq, hlead2, show chunksOf false ([] : List Str) = [] from rfl,
            wrapLoop_nil]
          rfl
        · intro pre post hpp hplen
          obtain ⟨mid, hmid⟩ := hfits pre post hpp hplen
          exact ⟨mid, by rw [show ([seg] : List (List Str)).head? = some seg
            from rfl, hmid]⟩
      · have hlen2 : ws2.length ≤ n := by
          have hws : ws.length = seg.length + ws2.length := by
            rw [hsegsplit, List.length_append]
          have hsp : 0 < seg.length := List.length_pos.mpr hsegne
          omega
        have hgood2 : ∀ u ∈ ws2, goodWord u = true := by
          intro u hu
          refine hgood u ?_
          rw [hsegsplit]
          exact List.mem_append_right _ hu
        have hfuel2 : (chunksOf lead2 ws2).length < f := by omega
        obtain ⟨segs2, hs2ne, hs2all, hs2flat, hs2eq, hs2fits⟩ :=
          ih f false lead2 ws2 hlen2 hgood2 hws2 (fun h => absurd h (by decide))
            hfuel2
        refine ⟨seg :: segs2, by simp, ?_, ?_, ?_, ?_⟩
        · intro s hs
          rcases List.mem_cons.mp hs with h | h
          · rw [h]; exact hsegne
          · exact hs2all s h
        · rw [List.flatten_cons, hs2flat, ← hsegsplit]
        · rw [heq, hs2eq]
          rfl
        · intro pre post hpp hplen
          obtain ⟨mid, hmid⟩ := hfits pre post hpp hplen
          exact ⟨mid, by rw [show (seg :: segs2).head? = some seg from rfl,
            hmid]⟩

/-! ### Header and value text lemmas for the tag codec -/

theorem subNewlines_tame : ∀ (s : Str),
    (∀ c ∈ s, c ≠ '\r' ∧ c ≠ '\n') → subNewlines s = s := by
  intro s
  induction s with
  | nil => intro _; rfl
  | cons c cs ih =>
    intro h
    have hc := h c (by simp)
    cases cs with
    | nil =>
      show (if c = '\r' ∨ c = '\n' then [' '] else [c]) = [c]
      rw [if_neg]
      rintro (h1 | h1)
      · exact hc.1 h1
      · exact hc.2 h1
    | cons d rest =>
      show (if c = '\r' then _ else if c = '\n' then _ else
        c :: subNewlines (d :: rest)) = c :: d :: rest
      rw [if_neg hc.1, if_neg hc.2, ih (fun e he => h e (by simp [he]))]

theorem intercalate_one_singleton (sep : Char) (w : Str) :
    List.intercalate [sep] [w] = w := by
  rw [List.intercalate]
  simp

theorem intercalate_one_cons (sep : Char) (w x : Str) (t : List Str) :
    List.intercalate [sep] (w :: x :: t) =
      w ++ sep :: List.intercalate [sep] (x :: t) := by
  rw [List.intercalate, List.intercalate, List.intersperse_cons_cons]
  simp

theorem map_intercalate_one (f : Char → Char) (sep : Char) : ∀ ws : List Str,
    List.map f (List.intercalate [sep] ws) =
      List.intercalate [f sep] (ws.map (List.map f)) := by
  intro ws
  induction ws with
  | nil => simp [List.intercalate]
  | cons w rest ih =>
    cases rest with
    | nil => simp [intercalate_one_singleton]
    | cons x t =>
      rw [intercalate_one_cons, List.map_append, List.map_cons, ih]
      rw [show List.map (List.map f) (w :: x :: t) = List.map f w ::
        List.map f x :: List.map (List.map f) t from rfl]
      rw [intercalate_one_cons]
      rfl

theorem map_id_of_mem {α : Type} {f : α → α} : ∀ (w : List α),
    (∀ c ∈ w, f c = c) → List.map f w = w := by
  intro w
  induction w with
  | nil => intro _; rfl
  | cons c cs ih =>
    intro h
    rw [List.map_cons, h c (by simp), ih (fun d hd => h d (by simp [hd]))]

theorem goodKeyChar_props {c : Char} (h : goodKeyChar c = true) :
    c.toLower = c ∧ c ≠ '_' ∧ c ≠ ' ' := by
  unfold goodKeyChar at h
  rw [Bool.or_eq_true, Bool.or_eq_true] at h
  have hrange : (97 ≤ c.toNat ∧ c.toNat ≤ 122) ∨
      (48 ≤ c.toNat ∧ c.toNat ≤ 57) ∨ c.toNat = 45 := by
    rcases h with (h | h) | h
    · rw [decide_eq_true_iff] at h
      exact Or.inl ⟨Char.le_def.mp h.1, Char.le_def.mp h.2⟩
    · rw [Char.isDigit, Bool.and_eq_true, decide_eq_true_iff,
        decide_eq_true_iff] at h
      exact Or.inr (Or.inl ⟨h.1, h.2⟩)
    · rw [decide_eq_true_iff] at h
      subst h
      exact Or.inr (Or.inr rfl)
  refine ⟨?_, ?_, ?_⟩
  · unfold Char.toLower
    rw [if_neg]
    intro hcond
    omega
  · intro he
    rw [he] at hrange
    simp at hrange
  · intro he
    rw [he] at hrange
    simp at hrange

theorem pyStrip_id {p : Char → Bool} {t : Str}
    (hhead : ∀ y, t.head? = some y → p y = false)
    (hlast : ∀ y, t.getLast? = some y → p y = false) : pyStrip p t = t := by
  unfold pyStrip stripLeft stripRight
  have h1 : t.dropWhile p = t := by
    cases t with
    | nil => rfl
    | cons c cs =>
      rw [List.dropWhile_cons, hhead c rfl]
      rfl
  rw [h1]
  have h2 : t.reverse.dropWhile p = t.reverse := by
    cases hr : t.reverse with
    | nil => rfl
    | cons c cs =>
      rw [List.dropWhile_cons]
      have hc : t.getLast? = some c := by
        rw [← List.head?_reverse, hr]
        rfl
      rw [hlast c hc]
      rfl
  rw [h2, List.reverse_reverse]

theorem goodWord_head {w : Str} (hw : goodWord w = true) :
    ∀ y, w.head? = some y → pySpaceChar y = false := by
  unfold goodWord at hw
  rw [Bool.and_eq_true, List.all_eq_true] at hw
  intro y hy
  exact goodWordChar_not_space (hw.2 y (List.mem_of_mem_head? hy))

theorem goodWord_last {w : Str} (hw : goodWord w = true) :
    ∀ y, w.getLast? = some y → pySpaceChar y = false := by
  unfold goodWord at hw
  rw [Bool.and_eq_true, List.all_eq_true] at hw
  intro y hy
  exact goodWordChar_not_space (hw.2 y (List.mem_of_mem_getLast? hy))

theorem goodWord_ne_nil {w : Str} (hw : goodWord w = true) : w ≠ [] := by
  unfold goodWord at hw
  rw [Bool.and_eq_true] at hw
  intro he
  rw [he] at hw
  simp at hw

theorem inter_good_head {ws : List Str} (hne : ws ≠ [])
    (hgood : ∀ w ∈ ws, goodWord w = true) :
    ∀ y, (List.intercalate [' '] ws).head? = some y → pySpaceChar y = false := by
  match ws, hne with
  | w :: t, _ =>
    have hw := hgood w (by simp)
    cases t with
    | nil =>
      rw [intercalate_singleton]
      exact goodWord_head hw
    | cons x t2 =>
      rw [intercalate_sp_cons]
      intro y hy
      match w, goodWord_ne_nil hw with
      | c :: w2, _ =>
        rw [List.cons_append, List.head?_cons] at hy
        injection hy with hy
        exact goodWord_head hw y (by rw [← hy]; rfl)

theorem inter_good_last : ∀ (ws : List Str), ws ≠ [] →
    (∀ w ∈ ws, goodWord w = true) →
    ∀ y, (List.intercalate [' '] ws).getLast? = some y → pySpaceChar y = false := by
  intro ws
  induction ws with
  | nil => intro h; exact absurd rfl h
  | cons w t ih =>
    intro _ hgood y hy
    cases t with
    | nil =>
      rw [intercalate_singleton] at hy
      exact goodWord_last (hgood w (by simp)) y hy
    | cons x t2 =>
      rw [intercalate_sp_cons] at hy
      have hne2 : (' ' :: List.intercalate [' '] (x :: t2) : Str) ≠ [] := by simp
      rw [List.getLast?_append_of_ne_nil w hne2] at hy
      have hine : List.intercalate [' '] (x :: t2) ≠ [] := by
        intro he
        have hx := goodWord_ne_nil (hgood x (by simp))
        match x, hx with
        | c :: x2, _ =>
          cases t2 with
          | nil => rw [intercalate_singleton] at he; exact List.cons_ne_nil c x2 he
          | cons z t3 =>
            rw [intercalate_sp_cons] at he
            simp at he
      cases hICons : List.intercalate [' '] (x :: t2) with
      | nil => exact absurd hICons hine
      | cons i0 irest =>
        rw [hICons, List.getLast?_cons_cons] at hy
        refine ih (by simp) (fun u hu => hgood u (by simp [hu])) y ?_
        rw [hICons]
        exact hy

theorem inter_strip_id {ws : List Str} (hne : ws ≠ [])
    (hgood : ∀ w ∈ ws, goodWord w = true) :
    pyStripWs (List.intercalate [' '] ws) = List.intercalate [' '] ws :=
  pyStrip_id (inter_good_head hne hgood) (inter_good_last ws hne hgood)

theorem keyWord_good {w : Str} (h : w ≠ [] ∧ w.all goodKeyChar = true) :
    goodWord w = true := by
  unfold goodWord
  rw [Bool.and_eq_true]
  obtain ⟨h1, h2⟩ := h
  rw [List.all_eq_true] at h2
  constructor
  · rw [isEmpty_false_of_ne h1]
    rfl
  · rw [List.all_eq_true]
    exact fun c hc => goodKeyChar_word (h2 c hc)

theorem colonize_ne_nil (hws : List Str) : colonize hws ≠ [] := by
  match hws with
  | [] => simp [colonize]
  | [w] => simp [colonize]
  | w :: x :: t => simp [colonize]

theorem colonize_words : ∀ (hws : List Str),
    (∀ w ∈ hws, w ≠ [] ∧ w.all goodKeyChar = true) →
    ∀ w ∈ colonize hws, goodWord w = true := by
  intro hws
  induction hws with
  | nil =>
    intro _ w hw
    rw [show colonize [] = [[':']] from rfl] at hw
    rw [List.mem_singleton] at hw
    rw [hw]
    rfl
  | cons u t ih =>
    intro hall w hw
    cases t with
    | nil =>
      rw [show colonize [u] = [u ++ [':']] from rfl, List.mem_singleton] at hw
      rw [hw]
      obtain ⟨h1, h2⟩ := hall u (by simp)
      rw [List.all_eq_true] at h2
      unfold goodWord
      rw [Bool.and_eq_true, List.all_eq_true]
      constructor
      · rw [isEmpty_false_of_ne (by simp)]
        rfl
      · intro c hc
        rcases List.mem_append.mp hc with hc2 | hc2
        · exact goodKeyChar_word (h2 c hc2)
        · rw [List.mem_singleton] at hc2
          rw [hc2]
          rfl
    | cons x t2 =>
      rw [show colonize (u :: x :: t2) = u :: colonize (x :: t2) from rfl] at hw
      rcases List.mem_cons.mp hw with hw2 | hw2
      · rw [hw2]
        exact keyWord_good (hall u (by simp))
      · exact ih (fun v hv => hall v (by simp [hv])) w hw2

theorem colonize_inter : ∀ (hws : List Str), hws ≠ [] →
    List.intercalate [' '] (colonize hws) =
      List.intercalate [' '] hws ++ [':'] := by
  intro hws
  induction hws with
  | nil => intro h; exact absurd rfl h
  | cons u t ih =>
    intro _
    cases t with
    | nil =>
      rw [show colonize [u] = [u ++ [':']] from rfl, intercalate_singleton,
        intercalate_singleton]
    | cons x t2 =>
      rw [show colonize (u :: x :: t2) = u :: colonize (x :: t2) from rfl]
      cases hc : colonize (x :: t2) with
      | nil => exact absurd hc (colonize_ne_nil _)
      | cons c0 crest =>
        rw [intercalate_sp_cons, ← hc, ih (by simp), intercalate_sp_cons]
        simp

theorem key_word_ids {hws : List Str}
    (hall : ∀ w ∈ hws, w ≠ [] ∧ w.all goodKeyChar = true) :
    hws.map (List.map Char.toLower) = hws ∧
      hws.map (List.map (fun c => if c = '_' then ' ' else c)) = hws ∧
      hws.map (List.map (fun c => if c = ' ' then '_' else c)) = hws := by
  refine ⟨?_, ?_, ?_⟩ <;>
    refine map_id_of_mem _ (fun w hw => map_id_of_mem w (fun c hc => ?_))
  · obtain ⟨h1, h2⟩ := hall w hw
    rw [List.all_eq_true] at h2
    exact (goodKeyChar_props (h2 c hc)).1
  · obtain ⟨h1, h2⟩ := hall w hw
    rw [List.all_eq_true] at h2
    rw [if_neg (goodKeyChar_props (h2 c hc)).2.1]
  · obtain ⟨h1, h2⟩ := hall w hw
    rw [List.all_eq_true] at h2
    rw [if_neg (goodKeyChar_props (h2 c hc)).2.2]

theorem key_to_header {k : Str} {hws : List Str} (hk : KeyWords k hws) :
    (pyLower k).map (fun c => if c = '_' then ' ' else c) =
      List.intercalate [' '] hws := by
  obtain ⟨hne, hall, hkeq, _⟩ := hk
  obtain ⟨hid1, hid2, hid3⟩ := key_word_ids hall
  rw [hkeq]
  unfold pyLower
  rw [map_intercalate_one Char.toLower '_', hid1,
    map_intercalate_one (fun c => if c = '_' then ' ' else c) (Char.toLower '_'),
    hid2]
  rfl

theorem header_to_key {k : Str} {hws : List Str} (hk : KeyWords k hws) :
    normTagName (List.intercalate [' '] hws) = k := by
  obtain ⟨hne, hall, hkeq, _⟩ := hk
  obtain ⟨hid1, hid2, hid3⟩ := key_word_ids hall
  have hgws : ∀ w ∈ hws, goodWord w = true := fun w hw => keyWord_good (hall w hw)
  unfold normTagName
  rw [inter_strip_id hne hgws]
  unfold pyLower
  rw [map_intercalate_one Char.toLower ' ', hid1,
    map_intercalate_one (fun c => if c = ' ' then '_' else c) (Char.toLower ' '),
    hid3, hkeq]
  rfl

theorem inter_sp_length {k : Str} {hws : List Str} (hk : KeyWords k hws) :
    (List.intercalate [' '] hws).length = k.length := by
  rw [← key_to_header hk, List.length_map]
  unfold pyLower
  rw [List.length_map]

theorem inter_char_mem : ∀ (vws : List Str),
    (∀ w ∈ vws, goodWord w = true) →
    ∀ c ∈ List.intercalate [' '] vws, c = ' ' ∨ goodWordChar c = true := by
  intro vws
  induction vws with
  | nil =>
    intro _ c hc
    simp [List.intercalate, List.intersperse] at hc
  | cons w t ih =>
    intro hgood c hc
    have hw := hgood w (by simp)
    unfold goodWord at hw
    rw [Bool.and_eq_true, List.all_eq_true] at hw
    cases t with
    | nil =>
      rw [intercalate_singleton] at hc
      exact Or.inr (hw.2 c hc)
    | cons x t2 =>
      rw [intercalate_sp_cons] at hc
      rcases List.mem_append.mp hc with hc2 | hc2
      · exact Or.inr (hw.2 c hc2)
      · rcases List.mem_cons.mp hc2 with hc3 | hc3
        · exact Or.inl hc3
        · exact ih (fun u hu => hgood u (by simp [hu])) c hc3

theorem tag_text_chunks {aws : List Str} (hne : aws ≠ [])
    (hgood : ∀ w ∈ aws, goodWord w = true) :
    chunkify (munge (List.intercalate [' '] aws)) = interWords aws := by
  have hmunge : munge (List.intercalate [' '] aws) =
      List.intercalate [' '] aws := by
    refine munge_tame ?_
    intro c hc
    rcases inter_char_mem aws hgood c hc with h | h
    · exact Or.inl h
    · exact Or.inr (goodWordChar_not_space h)
  rw [hmunge]
  have h := chunkify_inter_tail aws [] hgood hne (by intro y hy; simp at hy)
  rw [List.append_nil] at h
  rw [h, chunkify_nil, List.append_nil]

theorem tag_text_wrap {k : Str} {hws vws : List Str} (hk : KeyWords k hws)
    (hvgood : ∀ w ∈ vws, goodWord w = true) (hvne : vws ≠ []) :
    ∃ (segs : List (List Str)) (mid : List Str), segs ≠ [] ∧
      (∀ seg ∈ segs, seg ≠ []) ∧
      segs.flatten = colonize hws ++ vws ∧
      segs.head? = some (colonize hws ++ mid) ∧
      pyWrap ((pyLower k).map (fun c => if c = '_' then ' ' else c) ++
        ':' :: ' ' :: List.intercalate [' '] vws) = renderSegs true segs := by
  obtain ⟨hkne, hkall, hkeq, hklen⟩ := hk
  have hcolgood : ∀ w ∈ colonize hws, goodWord w = true := colonize_words hws hkall
  have hawsgood : ∀ w ∈ colonize hws ++ vws, goodWord w = true := by
    intro w hw
    rcases List.mem_append.mp hw with h | h
    · exact hcolgood w h
    · exact hvgood w h
  have hawsne : (colonize hws ++ vws : List (List Char)) ≠ [] := by
    intro he
    exact colonize_ne_nil hws (List.append_eq_nil.mp he).1
  have htext : (pyLower k).map (fun c => if c = '_' then ' ' else c) ++
      ':' :: ' ' :: List.intercalate [' '] vws =
      List.intercalate [' '] (colonize hws ++ vws) := by
    rw [key_to_header ⟨hkne, hkall, hkeq, hklen⟩]
    rw [intercalate_sp_append (colonize hws) (colonize_ne_nil hws) vws hvne]
    rw [colonize_inter hws hkne]
    simp
  rw [htext]
  have hchunks := tag_text_chunks hawsne hawsgood
  unfold pyWrap
  rw [hchunks]
  have hfuel : (chunksOf false (colonize hws ++ vws)).length <
      (interWords (colonize hws ++ vws)).length + 1 := by
    simp [chunksOf]
  obtain ⟨segs, hsne, hsall, hsflat, hseq, hsfits⟩ :=
    wrapLoop_segs (colonize hws ++ vws).length
      ((interWords (colonize hws ++ vws)).length + 1) true false
      (colonize hws ++ vws) le_rfl hawsgood hawsne (fun _ => rfl) hfuel
  rw [show chunksOf false (colonize hws ++ vws) =
    interWords (colonize hws ++ vws) from by simp [chunksOf]] at hseq
  have hfit : (List.intercalate [' '] (colonize hws)).length ≤
      70 - (if true then 0 else 4) := by
    rw [colonize_inter hws hkne, List.length_append,
      inter_sp_length ⟨hkne, hkall, hkeq, hklen⟩]
    simp
    omega
  obtain ⟨mid, hmid⟩ := hsfits (colonize hws) vws rfl hfit
  exact ⟨segs, mid, hsne, hsall, hsflat, hmid, hseq⟩

theorem pyStripWs_pad {pad t : Str} (hpad : ∀ c ∈ pad, pySpaceChar c = true)
    (hhead : ∀ y, t.head? = some y → pySpaceChar y = false)
    (hlast : ∀ y, t.getLast? = some y → pySpaceChar y = false) :
    pyStripWs (pad ++ t) = t := by
  unfold pyStripWs pyStrip stripLeft
  rw [dropWhile_all_append hpad hhead]
  have h2 : stripRight pySpaceChar t = t := by
    have := @pyStrip_id pySpaceChar t hhead hlast
    unfold pyStrip stripLeft at this
    rw [dropWhile_head_false hhead] at this
    exact this
  exact h2

theorem inter_pad_strip (pad : Str) {ws : List Str}
    (hpad : ∀ c ∈ pad, pySpaceChar c = true) (hne : ws ≠ [])
    (hgood : ∀ w ∈ ws, goodWord w = true) :
    pyStripWs (pad ++ List.intercalate [' '] ws) = List.intercalate [' '] ws :=
  pyStripWs_pad hpad (inter_good_head hne hgood) (inter_good_last ws hne hgood)

theorem indent_all_space : ∀ c ∈ ("    ".data : Str), pySpaceChar c = true := by
  decide

theorem line_not_all_space (pad : Str) {ws : List Str}
    (hpad : ∀ c ∈ pad, pySpaceChar c = true) (hne : ws ≠ [])
    (hgood : ∀ w ∈ ws, goodWord w = true) :
    (pad ++ List.intercalate [' '] ws).all pySpaceChar = false := by
  rw [List.all_eq_false]
  match ws, hne with
  | w :: t, _ =>
    have hwne := goodWord_ne_nil (hgood w (by simp))
    match w, hwne with
    | c :: w2, _ =>
      refine ⟨c, ?_, ?_⟩
      · rw [List.mem_append]
        refine Or.inr ?_
        cases t with
        | nil =>
          rw [intercalate_singleton]
          simp
        | cons x t2 =>
          rw [intercalate_sp_cons]
          simp
      · have hg := hgood (c :: w2) (by simp)
        unfold goodWord at hg
        rw [Bool.and_eq_true, List.all_eq_true] at hg
        intro hcontra
        rw [goodWordChar_not_space (hg.2 c (by simp))] at hcontra
        exact Bool.false_ne_true hcontra

theorem flatten_ne_nil {segs : List (List Str)} (hne : segs ≠ [])
    (hall : ∀ s ∈ segs, s ≠ []) : segs.flatten ≠ [] := by
  match segs, hne with
  | s :: rest, _ =>
    rw [List.flatten_cons]
    intro he
    exact hall s (by simp) (List.append_eq_nil.mp he).1

theorem folds_nonspecial {k : Str} (hk : ¬ k ∈ specialNames) :
    ∀ (segs : List (List Str)), segs ≠ [] → (∀ s ∈ segs, s ≠ []) →
    foldsOf k segs = ' ' :: List.intercalate [' '] segs.flatten := by
  intro segs
  induction segs with
  | nil => intro h; exact absurd rfl h
  | cons s rest ih =>
    intro _ hall
    cases rest with
    | nil =>
      unfold foldsOf
      rw [if_neg hk]
      simp
    | cons s2 t =>
      have hr := ih (by simp) (fun u hu => hall u (by simp [hu]))
      unfold foldsOf at hr ⊢
      rw [List.map_cons, List.flatten_cons, hr, if_neg hk]
      rw [show ((s :: s2 :: t).flatten : List Str) = s ++ (s2 :: t).flatten
        from rfl]
      rw [intercalate_sp_append s (hall s (by simp)) ((s2 :: t).flatten)
        (flatten_ne_nil (by simp) (fun u hu => hall u (by simp [hu])))]
      simp

theorem containsSub_char (ch : Char) : ∀ (a b : Str),
    containsSub [ch] (a ++ ch :: b) = true := by
  intro a
  induction a with
  | nil =>
    intro b
    simp [containsSub, leadsWith]
  | cons c cs ih =>
    intro b
    rw [List.cons_append]
    show (leadsWith [ch] (c :: (cs ++ ch :: b)) || containsSub [ch] (cs ++ ch :: b)) = true
    rw [ih b, Bool.or_true]

theorem parseLoop_cons (st : Option (Str × Str)) (line : Str)
    (rest : List Str) :
    parseLoop st (line :: rest) =
      (if line.all pySpaceChar then parseLoop st rest
       else if (line.head?.map pySpaceChar).getD false ∧ st.isSome then
        parseLoop ((st.map (fun nv => foldInto nv line))) rest
       else if !containsSub [':'] line then .error .bagValidationError
       else
        match pySplitOnce ':' (pyStripWs line) with
        | Option.none => .error .bagValidationError
        | some (p0, p1) =>
          (emitTag st ++ ·) <$> parseLoop (some (normTagName p0, p1)) rest) := rfl

theorem goodKeyChar_ne_colon {c : Char} (h : goodKeyChar c = true) : c ≠ ':' := by
  unfold goodKeyChar at h
  rw [Bool.or_eq_true, Bool.or_eq_true] at h
  have hrange : (97 ≤ c.toNat ∧ c.toNat ≤ 122) ∨
      (48 ≤ c.toNat ∧ c.toNat ≤ 57) ∨ c.toNat = 45 := by
    rcases h with (h | h) | h
    · rw [decide_eq_true_iff] at h
      exact Or.inl ⟨Char.le_def.mp h.1, Char.le_def.mp h.2⟩
    · rw [Char.isDigit, Bool.and_eq_true, decide_eq_true_iff,
        decide_eq_true_iff] at h
      exact Or.inr (Or.inl ⟨h.1, h.2⟩)
    · rw [decide_eq_true_iff] at h
      subst h
      exact Or.inr (Or.inr rfl)
  intro he
  rw [he] at hrange
  simp at hrange

theorem inter_key_char : ∀ (hws : List Str),
    (∀ w ∈ hws, w ≠ [] ∧ w.all goodKeyChar = true) →
    ∀ c ∈ List.intercalate [' '] hws, c = ' ' ∨ goodKeyChar c = true := by
  intro hws
  induction hws with
  | nil =>
    intro _ c hc
    simp [List.intercalate, List.intersperse] at hc
  | cons w t ih =>
    intro hall c hc
    have hw := (hall w (by simp)).2
    rw [List.all_eq_true] at hw
    cases t with
    | nil =>
      rw [intercalate_singleton] at hc
      exact Or.inr (hw c hc)
    | cons x t2 =>
      rw [intercalate_sp_cons] at hc
      rcases List.mem_append.mp hc with hc2 | hc2
      · exact Or.inr (hw c hc2)
      · rcases List.mem_cons.mp hc2 with hc3 | hc3
        · exact Or.inl hc3
        · exact ih (fun u hu => hall u (by simp [hu])) c hc3

theorem line_split {hws mid : List Str} (hkne : hws ≠ []) :
    List.intercalate [' '] (colonize hws ++ mid) =
      List.intercalate [' '] hws ++ ':' ::
        (if mid = [] then [] else ' ' :: List.intercalate [' '] mid) := by
  cases mid with
  | nil =>
    rw [List.append_nil, colonize_inter hws hkne, if_pos rfl]
  | cons m0 mrest =>
    rw [intercalate_sp_append (colonize hws) (colonize_ne_nil hws)
      (m0 :: mrest) (by simp), colonize_inter hws hkne,
      if_neg (by simp : ¬(m0 :: mrest = []))]
    simp

theorem parse_line1 {k : Str} {hws mid : List Str} (hk : KeyWords k hws)
    (hmgood : ∀ w ∈ mid, goodWord w = true)
    (st : Option (Str × Str)) (rest : List Str) :
    parseLoop st (List.intercalate [' '] (colonize hws ++ mid) :: rest) =
      (emitTag st ++ ·) <$>
        parseLoop (some (k, (if mid = [] then [] else
          ' ' :: List.intercalate [' '] mid))) rest := by
  obtain ⟨hkne, hkall, hkeq, hklen⟩ := hk
  have hgoodall : ∀ w ∈ colonize hws ++ mid, goodWord w = true := by
    intro w hw
    rcases List.mem_append.mp hw with h | h
    · exact colonize_words hws hkall w h
    · exact hmgood w h
  have hlne : (colonize hws ++ mid : List (List Char)) ≠ [] := by
    intro he
    exact colonize_ne_nil hws (List.append_eq_nil.mp he).1
  rw [parseLoop_cons]
  rw [if_neg]
  · rw [if_neg]
    · have hsplit : pySplitOnce ':'
          (pyStripWs (List.intercalate [' '] (colonize hws ++ mid))) =
          some (List.intercalate [' '] hws,
            (if mid = [] then [] else ' ' :: List.intercalate [' '] mid)) := by
        rw [inter_strip_id hlne hgoodall, line_split hkne]
        refine pySplitOnce_append ?_
        intro c hc
        rcases inter_key_char hws hkall c hc with h | h
        · rw [h]
          decide
        · exact goodKeyChar_ne_colon h
      rw [if_neg]
      · rw [hsplit]
        show (emitTag st ++ ·) <$> parseLoop
          (some (normTagName (List.intercalate [' '] hws),
            if mid = [] then [] else ' ' :: List.intercalate [' '] mid)) rest = _
        rw [header_to_key ⟨hkne, hkall, hkeq, hklen⟩]
      · rw [line_split hkne, containsSub_char]
        decide
    · rintro ⟨h1, -⟩
      cases hhd : (List.intercalate [' '] (colonize hws ++ mid)).head? with
      | none => rw [hhd] at h1; simp at h1
      | some y =>
        rw [hhd] at h1
        rw [show ((some y).map pySpaceChar).getD false = pySpaceChar y
          from rfl] at h1
        rw [inter_good_head hlne hgoodall y hhd] at h1
        exact Bool.false_ne_true h1
  · have := line_not_all_space [] (fun c hc => absurd hc
      (List.not_mem_nil c)) hlne hgoodall
    rw [List.nil_append] at this
    rw [this]
    simp

theorem parse_cont {k : Str} : ∀ (segs : List (List Str)) (v0 : Str)
    (rest : List Str),
    (∀ s ∈ segs, s ≠ [] ∧ ∀ w ∈ s, goodWord w = true) →
    parseLoop (some (k, v0)) (renderSegs false segs ++ rest) =
      parseLoop (some (k, v0 ++ foldsOf k segs)) rest := by
  intro segs
  induction segs with
  | nil =>
    intro v0 rest _
    rw [show renderSegs false [] = [] from rfl, List.nil_append]
    rw [show foldsOf k [] = [] from rfl, List.append_nil]
  | cons s rest2 ih =>
    intro v0 rest hall
    obtain ⟨hsne, hsgood⟩ := hall s (by simp)
    rw [show renderSegs false (s :: rest2) =
      ("    ".data ++ List.intercalate [' '] s) :: renderSegs false rest2
      from rfl]
    rw [List.cons_append, parseLoop_cons]
    rw [if_neg, if_pos]
    · rw [show (some (k, v0)).map
        (fun nv => foldInto nv ("    ".data ++ List.intercalate [' '] s)) =
        some (foldInto (k, v0) ("    ".data ++ List.intercalate [' '] s))
        from rfl]
      unfold foldInto
      rw [inter_pad_strip ("    ".data) indent_all_space hsne hsgood]
      by_cases hsp : k ∈ specialNames
      · rw [if_pos hsp]
        rw [ih (v0 ++ List.intercalate [' '] s) rest
          (fun u hu => hall u (by simp [hu]))]
        have hfolds : foldsOf k (s :: rest2) =
            List.intercalate [' '] s ++ foldsOf k rest2 := by
          unfold foldsOf
          rw [List.map_cons, List.flatten_cons, if_pos hsp, List.nil_append]
        rw [hfolds, List.append_assoc]
      · rw [if_neg hsp]
        rw [ih (v0 ++ ' ' :: List.intercalate [' '] s) rest
          (fun u hu => hall u (by simp [hu]))]
        have hfolds : foldsOf k (s :: rest2) =
            ' ' :: List.intercalate [' '] s ++ foldsOf k rest2 := by
          unfold foldsOf
          rw [List.map_cons, List.flatten_cons, if_neg hsp]
          rfl
        rw [hfolds]
        simp
    · exact ⟨rfl, rfl⟩
    · rw [line_not_all_space ("    ".data) indent_all_space hsne hsgood]
      simp

theorem flatten_singleton {ss : List (List Str)} {w : Str}
    (hall : ∀ s ∈ ss, s ≠ []) (hflat : ss.flatten = [w]) : ss = [[w]] := by
  cases ss with
  | nil => simp at hflat
  | cons s t =>
    rw [List.flatten_cons] at hflat
    have hsne := hall s (by simp)
    match s, hsne with
    | [x], _ =>
      rw [List.singleton_append] at hflat
      injection hflat with h1 h2
      have ht : t = [] := by
        by_cases hte : t = []
        · exact hte
        · exact absurd h2 (flatten_ne_nil hte (fun u hu => hall u (by simp [hu])))
      rw [h1, ht]
    | x :: y :: s2, _ =>
      rw [List.cons_append, List.cons_append] at hflat
      injection hflat with h1 h2
      simp at h2

theorem word_strip_id {w : Str} (hw : goodWord w = true) : pyStripWs w = w :=
  pyStrip_id (goodWord_head hw) (goodWord_last hw)

theorem value_strip {mid : List Str} {restsegs : List (List Str)} {k : Str}
    (hmgood : ∀ w ∈ mid, goodWord w = true)
    (hrall : ∀ s ∈ restsegs, s ≠ [] ∧ ∀ w ∈ s, goodWord w = true)
    (hne : mid ++ restsegs.flatten ≠ [])
    (hspecial : k ∈ specialNames → (mid ++ restsegs.flatten).length ≤ 1) :
    pyStripWs ((if mid = [] then [] else ' ' :: List.intercalate [' '] mid) ++
      foldsOf k restsegs) =
      List.intercalate [' '] (mid ++ restsegs.flatten) := by
  have hallgood : ∀ w ∈ mid ++ restsegs.flatten, goodWord w = true := by
    intro w hw
    rcases List.mem_append.mp hw with h | h
    · exact hmgood w h
    · obtain ⟨s, hs, hws⟩ := List.mem_flatten.mp h
      exact (hrall s hs).2 w hws
  by_cases hsp : k ∈ specialNames
  · -- the no-space-join fields carry at most one word
    have hlen := hspecial hsp
    cases hmideq : mid with
    | nil =>
      rw [if_pos rfl, List.nil_append, List.nil_append]
      rw [hmideq, List.nil_append] at hne hlen hallgood
      cases hfl : restsegs.flatten with
      | nil => exact absurd hfl hne
      | cons w t =>
        cases t with
        | nil =>
          have hrs := flatten_singleton (fun s hs => (hrall s hs).1) hfl
          rw [hrs]
          unfold foldsOf
          rw [if_pos hsp]
          simp only [List.map_cons, List.map_nil, List.flatten_cons,
            List.flatten_nil, List.nil_append, List.append_nil]
          rw [intercalate_singleton]
          refine word_strip_id ?_
          refine hallgood w ?_
          rw [hfl]
          simp
        | cons x t2 =>
          rw [hfl] at hlen
          simp at hlen
    | cons m0 mrest =>
      rw [hmideq] at hlen hmgood
      have hrsnil : restsegs = [] := by
        by_cases hr : restsegs = []
        · exact hr
        · have hfne := flatten_ne_nil hr (fun s hs => (hrall s hs).1)
          cases hfl : restsegs.flatten with
          | nil => exact absurd hfl hfne
          | cons w t =>
            rw [hfl] at hlen
            simp at hlen
      cases mrest with
      | nil =>
        rw [hrsnil]
        rw [if_neg (by simp)]
        unfold foldsOf
        simp only [List.map_nil, List.flatten_nil, List.append_nil]
        rw [intercalate_singleton]
        have hm0 : goodWord m0 = true := hmgood m0 (by simp)
        show pyStripWs ([' '] ++ m0) = m0
        exact pyStripWs_pad (by decide) (goodWord_head hm0) (goodWord_last hm0)
      | cons m1 mrest2 =>
        rw [hrsnil] at hlen
        simp at hlen
  · -- space-joined fields
    cases hrs : restsegs with
    | nil =>
      rw [hrs, List.flatten_nil, List.append_nil] at hne hallgood
      rw [List.flatten_nil, List.append_nil, if_neg hne]
      unfold foldsOf
      simp only [List.map_nil, List.flatten_nil, List.append_nil]
      exact inter_pad_strip [] (by simp) hne hallgood
    | cons s0 srest =>
      rw [hrs] at hrall hallgood
      have hfolds := folds_nonspecial hsp (s0 :: srest) (by simp)
        (fun s hs => (hrall s hs).1)
      rw [hfolds]
      cases hmideq : mid with
      | nil =>
        rw [hmideq, List.nil_append] at hallgood
        rw [if_pos rfl, List.nil_append, List.nil_append]
        refine inter_pad_strip [' '] (by decide) ?_ ?_
        · exact flatten_ne_nil (by simp) (fun s hs => (hrall s hs).1)
        · exact hallgood
      | cons m0 mrest =>
        rw [hmideq] at hallgood
        rw [if_neg (by simp)]
        rw [show (' ' :: List.intercalate [' '] (m0 :: mrest)) ++
          ' ' :: List.intercalate [' '] (s0 :: srest).flatten =
          [' '] ++ (List.intercalate [' '] (m0 :: mrest) ++
            ' ' :: List.intercalate [' '] (s0 :: srest).flatten) from by simp]
        rw [← intercalate_sp_append (m0 :: mrest) (by simp)
          ((s0 :: srest).flatten)
          (flatten_ne_nil (by simp) (fun s hs => (hrall s hs).1))]
        exact inter_pad_strip [' '] (by decide) (by simp) hallgood

theorem goodWordChar_ne_crlf {c : Char} (h : goodWordChar c = true) :
    c ≠ '\r' ∧ c ≠ '\n' := by
  unfold goodWordChar at h
  rw [Bool.and_eq_true, decide_eq_true_iff, decide_eq_true_iff] at h
  constructor
  · intro he
    rw [he] at h
    simp at h
  · intro he
    rw [he] at h
    simp at h

theorem renderSegs_mem : ∀ (first : Bool) (segs : List (List Str)) (l : Str),
    l ∈ renderSegs first segs → ∃ seg pad, seg ∈ segs ∧
      (pad = [] ∨ pad = "    ".data) ∧
      l = pad ++ List.intercalate [' '] seg := by
  intro first segs
  induction segs generalizing first with
  | nil =>
    intro l hl
    simp [renderSegs] at hl
  | cons s rest ih =>
    intro l hl
    rw [show renderSegs first (s :: rest) =
      ((if first then [] else "    ".data) ++ List.intercalate [' '] s) ::
        renderSegs false rest from rfl] at hl
    rcases List.mem_cons.mp hl with h | h
    · refine ⟨s, (if first then [] else "    ".data), by simp, ?_, h⟩
      cases first with
      | true => exact Or.inl rfl
      | false => exact Or.inr rfl
    · obtain ⟨seg, pad, hseg, hpad, hleq⟩ := ih false l h
      exact ⟨seg, pad, by simp [hseg], hpad, hleq⟩

theorem tag_block_ok {k : Str} {hws : List Str} (hk : KeyWords k hws)
    (v0 : Option Str) (vws : List Str)
    (hvgood : ∀ w ∈ vws, goodWord w = true) (hvne : vws ≠ [])
    (hveq : pyStrOf v0 = List.intercalate [' '] vws)
    (hvspec : k ∈ specialNames → vws.length ≤ 1) :
    ∃ lines : List Str, tagBlockLines k v0 = lines ∧ lines ≠ [] ∧
      (∀ l ∈ lines, ∀ c ∈ l, c ≠ '\r' ∧ c ≠ '\n') ∧
      ∃ rawv, pyStripWs rawv = pyStrOf v0 ∧
        ∀ st rest, parseLoop st (lines ++ rest) =
          (emitTag st ++ ·) <$> parseLoop (some (k, rawv)) rest := by
  have hsubnl : subNewlines (pyStrOf v0) = pyStrOf v0 := by
    refine subNewlines_tame _ ?_
    intro c hc
    rw [hveq] at hc
    rcases inter_char_mem vws hvgood c hc with h | h
    · rw [h]
      constructor <;> decide
    · exact goodWordChar_ne_crlf h
  obtain ⟨segs, mid, hsne, hsall, hsflat, hshead, hseq⟩ :=
    tag_text_wrap hk hvgood hvne
  have hblock : tagBlockLines k v0 = renderSegs true segs := by
    unfold tagBlockLines
    rw [hsubnl, hveq]
    exact hseq
  have hawsgood : ∀ w ∈ colonize hws ++ vws, goodWord w = true := by
    intro w hw
    rcases List.mem_append.mp hw with h | h
    · exact colonize_words hws hk.2.1 w h
    · exact hvgood w h
  have hsegsgood : ∀ s ∈ segs, ∀ w ∈ s, goodWord w = true := by
    intro s hs w hw
    refine hawsgood w ?_
    rw [← hsflat]
    exact List.mem_flatten.mpr ⟨s, hs, hw⟩
  refine ⟨renderSegs true segs, hblock, ?_, ?_, ?_⟩
  · match segs, hsne with
    | s :: rest, _ => simp [renderSegs]
  · intro l hl c hc
    obtain ⟨seg, pad, hseg, hpad, hleq⟩ := renderSegs_mem true segs l hl
    rw [hleq] at hc
    rcases List.mem_append.mp hc with h | h
    · rcases hpad with hp | hp <;> rw [hp] at h
      · simp at h
      · have hsp : c = ' ' :=
          (show ∀ c ∈ ("    ".data : Str), c = ' ' by decide) c h
        rw [hsp]
        constructor <;> decide
    · rcases inter_char_mem seg (hsegsgood seg hseg) c h with h2 | h2
      · rw [h2]
        constructor <;> decide
      · exact goodWordChar_ne_crlf h2
  · match segs, hsne, hsflat, hshead, hsall with
    | seg1 :: srest, _, hsflat, hshead, hsall =>
      have hseg1 : seg1 = colonize hws ++ mid := by
        rw [List.head?_cons] at hshead
        injection hshead
      rw [List.flatten_cons, hseg1, List.append_assoc] at hsflat
      have hvws : vws = mid ++ srest.flatten :=
        (List.append_cancel_left hsflat).symm
      have hmgood : ∀ w ∈ mid, goodWord w = true := by
        intro w hw
        refine hvgood w ?_
        rw [hvws]
        exact List.mem_append_left _ hw
      have hrall : ∀ s ∈ srest, s ≠ [] ∧ ∀ w ∈ s, goodWord w = true :=
        fun s hs => ⟨hsall s (by simp [hs]), hsegsgood s (by simp [hs])⟩
      refine ⟨(if mid = [] then [] else ' ' :: List.intercalate [' '] mid) ++
        foldsOf k srest, ?_, ?_⟩
      · rw [hveq, hvws]
        refine value_strip hmgood hrall ?_ ?_
        · rw [← hvws]
          exact hvne
        · rw [← hvws]
          exact hvspec
      · intro st rest
        have hlines : renderSegs true (seg1 :: srest) =
            List.intercalate [' '] seg1 :: renderSegs false srest := rfl
        rw [hlines, hseg1, List.cons_append]
        rw [parse_line1 hk hmgood st (renderSegs false srest ++ rest)]
        rw [parse_cont srest
          (if mid = [] then [] else ' ' :: List.intercalate [' '] mid)
          rest hrall]

theorem intercalate_single (sep w : Str) : List.intercalate sep [w] = w := by
  rw [List.intercalate]
  simp

theorem intercalate_cons_any (sep w x : Str) (t : List Str) :
    List.intercalate sep (w :: x :: t) =
      w ++ sep ++ List.intercalate sep (x :: t) := by
  rw [List.intercalate, List.intercalate, List.intersperse_cons_cons]
  simp

theorem intercalate_append_any (sep : Str) : ∀ (l1 : List Str), l1 ≠ [] →
    ∀ (l2 : List Str), l2 ≠ [] →
    List.intercalate sep (l1 ++ l2) =
      List.intercalate sep l1 ++ sep ++ List.intercalate sep l2 := by
  intro l1
  induction l1 with
  | nil => intro h; exact absurd rfl h
  | cons u rest ih =>
    intro _ l2 h2
    cases rest with
    | nil =>
      match l2, h2 with
      | x :: t, _ =>
        rw [List.singleton_append, intercalate_cons_any, intercalate_single]
    | cons y ys =>
      rw [show (u :: y :: ys) ++ l2 = u :: y :: (ys ++ l2) from rfl]
      rw [intercalate_cons_any]
      rw [show (y :: (ys ++ l2) : List Str) = (y :: ys) ++ l2 from rfl]
      rw [ih (by simp) l2 h2]
      rw [intercalate_cons_any]
      simp

theorem splitLinesGo_clean : ∀ (l cur : Str),
    (∀ c ∈ l, c ≠ '\r' ∧ c ≠ '\n') →
    splitLinesGo cur l = [cur.reverse ++ l] := by
  intro l
  induction l with
  | nil =>
    intro cur _
    simp [splitLinesGo]
  | cons c cs ih =>
    intro cur h
    have hc := h c (by simp)
    cases cs with
    | nil =>
      show (if c = '\r' ∨ c = '\n' then [cur.reverse, []]
        else [(c :: cur).reverse]) = [cur.reverse ++ [c]]
      rw [if_neg (by rintro (h1 | h1); exacts [hc.1 h1, hc.2 h1])]
      rw [List.reverse_cons]
    | cons d rest =>
      show (if c = '\r' then _ else if c = '\n' then _
        else splitLinesGo (c :: cur) (d :: rest)) = _
      rw [if_neg hc.1, if_neg hc.2, ih (c :: cur) (fun e he => h e (by simp [he]))]
      rw [List.reverse_cons]
      simp

theorem splitLinesGo_line : ∀ (l cur t : Str),
    (∀ c ∈ l, c ≠ '\r' ∧ c ≠ '\n') →
    splitLinesGo cur (l ++ '\r' :: '\n' :: t) =
      (cur.reverse ++ l) :: splitLinesGo [] t := by
  intro l
  induction l with
  | nil =>
    intro cur t _
    rw [List.nil_append, List.append_nil]
    show (if ('\r' : Char) = '\r' then
      if ('\n' : Char) = '\n' then cur.reverse :: splitLinesGo [] t
      else cur.reverse :: splitLinesGo [] ('\n' :: t)
      else _) = cur.reverse :: splitLinesGo [] t
    rw [if_pos rfl, if_pos rfl]
  | cons c cs ih =>
    intro cur t h
    have hc := h c (by simp)
    cases cs with
    | nil =>
      rw [List.cons_append, List.nil_append]
      show (if c = '\r' then _ else if c = '\n' then _
        else splitLinesGo (c :: cur) ('\r' :: '\n' :: t)) = _
      rw [if_neg hc.1, if_neg hc.2]
      have h0 := ih (c :: cur) t (by simp)
      rw [List.nil_append] at h0
      rw [h0, List.reverse_cons, List.append_nil]
    | cons d cs2 =>
      rw [List.cons_append]
      show (if c = '\r' then _ else if c = '\n' then _
        else splitLinesGo (c :: cur) ((d :: cs2) ++ '\r' :: '\n' :: t)) = _
      rw [if_neg hc.1, if_neg hc.2,
        ih (c :: cur) t (fun e he => h e (by simp [he])), List.reverse_cons]
      simp

theorem splitLines_joinCRLF : ∀ (lines : List Str), lines ≠ [] →
    (∀ l ∈ lines, ∀ c ∈ l, c ≠ '\r' ∧ c ≠ '\n') →
    splitLines (joinCRLF lines) = lines := by
  intro lines
  induction lines with
  | nil => intro h; exact absurd rfl h
  | cons l rest ih =>
    intro _ hclean
    cases rest with
    | nil =>
      unfold splitLines joinCRLF
      rw [intercalate_single]
      rw [splitLinesGo_clean l [] (hclean l (by simp))]
      rfl
    | cons l2 t =>
      unfold splitLines joinCRLF
      rw [intercalate_cons_any]
      rw [show (l ++ ['\r', '\n'] ++
        List.intercalate ['\r', '\n'] (l2 :: t) : Str) =
        l ++ '\r' :: '\n' :: List.intercalate ['\r', '\n'] (l2 :: t) from by simp]
      rw [splitLinesGo_line l [] _ (hclean l (by simp))]
      have := ih (by simp) (fun u hu => hclean u (by simp [hu]))
      unfold splitLines joinCRLF at this
      rw [this]
      rfl

theorem joinCRLF_nest : ∀ (ls : List (List Str)), (∀ l ∈ ls, l ≠ []) →
    joinCRLF (ls.map joinCRLF) = joinCRLF ls.flatten := by
  intro ls
  induction ls with
  | nil => intro _; rfl
  | cons l rest ih =>
    intro hall
    cases rest with
    | nil =>
      unfold joinCRLF
      rw [List.map_cons, List.map_nil, intercalate_single]
      simp
    | cons l2 t =>
      unfold joinCRLF at ih ⊢
      rw [List.map_cons]
      rw [show (List.intercalate ['\r', '\n'] l ::
        List.map (fun lines => List.intercalate ['\r', '\n'] lines) (l2 :: t)) =
        [List.intercalate ['\r', '\n'] l] ++
          List.map (fun lines => List.intercalate ['\r', '\n'] lines) (l2 :: t)
        from rfl]
      rw [intercalate_append_any ['\r', '\n'] _ (by simp) _ (by simp)]
      rw [intercalate_single, ih (fun u hu => hall u (by simp [hu]))]
      rw [show ((l :: l2 :: t).flatten : List Str) = l ++ (l2 :: t).flatten
        from rfl]
      rw [intercalate_append_any ['\r', '\n'] l (hall l (by simp))
        ((l2 :: t).flatten)
        (flatten_ne_nil (by simp) (fun u hu => hall u (by simp [hu])))]

theorem key_ne_nil {k : Str} {hws : List Str} (hk : KeyWords k hws) : k ≠ [] := by
  obtain ⟨hne, hall, hkeq, _⟩ := hk
  rw [hkeq]
  match hws, hne with
  | w :: t, _ =>
    have hwne := (hall w (by simp)).1
    cases t with
    | nil =>
      rw [intercalate_single]
      exact hwne
    | cons x t2 =>
      rw [intercalate_one_cons]
      intro he
      exact hwne (List.append_eq_nil.mp he).1

theorem parse_items : ∀ (items : List (Str × Option Str)),
    (∀ it ∈ items, it.1 ≠ [] ∧ ∃ rawv, pyStripWs rawv = pyStrOf it.2 ∧
      ∀ st rest, parseLoop st (tagBlockLines it.1 it.2 ++ rest) =
        (emitTag st ++ ·) <$> parseLoop (some (it.1, rawv)) rest) →
    ∀ st, parseLoop st
        ((items.map (fun it => tagBlockLines it.1 it.2)).flatten) =
      Except.ok (emitTag st ++ items.map (fun it => (it.1, pyStrOf it.2))) := by
  intro items
  induction items with
  | nil =>
    intro _ st
    simp [parseLoop]
  | cons it rest ih =>
    intro hall st
    obtain ⟨hkne, rawv, hstrip, hparse⟩ := hall it (by simp)
    rw [List.map_cons, List.flatten_cons,
      hparse st ((rest.map (fun it => tagBlockLines it.1 it.2)).flatten)]
    rw [ih (fun b2 hb2 => hall b2 (by simp [hb2])) (some (it.1, rawv))]
    rw [show emitTag (some (it.1, rawv)) = [(it.1, pyStripWs rawv)] from by
      show (if it.1 = [] then [] else [(it.1, pyStripWs rawv)]) =
        [(it.1, pyStripWs rawv)]
      rw [if_neg hkne]]
    rw [hstrip]
    show Except.ok (emitTag st ++ ([(it.1, pyStrOf it.2)] ++
      rest.map (fun it => (it.1, pyStrOf it.2)))) = _
    simp

theorem foldl_congr_mem {α β : Type} {f g : β → α → β} : ∀ (l : List α) (b : β),
    (∀ a ∈ l, ∀ x, f x a = g x a) → List.foldl f b l = List.foldl g b l := by
  intro l
  induction l with
  | nil => intro b _; rfl
  | cons a t ih =>
    intro b h
    rw [List.foldl_cons, List.foldl_cons, h a (by simp)]
    exact ih _ (fun a2 ha2 => h a2 (by simp [ha2]))

theorem accumIns_new : ∀ (acc : List (Str × PyVal)) (k : Str) (v0 : Option Str),
    (∀ kv ∈ acc, kv.1 ≠ k) →
    accumIns acc k v0 = acc ++ [(k, scalarOf v0)] := by
  intro acc
  induction acc with
  | nil => intro k v0 _; rfl
  | cons kv rest ih =>
    intro k v0 h
    match kv with
    | (k0, u) =>
      unfold accumIns
      rw [if_neg (h (k0, u) (by simp))]
      rw [ih k v0 (fun kv2 hkv2 => h kv2 (by simp [hkv2]))]
      rfl

theorem accumIns_found : ∀ (acc : List (Str × PyVal)) (k : Str) (cur : PyVal)
    (v0 : Option Str) (t : List (Str × PyVal)),
    (∀ kv ∈ acc, kv.1 ≠ k) →
    accumIns (acc ++ (k, cur) :: t) k v0 = acc ++ (k, pushVal cur v0) :: t := by
  intro acc
  induction acc with
  | nil =>
    intro k cur v0 t _
    rw [List.nil_append, List.nil_append]
    unfold accumIns
    rw [if_pos rfl]
  | cons kv rest ih =>
    intro k cur v0 t h
    match kv with
    | (k0, u) =>
      rw [List.cons_append, List.cons_append]
      unfold accumIns
      rw [if_neg (h (k0, u) (by simp))]
      rw [ih k cur v0 t (fun kv2 hkv2 => h kv2 (by simp [hkv2]))]

theorem accum_group : ∀ (vs : List (Option Str)) (acc : List (Str × PyVal))
    (k : Str) (cur : PyVal),
    (∀ kv ∈ acc, kv.1 ≠ k) →
    List.foldl (fun a v0 => accumIns a k v0) (acc ++ [(k, cur)]) vs =
      acc ++ [(k, List.foldl pushVal cur vs)] := by
  intro vs
  induction vs with
  | nil => intro acc k cur _; rfl
  | cons v0 rest ih =>
    intro acc k cur h
    rw [List.foldl_cons, List.foldl_cons]
    rw [accumIns_found acc k cur v0 [] h]
    exact ih acc k (pushVal cur v0) h

theorem foldl_push_list : ∀ (vs : List (Option Str)) (ls : List (Option Str)),
    List.foldl pushVal (PyVal.list ls) vs = PyVal.list (ls ++ vs) := by
  intro vs
  induction vs with
  | nil => intro ls; simp
  | cons v0 rest ih =>
    intro ls
    rw [List.foldl_cons]
    rw [show pushVal (PyVal.list ls) v0 = PyVal.list (ls ++ [v0]) from rfl]
    rw [ih (ls ++ [v0])]
    simp

theorem rebuild_val : ∀ (v : PyVal), (∀ vs, v = PyVal.list vs → 2 ≤ vs.length) →
    ∀ v1 rest, valueList v = v1 :: rest →
    List.foldl pushVal (scalarOf v1) rest = v := by
  intro v hlen v1 rest hvl
  cases v with
  | none =>
    unfold valueList at hvl
    injection hvl with h1 h2
    rw [← h1, ← h2]
    rfl
  | str s =>
    unfold valueList at hvl
    injection hvl with h1 h2
    rw [← h1, ← h2]
    rfl
  | list vs =>
    unfold valueList at hvl
    subst hvl
    cases rest with
    | nil =>
      have := hlen [v1] rfl
      simp at this
    | cons v2 rest2 =>
      rw [List.foldl_cons]
      rw [show pushVal (scalarOf v1) v2 = PyVal.list [v1, v2] from by
        cases v1 <;> rfl]
      rw [foldl_push_list]
      rfl

theorem sortedIns_perm (x : Str) : ∀ (l : List Str),
    (sortedIns x l).Perm (x :: l) := by
  intro l
  induction l with
  | nil => exact List.Perm.refl _
  | cons y ys ih =>
    unfold sortedIns
    by_cases h : lexLe y x = true
    · rw [if_pos h]
      exact (ih.cons y).trans (List.Perm.swap x y ys)
    · rw [if_neg h]

theorem pySorted_perm : ∀ (l : List Str), (pySorted l).Perm l := by
  intro l
  induction l with
  | nil => exact List.Perm.refl _
  | cons x xs ih =>
    unfold pySorted
    exact (sortedIns_perm x (pySorted xs)).trans (ih.cons x)

theorem tagHeaders_perm (keys : List Str) : (tagHeaders keys).Perm keys := by
  unfold tagHeaders
  have hmemiff : ∀ t ∈ keys,
      (decide (t ∈ keys.filter (fun t => decide (pyLower t ∈ TERMS)))) =
        decide (pyLower t ∈ TERMS) := by
    intro t ht
    by_cases hp : pyLower t ∈ TERMS
    · rw [decide_eq_true hp, decide_eq_true
        (List.mem_filter.mpr ⟨ht, decide_eq_true hp⟩)]
    · rw [decide_eq_false hp]
      exact decide_eq_false
        (fun hmem => hp (of_decide_eq_true (List.mem_filter.mp hmem).2))
  have h2 : keys.filter
      (fun t => !decide (t ∈ keys.filter (fun t => decide (pyLower t ∈ TERMS)))) =
      keys.filter (fun t => !decide (pyLower t ∈ TERMS)) :=
    List.filter_congr (fun t ht => by rw [hmemiff t ht])
  have h1 := (pySorted_perm keys).filter
    (fun t => !decide (t ∈ keys.filter (fun t => decide (pyLower t ∈ TERMS))))
  refine (h1.append_left _).trans ?_
  rw [h2]
  exact List.filter_append_perm _ keys

theorem lookup_map_self {β : Type} (f : Str → β) : ∀ (l : List Str),
    ∀ k, List.lookup k (l.map (fun h => (h, f h))) =
      if k ∈ l then some (f k) else none := by
  intro l
  induction l with
  | nil =>
    intro k
    simp
  | cons h0 t ih =>
    intro k
    rw [List.map_cons]
    by_cases hk : k = h0
    · subst hk
      rw [if_pos (by simp)]
      simp [List.lookup]
    · rw [List.lookup_cons]
      rw [show (k == h0) = false from beq_false_of_ne hk]
      rw [ih k]
      by_cases hmem : k ∈ t
      · rw [if_pos hmem, if_pos (by simp [hmem])]
      · rw [if_neg hmem, if_neg (by simp [hk, hmem])]

theorem lookup_self_mem : ∀ (m : List (Str × PyVal)) (k : Str),
    k ∈ m.map Prod.fst → ∃ v, List.lookup k m = some v ∧ (k, v) ∈ m := by
  intro m
  induction m with
  | nil =>
    intro k hk
    simp at hk
  | cons kv rest ih =>
    intro k hk
    match kv with
    | (k0, v0) =>
      by_cases he : k = k0
      · subst he
        exact ⟨v0, by simp [List.lookup], by simp⟩
      · rw [List.map_cons] at hk
        rcases List.mem_cons.mp hk with h | h
        · exact absurd h he
        · obtain ⟨v, hv1, hv2⟩ := ih k h
          refine ⟨v, ?_, by simp [hv2]⟩
          rw [List.lookup_cons, show (k == k0) = false from beq_false_of_ne he]
          exact hv1

theorem assoc_self : ∀ (m : List (Str × PyVal)), (m.map Prod.fst).Nodup →
    m = (m.map Prod.fst).map
      (fun k => (k, (List.lookup k m).getD PyVal.none)) := by
  intro m
  induction m with
  | nil => intro _; rfl
  | cons kv rest ih =>
    intro hnd
    match kv with
    | (k0, v0) =>
      rw [List.map_cons, List.map_cons]
      rw [List.map_cons] at hnd
      rw [List.nodup_cons] at hnd
      obtain ⟨hk0, hndrest⟩ := hnd
      have hhead : (List.lookup k0 ((k0, v0) :: rest)).getD PyVal.none = v0 := by
        simp [List.lookup]
      rw [hhead]
      have htail : (rest.map Prod.fst).map
          (fun k => (k, (List.lookup k ((k0, v0) :: rest)).getD PyVal.none)) =
          (rest.map Prod.fst).map
            (fun k => (k, (List.lookup k rest).getD PyVal.none)) := by
        refine List.map_congr_left ?_
        intro k hk
        have hne : k ≠ k0 := fun he => hk0 (he ▸ hk)
        rw [List.lookup_cons, show (k == k0) = false from beq_false_of_ne hne]
      rw [htail, ← ih hndrest]

theorem flatMap_congr_mem {α β : Type} {f g : α → List β} : ∀ (l : List α),
    (∀ a ∈ l, f a = g a) → l.flatMap f = l.flatMap g := by
  intro l
  induction l with
  | nil => intro _; rfl
  | cons a t ih =>
    intro h
    rw [List.flatMap_cons, List.flatMap_cons, h a (by simp),
      ih (fun b hb => h b (by simp [hb]))]

theorem flatMap_map_assoc {α β γ : Type} (g : α → List β) (f : α → β → γ) :
    ∀ (l : List α),
    l.flatMap (fun h => (g h).map (f h)) =
      (l.flatMap (fun h => (g h).map (fun v => (h, v)))).map
        (fun p => f p.1 p.2) := by
  intro l
  induction l with
  | nil => rfl
  | cons a t ih =>
    rw [List.flatMap_cons, List.flatMap_cons, List.map_append, ih,
      List.map_map]
    congr 1

theorem accum_blocks : ∀ (hs : List Str) (vOf : Str → PyVal)
    (acc : List (Str × PyVal)),
    hs.Nodup →
    (∀ h ∈ hs, ∀ kv ∈ acc, kv.1 ≠ h) →
    (∀ h ∈ hs, valueList (vOf h) ≠ []) →
    (∀ h ∈ hs, ∀ v0 ∈ valueList (vOf h), toTagVal (pyStrOf v0) = v0) →
    (∀ h ∈ hs, ∀ vs, vOf h = PyVal.list vs → 2 ≤ vs.length) →
    List.foldl (fun a nv => accumIns a nv.1 (toTagVal nv.2)) acc
      (hs.flatMap (fun h =>
        (valueList (vOf h)).map (fun v0 => (h, pyStrOf v0)))) =
      acc ++ hs.map (fun h => (h, vOf h)) := by
  intro hs
  induction hs with
  | nil =>
    intro vOf acc _ _ _ _ _
    simp
  | cons h0 hrest ih =>
    intro vOf acc hnodup hfresh hvne hround hlen
    rw [List.nodup_cons] at hnodup
    rw [List.flatMap_cons, List.foldl_append]
    cases hvl : valueList (vOf h0) with
    | nil => exact absurd hvl (hvne h0 (by simp))
    | cons v1 vrest =>
      rw [List.map_cons, List.foldl_cons]
      rw [show toTagVal (pyStrOf v1) = v1 from
        hround h0 (by simp) v1 (by rw [hvl]; simp)]
      rw [accumIns_new acc h0 v1 (fun kv hkv => hfresh h0 (by simp) kv hkv)]
      rw [List.foldl_map]
      rw [@foldl_congr_mem (Option Str) (List (Str × PyVal))
        (fun x v0 => accumIns x h0 (toTagVal (pyStrOf v0)))
        (fun x v0 => accumIns x h0 v0) vrest (acc ++ [(h0, scalarOf v1)])
        (fun v0 hv0 x => by
          show accumIns x h0 (toTagVal (pyStrOf v0)) = accumIns x h0 v0
          rw [hround h0 (by simp) v0 (by rw [hvl]; simp [hv0])])]
      rw [accum_group vrest acc h0 (scalarOf v1)
        (fun kv hkv => hfresh h0 (by simp) kv hkv)]
      rw [rebuild_val (vOf h0) (hlen h0 (by simp)) v1 vrest hvl]
      rw [ih vOf (acc ++ [(h0, vOf h0)]) hnodup.2 ?_ ?_ ?_ ?_]
      · simp
      · intro h hh kv hkv
        rcases List.mem_append.mp hkv with hkv2 | hkv2
        · exact hfresh h (by simp [hh]) kv hkv2
        · rw [List.mem_singleton] at hkv2
          rw [hkv2]
          intro he
          have he2 : h0 = h := he
          rw [he2] at hnodup
          exact hnodup.1 hh
      · exact fun h hh => hvne h (by simp [hh])
      · exact fun h hh => hround h (by simp [hh])
      · exact fun h hh => hlen h (by simp [hh])

theorem good_field_items {k : Str} {v : PyVal} (hf : GoodField k v) :
    valueList v ≠ [] ∧ dropField false v = false ∧
    (∀ vs, v = PyVal.list vs → 2 ≤ vs.length) ∧
    ∀ v0 ∈ valueList v, toTagVal (pyStrOf v0) = v0 ∧
      ∃ vws, (∀ w ∈ vws, goodWord w = true) ∧ vws ≠ [] ∧
        pyStrOf v0 = List.intercalate [' '] vws ∧
        (k ∈ specialNames → vws.length ≤ 1) := by
  have hnone : toTagVal (pyStrOf Option.none) = Option.none := by decide
  have hnonewords : ∃ vws, (∀ w ∈ vws, goodWord w = true) ∧ vws ≠ [] ∧
      pyStrOf Option.none = List.intercalate [' '] vws ∧
      (k ∈ specialNames → vws.length ≤ 1) := by
    refine ⟨["None".data], by decide, by simp, ?_, fun _ => by simp⟩
    rw [intercalate_singleton]
    rfl
  have hsome : ∀ s, GoodVal k s → toTagVal (pyStrOf (some s)) = some s ∧
      ∃ vws, (∀ w ∈ vws, goodWord w = true) ∧ vws ≠ [] ∧
        pyStrOf (some s) = List.intercalate [' '] vws ∧
        (k ∈ specialNames → vws.length ≤ 1) := by
    intro s hv
    obtain ⟨vws, hgw, hvne, hseq, hnn, hnl, hsp⟩ := hv
    refine ⟨?_, vws, hgw, hvne, hseq, hsp⟩
    unfold toTagVal
    rw [if_neg]
    · rfl
    · rintro (he | he)
      · exact hnn he
      · exact hnl he
  cases v with
  | none =>
    refine ⟨by simp [valueList], rfl, (by intro vs he; nomatch he), ?_⟩
    intro v0 hv0
    rw [show valueList PyVal.none = [Option.none] from rfl,
      List.mem_singleton] at hv0
    subst hv0
    exact ⟨hnone, hnonewords⟩
  | str s =>
    have hv := hf.2
    obtain ⟨vws, hgw, hvne, hseq, hnn, hnl, hsp⟩ := hv
    refine ⟨by simp [valueList], ?_, (by intro vs he; nomatch he), ?_⟩
    · unfold dropField
      rw [Bool.false_and, Bool.false_or]
      rw [decide_eq_false (fun he : PyVal.str s = PyVal.str "None".data =>
        hnn (by injection he))]
      rw [decide_eq_false (fun he : PyVal.str s = PyVal.str "null".data =>
        hnl (by injection he))]
      rfl
    · intro v0 hv0
      rw [show valueList (PyVal.str s) = [some s] from rfl,
        List.mem_singleton] at hv0
      subst hv0
      exact hsome s ⟨vws, hgw, hvne, hseq, hnn, hnl, hsp⟩
  | list vs =>
    obtain ⟨hlen2, hels⟩ := hf.2
    refine ⟨?_, rfl, ?_, ?_⟩
    · rw [show valueList (PyVal.list vs) = vs from rfl]
      intro he
      rw [he] at hlen2
      simp at hlen2
    · intro vs2 he
      injection he with he2
      rw [← he2]
      exact hlen2
    · intro v0 hv0
      rw [show valueList (PyVal.list vs) = vs from rfl] at hv0
      cases v0 with
      | none => exact ⟨hnone, hnonewords⟩
      | some s => exact hsome s (hels (some s) hv0 s rfl)

theorem decode_makeTags {m : List (Str × PyVal)} (hgm : goodMapping m)
    (hm : m ≠ []) :
    decodeTags (makeTags m false) =
      Except.ok ((tagHeaders (m.map Prod.fst)).map
        (fun h => (h, (List.lookup h m).getD PyVal.none))) := by
  obtain ⟨hnd, hfields⟩ := hgm
  have hperm := tagHeaders_perm (m.map Prod.fst)
  have hhsnd : (tagHeaders (m.map Prod.fst)).Nodup := (hperm.nodup_iff).mpr hnd
  have hhgood : ∀ h ∈ tagHeaders (m.map Prod.fst),
      GoodField h ((List.lookup h m).getD PyVal.none) := by
    intro h hh
    obtain ⟨v, hv1, hv2⟩ := lookup_self_mem m h (hperm.mem_iff.mp hh)
    have hf := hfields (h, v) hv2
    rw [hv1]
    exact hf
  have htext : makeTags m false = joinCRLF
      ((tagHeaders (m.map Prod.fst)).flatMap (fun h =>
        if dropField false ((List.lookup h m).getD PyVal.none) then []
        else (valueList ((List.lookup h m).getD PyVal.none)).map
          (fun v => joinCRLF (tagBlockLines h v)))) := rfl
  have hnodropped : (tagHeaders (m.map Prod.fst)).flatMap (fun h =>
        if dropField false ((List.lookup h m).getD PyVal.none) then []
        else (valueList ((List.lookup h m).getD PyVal.none)).map
          (fun v => joinCRLF (tagBlockLines h v))) =
      (tagHeaders (m.map Prod.fst)).flatMap (fun h =>
        (valueList ((List.lookup h m).getD PyVal.none)).map
          (fun v => joinCRLF (tagBlockLines h v))) := by
    refine flatMap_congr_mem _ ?_
    intro h hh
    rw [if_neg (by
      rw [(good_field_items (hhgood h hh)).2.1]
      exact Bool.false_ne_true)]
  have hassoc := flatMap_map_assoc
    (fun h => valueList ((List.lookup h m).getD PyVal.none))
    (fun h v => joinCRLF (tagBlockLines h v)) (tagHeaders (m.map Prod.fst))
  have htext2 : makeTags m false = joinCRLF
      (((tagHeaders (m.map Prod.fst)).flatMap (fun h =>
        (valueList ((List.lookup h m).getD PyVal.none)).map
          (fun v => (h, v)))).map
        (fun p => joinCRLF (tagBlockLines p.1 p.2))) :=
    htext.trans (congrArg joinCRLF (hnodropped.trans hassoc))
  have hitem : ∀ it ∈ (tagHeaders (m.map Prod.fst)).flatMap (fun h =>
        (valueList ((List.lookup h m).getD PyVal.none)).map (fun v => (h, v))),
      tagBlockLines it.1 it.2 ≠ [] ∧
      (∀ l ∈ tagBlockLines it.1 it.2, ∀ c ∈ l, c ≠ '\r' ∧ c ≠ '\n') ∧
      it.1 ≠ [] ∧ ∃ rawv, pyStripWs rawv = pyStrOf it.2 ∧
        ∀ st rest, parseLoop st (tagBlockLines it.1 it.2 ++ rest) =
          (emitTag st ++ ·) <$> parseLoop (some (it.1, rawv)) rest := by
    intro it hit
    obtain ⟨h, hh, hin⟩ := List.mem_flatMap.mp hit
    obtain ⟨v0, hv0, heq⟩ := List.mem_map.mp hin
    obtain ⟨hvln, hdrp, hlen2, hvals⟩ := good_field_items (hhgood h hh)
    obtain ⟨hround, vws, hgw, hvne, hveq, hsp⟩ := hvals v0 hv0
    obtain ⟨hws, hkw⟩ := (hhgood h hh).1
    obtain ⟨lines, hlineseq, hlne, hclean, rawv, hstrip, hparse⟩ :=
      tag_block_ok hkw v0 vws hgw hvne hveq hsp
    rw [← heq]
    refine ⟨?_, ?_, key_ne_nil hkw, rawv, hstrip, ?_⟩
    · show tagBlockLines h v0 ≠ []
      rw [hlineseq]
      exact hlne
    · show ∀ l ∈ tagBlockLines h v0, _
      rw [hlineseq]
      exact hclean
    · intro st rest
      show parseLoop st (tagBlockLines h v0 ++ rest) = _
      rw [hlineseq]
      exact hparse st rest
  have hlinesne : ∀ bl ∈ ((tagHeaders (m.map Prod.fst)).flatMap (fun h =>
        (valueList ((List.lookup h m).getD PyVal.none)).map
          (fun v => (h, v)))).map (fun p => tagBlockLines p.1 p.2), bl ≠ [] := by
    intro bl hbl
    obtain ⟨it, hit, hblEq⟩ := List.mem_map.mp hbl
    rw [← hblEq]
    exact (hitem it hit).1
  have hIne : (tagHeaders (m.map Prod.fst)).flatMap (fun h =>
      (valueList ((List.lookup h m).getD PyVal.none)).map
        (fun v => (h, v))) ≠ [] := by
    have hkeysne : m.map Prod.fst ≠ [] := by
      intro he
      exact hm (List.map_eq_nil_iff.mp he)
    have hhne : tagHeaders (m.map Prod.fst) ≠ [] := by
      intro he
      refine hkeysne (List.length_eq_zero.mp ?_)
      rw [← hperm.length_eq, he]
      rfl
    obtain ⟨h0, hh0⟩ := List.exists_mem_of_ne_nil _ hhne
    obtain ⟨v00, hv00⟩ := List.exists_mem_of_ne_nil _
      (good_field_items (hhgood h0 hh0)).1
    exact List.ne_nil_of_mem (List.mem_flatMap.mpr
      ⟨h0, hh0, List.mem_map.mpr ⟨v00, hv00, rfl⟩⟩)
  have hflatne : (((tagHeaders (m.map Prod.fst)).flatMap (fun h =>
      (valueList ((List.lookup h m).getD PyVal.none)).map
        (fun v => (h, v)))).map (fun p => tagBlockLines p.1 p.2)).flatten ≠ [] :=
    flatten_ne_nil (by
      intro he
      exact hIne (List.map_eq_nil_iff.mp he)) hlinesne
  have hcleanflat : ∀ l ∈ (((tagHeaders (m.map Prod.fst)).flatMap (fun h =>
      (valueList ((List.lookup h m).getD PyVal.none)).map
        (fun v => (h, v)))).map (fun p => tagBlockLines p.1 p.2)).flatten,
      ∀ c ∈ l, c ≠ '\r' ∧ c ≠ '\n' := by
    intro l hl
    obtain ⟨bl, hbl, hlbl⟩ := List.mem_flatten.mp hl
    obtain ⟨it, hit, hblEq⟩ := List.mem_map.mp hbl
    rw [← hblEq] at hlbl
    exact (hitem it hit).2.1 l hlbl
  have hsplit : splitLines (makeTags m false) =
      (((tagHeaders (m.map Prod.fst)).flatMap (fun h =>
        (valueList ((List.lookup h m).getD PyVal.none)).map
          (fun v => (h, v)))).map (fun p => tagBlockLines p.1 p.2)).flatten := by
    rw [htext2]
    rw [show ((tagHeaders (m.map Prod.fst)).flatMap (fun h =>
        (valueList ((List.lookup h m).getD PyVal.none)).map
          (fun v => (h, v)))).map (fun p => joinCRLF (tagBlockLines p.1 p.2)) =
      (((tagHeaders (m.map Prod.fst)).flatMap (fun h =>
        (valueList ((List.lookup h m).getD PyVal.none)).map
          (fun v => (h, v)))).map (fun p => tagBlockLines p.1 p.2)).map joinCRLF
      from by rw [List.map_map]; rfl]
    rw [joinCRLF_nest _ hlinesne]
    exact splitLines_joinCRLF _ hflatne hcleanflat
  have hparsed := parse_items ((tagHeaders (m.map Prod.fst)).flatMap (fun h =>
      (valueList ((List.lookup h m).getD PyVal.none)).map (fun v => (h, v))))
    (fun it hit => ⟨(hitem it hit).2.2.1, (hitem it hit).2.2.2⟩) Option.none
  unfold decodeTags
  rw [hsplit, hparsed]
  show Except.ok (accumTags (emitTag Option.none ++
    ((tagHeaders (m.map Prod.fst)).flatMap (fun h =>
      (valueList ((List.lookup h m).getD PyVal.none)).map
        (fun v => (h, v)))).map (fun it => (it.1, pyStrOf it.2)))) = _
  rw [show emitTag Option.none = [] from rfl, List.nil_append]
  rw [show ((tagHeaders (m.map Prod.fst)).flatMap (fun h =>
      (valueList ((List.lookup h m).getD PyVal.none)).map
        (fun v => (h, v)))).map (fun it => (it.1, pyStrOf it.2)) =
    (tagHeaders (m.map Prod.fst)).flatMap (fun h =>
      (valueList ((List.lookup h m).getD PyVal.none)).map
        (fun v0 => (h, pyStrOf v0))) from
    (flatMap_map_assoc _ (fun h v0 => (h, pyStrOf v0)) _).symm]
  unfold accumTags
  rw [accum_blocks (tagHeaders (m.map Prod.fst))
    (fun h => (List.lookup h m).getD PyVal.none) [] hhsnd
    (fun h hh kv hkv => absurd hkv (List.not_mem_nil kv))
    (fun h hh => (good_field_items (hhgood h hh)).1)
    (fun h hh v0 hv0 => ((good_field_items (hhgood h hh)).2.2.2 v0 hv0).1)
    (fun h hh => (good_field_items (hhgood h hh)).2.2.1)]
  rw [List.nil_append]

/-- Claim C1 (amended): tag-file round-trip.  For a well-formed metadata
mapping (distinct keys of underscore-joined lower-case key words of at most
68 characters; values that are `None`, single-space-separated printable
words distinct from the literal strings `None` and `null`, or lists of two
or more such scalars; at most one word for the no-space-folded fields),
decoding the text produced by `_make_tags(m, strip_nulls=False)` with the
`_parse_tags`/`_load_tag_file` decoder yields the mapping back up to the
header reordering of `_make_tags`: every field is present with its exact
value, repeated-field values stay ordered sequences, and the decoded dict
is a permutation of the original. -/
theorem claim_C1_tag_roundtrip (m : List (Str × PyVal)) (hgm : goodMapping m) :
    ∃ dm, decodeTags (makeTags m false) = Except.ok dm ∧ dm.Perm m ∧
      ∀ k, List.lookup k dm = List.lookup k m := by
  by_cases hm : m = []
  · subst hm
    exact ⟨[], rfl, List.Perm.refl _, fun k => rfl⟩
  · rw [decode_makeTags hgm hm]
    refine ⟨_, rfl, ?_, ?_⟩
    · refine ((tagHeaders_perm (m.map Prod.fst)).map
        (fun h => (h, (List.lookup h m).getD PyVal.none))).trans ?_
      rw [← assoc_self m hgm.1]
    · intro k
      rw [lookup_map_self (fun h => (List.lookup h m).getD PyVal.none)
        (tagHeaders (m.map Prod.fst)) k]
      conv_rhs => rw [assoc_self m hgm.1]
      rw [lookup_map_self (fun h => (List.lookup h m).getD PyVal.none)
        (m.map Prod.fst) k]
      by_cases hk : k ∈ m.map Prod.fst
      · rw [if_pos hk,
          if_pos ((tagHeaders_perm (m.map Prod.fst)).mem_iff.mpr hk)]
      · rw [if_neg hk, if_neg (fun hmem =>
          hk ((tagHeaders_perm (m.map Prod.fst)).mem_iff.mp hmem))]

/-- Witness for claim C1: a concrete well-formed mapping with a scalar
string field and an ordered two-element list field round-trips. -/
theorem claim_C1_witness :
    goodMapping [("title".data, PyVal.str "hello world".data),
      ("note".data, PyVal.list [some "x".data, Option.none])] ∧
    ∃ dm, decodeTags (makeTags [("title".data, PyVal.str "hello world".data),
        ("note".data, PyVal.list [some "x".data, Option.none])] false) =
      Except.ok dm ∧
      dm.Perm [("title".data, PyVal.str "hello world".data),
        ("note".data, PyVal.list [some "x".data, Option.none])] ∧
      ∀ k, List.lookup k dm = List.lookup k
        [("title".data, PyVal.str "hello world".data),
          ("note".data, PyVal.list [some "x".data, Option.none])] := by
  have hgm : goodMapping [("title".data, PyVal.str "hello world".data),
      ("note".data, PyVal.list [some "x".data, Option.none])] := by
    constructor
    · decide
    · intro kv hkv
      rcases List.mem_cons.mp hkv with h | h
      · rw [h]
        exact ⟨⟨["title".data], by unfold KeyWords; decide⟩,
          ⟨["hello".data, "world".data], by unfold ValWords; decide⟩⟩
      · rcases List.mem_cons.mp h with h2 | h2
        · rw [h2]
          refine ⟨⟨["note".data], by unfold KeyWords; decide⟩, by decide, ?_⟩
          intro e he s hes
          rcases List.mem_cons.mp he with h3 | h3
          · rw [h3] at hes
            injection hes with hes2
            rw [← hes2]
            exact ⟨["x".data], by unfold ValWords; decide⟩
          · rw [List.mem_singleton] at h3
            rw [h3] at hes
            nomatch hes
        · simp at h2
  exact ⟨hgm, claim_C1_tag_roundtrip _ hgm⟩

/-- Counterexample to claim C1 as stated: the value `"null"` contains no
raw newline or control character, yet `_make_tags` drops the whole field
even with `strip_nulls=False` (the `or` in its drop test binds outside the
`strip_nulls` conjunct), so decoding returns the empty mapping rather than
the original one. -/
theorem claim_C1_counterexample :
    makeTags [("note".data, PyVal.str "null".data)] false = [] ∧
    decodeTags (makeTags [("note".data, PyVal.str "null".data)] false) =
      Except.ok [] ∧
    List.lookup "note".data [("note".data, PyVal.str "null".data)] =
      some (PyVal.str "null".data) := by
  refine ⟨by decide, by decide, rfl⟩

/-- Claim C5 (amended): null stripping in `_make_tags`.  A `None` value is
dropped exactly when `strip_nulls=True`, and with `strip_nulls=False` a
`None`-valued field of a well-formed key is emitted as the literal `None`
token and decodes back to an explicitly-present `None` field; but a field
whose value is the literal string `"None"` or `"null"` is dropped under
BOTH modes (the `or` of the drop test binds outside the `strip_nulls`
conjunct), not only when stripping is requested. -/
theorem claim_C5_null_stripping (k : Str) (hws : List Str)
    (hk : KeyWords k hws) :
    (∀ stripNulls, dropField stripNulls PyVal.none = stripNulls) ∧
    (∀ stripNulls s, (s = "None".data ∨ s = "null".data) →
      dropField stripNulls (PyVal.str s) = true) ∧
    decodeTags (makeTags [(k, PyVal.none)] false) =
      Except.ok [(k, PyVal.none)] := by
  refine ⟨?_, ?_, ?_⟩
  · intro b
    cases b <;> rfl
  · intro b s hs
    rcases hs with h | h <;> subst h <;> cases b <;> decide
  · have hgm : goodMapping [(k, PyVal.none)] := by
      constructor
      · simp
      · intro kv hkv
        rw [List.mem_singleton] at hkv
        rw [hkv]
        exact ⟨⟨hws, hk⟩, trivial⟩
    rw [decode_makeTags hgm (by simp)]
    rw [show ([(k, PyVal.none)].map Prod.fst) = [k] from rfl]
    rw [List.perm_singleton.mp (tagHeaders_perm [k])]
    simp [List.lookup]

/-- Witness for claim C5 at the well-formed key `note`. -/
theorem claim_C5_witness :
    KeyWords "note".data ["note".data] ∧
    ((∀ stripNulls, dropField stripNulls PyVal.none = stripNulls) ∧
    (∀ stripNulls s, (s = "None".data ∨ s = "null".data) →
      dropField stripNulls (PyVal.str s) = true) ∧
    decodeTags (makeTags [("note".data, PyVal.none)] false) =
      Except.ok [("note".data, PyVal.none)]) :=
  ⟨by unfold KeyWords; decide,
    claim_C5_null_stripping "note".data ["note".data]
      (by unfold KeyWords; decide)⟩

/-- Counterexample to claim C5 as stated: with `strip_nulls=False` a field
holding the literal string `"None"` is dropped entirely instead of being
kept, so it is not distinguishable from a never-set field on reload. -/
theorem claim_C5_counterexample :
    dropField false (PyVal.str "None".data) = true ∧
    makeTags [("title".data, PyVal.str "None".data)] false = [] ∧
    decodeTags (makeTags [("title".data, PyVal.str "None".data)] false) =
      Except.ok [] := by
  refine ⟨by decide, by decide, by decide⟩

theorem fGet_fSet_ne : ∀ (f : FileAttrs) (k1 k : Str) (v : PyVal), k1 ≠ k →
    fGet (fSet f k1 v) k = fGet f k := by
  intro f
  induction f with
  | nil =>
    intro k1 k v hne
    unfold fSet fGet
    rw [List.lookup_cons, show (k == k1) = false from beq_false_of_ne
      (fun he => hne he.symm)]
  | cons kv rest ih =>
    intro k1 k v hne
    match kv with
    | (k0, v0) =>
      unfold fSet
      by_cases he : k0 = k1
      · rw [if_pos he]
        unfold fGet
        rw [List.lookup_cons, List.lookup_cons]
        rw [show (k == k0) = false from beq_false_of_ne
          (fun hee => hne (hee.trans he).symm)]
      · rw [if_neg he]
        unfold fGet
        rw [List.lookup_cons, List.lookup_cons]
        by_cases hk0 : k = k0
        · rw [show (k == k0) = true from beq_iff_eq.mpr hk0]
        · rw [show (k == k0) = false from beq_false_of_ne hk0]
          exact ih k1 k v hne

theorem fold_skip_pres : ∀ (tags : List (Str × PyVal)) (f2 : FileAttrs)
    (k : Str), k ∈ skipKeys →
    fGet (tags.foldl (fun acc kv =>
      if kv.1 ∈ skipKeys then acc else fSet acc kv.1 kv.2) f2) k = fGet f2 k := by
  intro tags
  induction tags with
  | nil => intro f2 k _; rfl
  | cons kv rest ih =>
    intro f2 k hk
    rw [List.foldl_cons]
    by_cases hin : kv.1 ∈ skipKeys
    · rw [if_pos hin]
      exact ih f2 k hk
    · rw [if_neg hin]
      rw [ih (fSet f2 kv.1 kv.2) k hk]
      exact fGet_fSet_ne f2 kv.1 k kv.2 (fun he => hin (he ▸ hk))

theorem loadFileOverlay_nil (idv : Str) (f2p : FileAttrs) :
    loadFileOverlay [] idv f2p = Except.ok (some f2p) := by
  unfold loadFileOverlay
  by_cases htv : truthyVal (fGet f2p "format".data) = true
  · rw [if_pos htv]
    rfl
  · rw [if_neg htv]

/-- Claim C6 (amended): sidecar precedence on load.  Whenever `load_file`
returns a `File`, the four filename-derived attributes in its skip list —
`filename`, `basename`, `format` and `ext` — agree with the load that reads
no sidecar at all: stored sidecar values never override them.  The
`identifier` is, however, NOT in the skip list: it is first re-derived from
the filename, but a sidecar `identifier` field then overrides it (see the
counterexample), so the claim's list of protected fields is too large. -/
theorem claim_C6_sidecar_precedence (rootFound : Bool) (fresh : Str)
    (fs : List (Str × Str)) (filename : Str) (f2 : FileAttrs)
    (h : loadFile rootFound fresh fs filename = Except.ok (some f2)) :
    ∃ f0, loadFile rootFound fresh [] filename = Except.ok (some f0) ∧
      ∀ k ∈ skipKeys, fGet f2 k = fGet f0 k := by
  cases rootFound with
  | false =>
    rw [show loadFile false fresh fs filename = Except.ok Option.none
      from rfl] at h
    nomatch h
  | true =>
    rw [show loadFile true fresh fs filename = loadFileWith fs filename
      (fGetUuid (fInit filename) fresh) from rfl] at h
    rw [show loadFile true fresh [] filename = loadFileWith [] filename
      (fGetUuid (fInit filename) fresh) from rfl]
    unfold loadFileWith at h ⊢
    cases hc : containsSub
        (fGetStr (fGetUuid (fInit filename) fresh) "identifier".data)
        filename with
    | false =>
      rw [hc] at h
      rw [if_pos (show (!false) = true from rfl)] at h ⊢
      rw [Except.ok.injEq, Option.some.injEq] at h
      exact ⟨f2, by rw [h], fun k hk => rfl⟩
    | true =>
      rw [hc] at h
      rw [if_neg (by simp)] at h ⊢
      cases hg : fGfp (fGetUuid (fInit filename) fresh) with
      | error e =>
        rw [hg] at h
        nomatch h
      | ok f2p =>
        rw [hg] at h
        rw [show Except.bind (Except.ok f2p)
          (loadFileOverlay fs (fGetStr (fGetUuid (fInit filename) fresh)
            "identifier".data)) =
          loadFileOverlay fs (fGetStr (fGetUuid (fInit filename) fresh)
            "identifier".data) f2p from rfl] at h
        rw [show Except.bind (Except.ok f2p)
          (loadFileOverlay [] (fGetStr (fGetUuid (fInit filename) fresh)
            "identifier".data)) =
          loadFileOverlay [] (fGetStr (fGetUuid (fInit filename) fresh)
            "identifier".data) f2p from rfl]
        rw [loadFileOverlay_nil]
        refine ⟨f2p, rfl, ?_⟩
        unfold loadFileOverlay at h
        by_cases htv : truthyVal (fGet f2p "format".data) = true
        · rw [if_pos htv] at h
          cases hlk : List.lookup ("file_metadata/".data ++
              fGetStr (fGetUuid (fInit filename) fresh) "identifier".data ++
              '.' :: fGetStr f2p "format".data ++ ".txt".data) fs with
          | none =>
            rw [hlk] at h
            rw [show (match (Option.none : Option Str) with
              | Option.none => Except.ok (some f2p)
              | some content => (decodeTags content).map (fun tags =>
                  some (tags.foldl (fun acc kv =>
                    if kv.1 ∈ skipKeys then acc
                    else fSet acc kv.1 kv.2) f2p))) =
              Except.ok (some f2p) from rfl] at h
            rw [Except.ok.injEq, Option.some.injEq] at h
            rw [← h]
            exact fun k hk => rfl
          | some content =>
            rw [hlk] at h
            rw [show (match (some content : Option Str) with
              | Option.none => Except.ok (some f2p)
              | some content => (decodeTags content).map (fun tags =>
                  some (tags.foldl (fun acc kv =>
                    if kv.1 ∈ skipKeys then acc
                    else fSet acc kv.1 kv.2) f2p))) =
              (decodeTags content).map (fun tags =>
                  some (tags.foldl (fun acc kv =>
                    if kv.1 ∈ skipKeys then acc
                    else fSet acc kv.1 kv.2) f2p)) from rfl] at h
            cases hdt : decodeTags content with
            | error e =>
              rw [hdt] at h
              nomatch h
            | ok tags =>
              rw [hdt] at h
              rw [show (Except.ok tags).map (fun tags =>
                  some (tags.foldl (fun acc kv =>
                    if kv.1 ∈ skipKeys then acc
                    else fSet acc kv.1 kv.2) f2p)) =
                Except.ok (some (tags.foldl (fun acc kv =>
                  if kv.1 ∈ skipKeys then acc
                  else fSet acc kv.1 kv.2) f2p)) from rfl] at h
              rw [Except.ok.injEq, Option.some.injEq] at h
              rw [← h]
              intro k hk
              exact fold_skip_pres tags f2p k hk
        · rw [if_neg htv] at h
          rw [Except.ok.injEq, Option.some.injEq] at h
          rw [← h]
          exact fun k hk => rfl

/-- Witness for claim C6: a concrete load through a sidecar file whose
skip-listed fields agree with the sidecar-free load. -/
theorem claim_C6_witness :
    loadFile true "ffffffff-ffff-ffff-ffff-ffffffffffff".data
      [("file_metadata/aaaaaaaa-aaaa-aaaa-aaaa-aaaaaaaaaaaa.png.txt".data,
        "identifier: evil".data)]
      "p.png.aaaaaaaa-aaaa-aaaa-aaaa-aaaaaaaaaaaa.jpg".data =
      Except.ok (some
        [("filename".data,
            PyVal.str "p.png.aaaaaaaa-aaaa-aaaa-aaaa-aaaaaaaaaaaa.jpg".data),
          ("sha512".data, PyVal.none), ("sha256".data, PyVal.none),
          ("size".data, PyVal.none), ("mtime".data, PyVal.none),
          ("identifier".data, PyVal.str "evil".data),
          ("basename".data, PyVal.str "p".data),
          ("format".data, PyVal.str "png".data),
          ("ext".data, PyVal.str "jpg".data), ("preview".data, PyVal.none),
          ("dimensions".data, PyVal.none), ("duration".data, PyVal.none),
          ("thumb".data, PyVal.none)]) ∧
    ∃ f0, loadFile true "ffffffff-ffff-ffff-ffff-ffffffffffff".data []
        "p.png.aaaaaaaa-aaaa-aaaa-aaaa-aaaaaaaaaaaa.jpg".data =
        Except.ok (some f0) ∧
      ∀ k ∈ skipKeys,
        fGet [("filename".data,
            PyVal.str "p.png.aaaaaaaa-aaaa-aaaa-aaaa-aaaaaaaaaaaa.jpg".data),
          ("sha512".data, PyVal.none), ("sha256".data, PyVal.none),
          ("size".data, PyVal.none), ("mtime".data, PyVal.none),
          ("identifier".data, PyVal.str "evil".data),
          ("basename".data, PyVal.str "p".data),
          ("format".data, PyVal.str "png".data),
          ("ext".data, PyVal.str "jpg".data), ("preview".data, PyVal.none),
          ("dimensions".data, PyVal.none), ("duration".data, PyVal.none),
          ("thumb".data, PyVal.none)] k = fGet f0 k :=
  ⟨by decide,
    claim_C6_sidecar_precedence true
      "ffffffff-ffff-ffff-ffff-ffffffffffff".data
      [("file_metadata/aaaaaaaa-aaaa-aaaa-aaaa-aaaaaaaaaaaa.png.txt".data,
        "identifier: evil".data)]
      "p.png.aaaaaaaa-aaaa-aaaa-aaaa-aaaaaaaaaaaa.jpg".data
      [("filename".data,
          PyVal.str "p.png.aaaaaaaa-aaaa-aaaa-aaaa-aaaaaaaaaaaa.jpg".data),
        ("sha512".data, PyVal.none), ("sha256".data, PyVal.none),
        ("size".data, PyVal.none), ("mtime".data, PyVal.none),
        ("identifier".data, PyVal.str "evil".data),
        ("basename".data, PyVal.str "p".data),
        ("format".data, PyVal.str "png".data),
        ("ext".data, PyVal.str "jpg".data), ("preview".data, PyVal.none),
        ("dimensions".data, PyVal.none), ("duration".data, PyVal.none),
        ("thumb".data, PyVal.none)] (by decide)⟩

/-- Counterexample to claim C6 as stated: the `identifier` is missing from
`load_file`'s skip list, so a sidecar `identifier` field overrides the
identifier just recognised in the filename — `evil` wins over the
filename's `aaaaaaaa-aaaa-aaaa-aaaa-aaaaaaaaaaaa`, which the sidecar-free
load returns. -/
theorem claim_C6_counterexample :
    (loadFile true "ffffffff-ffff-ffff-ffff-ffffffffffff".data
      [("file_metadata/aaaaaaaa-aaaa-aaaa-aaaa-aaaaaaaaaaaa.png.txt".data,
        "identifier: evil".data)]
      "p.png.aaaaaaaa-aaaa-aaaa-aaaa-aaaaaaaaaaaa.jpg".data).map
      (Option.map (fun f2 => fGet f2 "identifier".data)) =
      Except.ok (some (PyVal.str "evil".data)) ∧
    (loadFile true "ffffffff-ffff-ffff-ffff-ffffffffffff".data []
      "p.png.aaaaaaaa-aaaa-aaaa-aaaa-aaaaaaaaaaaa.jpg".data).map
      (Option.map (fun f2 => fGet f2 "identifier".data)) =
      Except.ok (some (PyVal.str
        "aaaaaaaa-aaaa-aaaa-aaaa-aaaaaaaaaaaa".data)) := by
  refine ⟨by decide, by decide⟩

theorem intercalate_length_le {pre ws2 : List Str} {n : Nat}
    (h : (List.intercalate [' '] (pre ++ ws2)).length ≤ n) :
    (List.intercalate [' '] pre).length ≤ n := by
  rcases pre with _ | ⟨u, rest⟩
  · simp [List.intercalate, List.intersperse]
  · rcases ws2 with _ | ⟨x, t⟩
    · simpa using h
    · rw [intercalate_sp_append (u :: rest) (by simp) (x :: t) (by simp)] at h
      rw [List.length_append] at h
      omega

end Odea
